import Mathlib

/-!
# Arg-Parser: the argument model and the token resolver

A shallow embedding of `lib/Arguments.hpp` and `lib/ArgParser.cpp`.

Conventions of the embedding.

* A `std::string` is the list of its characters (`Str`).
* A nullable pointer to a value slot (`value_`, `multi_value_`) is an `Option`:
  `none` is `nullptr`, `some v` is a slot (owned or bound to a caller location)
  that currently holds `v`.  A caller location is written by nobody else while
  the parser runs.
* The address that `StoreValue` or `StoreValues` stores in the pointer is kept
  aside, in `Bound`.  `Parse` is the method for a parser in which every caller
  location is bound to one argument.  `ParseShared` is the method with the
  addresses given: a write through one pointer is read through every pointer
  that holds the same address.  With no location bound to two arguments the
  two are one function (`ParseShared_unshared`); with shared locations the two
  walks over the tokens still make the same steps, and they leave every
  argument whose storage is not shared in the same state
  (`ParseTokensShared_sim`).
* `int32_t` values are integers; `std::stoi` checks the range.  A token index is
  a natural number (the non-negative `int32_t` `index`).
* A call either completes or raises; undefined behaviour (reading through a
  null pointer, reading an uninitialised `int32_t`) is recorded as a `Failure`
  of its own, so that it is never mistaken for a returned value.
* `Parse` is recursive on the token index; the embedding runs it on a fuel
  counter that `Parse` sets to the number of remaining tokens plus one.
-/

namespace ArgumentParser

/-- A `std::string`. -/
abbrev Str := List Char

/-- The ways in which a call can fail to return. -/
inductive Failure
  | invalid_argument
  | out_of_range
  | runtime_error
  | null_dereference
  | indeterminate_value
  deriving DecidableEq, Repr

/-- A call that reads: the value it returns, or the failure it ends in. -/
inductive Checked (α : Type)
  | ok (v : α)
  | error (e : Failure)
  deriving DecidableEq, Repr

/-- The state left by a call together with the way it ended. -/
inductive Result (σ : Type)
  | done (s : σ)
  | raised (e : Failure) (s : σ)
  deriving DecidableEq, Repr

/-! ## `std::stoi` -/

/-- The C locale `isspace`: space, and the controls 9 to 13. -/
def isspace (c : Char) : Bool :=
  c.toNat = 32 || (9 ≤ c.toNat && c.toNat ≤ 13)

/-- The C locale `isdigit`. -/
def isdigit (c : Char) : Bool :=
  48 ≤ c.toNat && c.toNat ≤ 57

/-- The number written by a list of decimal digits. -/
def digitsToNat (ds : List Char) : Nat :=
  ds.foldl (fun n c => 10 * n + (c.toNat - 48)) 0

/-- The sign and the rest of a numeral: `strtol` accepts one optional `+` or `-`. -/
def splitSign : Str → Bool × Str
  | '-' :: r => (true, r)
  | '+' :: r => (false, r)
  | s => (false, s)

/-- The range check of `std::stoi` on the number that `strtol` read. -/
def to_int (v : Int) : Checked Int :=
  if v < -2147483648 ∨ 2147483647 < v then .error .out_of_range else .ok v

/-- The call `std::stoi(value)` (base 10): leading white space is skipped, an
optional sign and the longest run of digits are read, what follows is ignored;
no digit raises `std::invalid_argument`, a number outside `int` raises
`std::out_of_range`. -/
def stoi (value : Str) : Checked Int :=
  let body := splitSign (value.dropWhile isspace)
  let ds := body.2.takeWhile isdigit
  if ds = [] then .error .invalid_argument
  else to_int (if body.1 then -(digitsToNat ds : Int) else (digitsToNat ds : Int))

/-- The call `v.at(index)` of a `std::vector` with an `int32_t` index: the index
is converted to `size_t`, so a negative one is out of range as well. -/
def vector_at {α : Type} (v : List α) (index : Int) : Checked α :=
  if index < 0 then .error .out_of_range
  else
    match v.get? index.toNat with
    | some x => .ok x
    | none => .error .out_of_range

/-- The conversion of an `int32_t` to the 64-bit `size_t`. -/
def to_size_t (n : Int) : Int := n % 18446744073709551616

/-! ## Int argument -/

/-- The class `IntArgument`; `default_value_` has no initialiser in the source,
so it is `none` until `Default` writes it. -/
structure IntArgument where
  short_name_ : Char
  name_ : Str
  description_ : Str
  value_ : Option Int
  multi_value_ : Option (List Int)
  default_value_ : Option Int
  default_multi_value_ : List Int
  is_default_ : Bool
  multi_value_count_ : Int
  is_multi_value_ : Bool
  is_set_ : Bool
  is_positional_ : Bool
  is_stored_ : Bool
  deriving DecidableEq, Repr

namespace IntArgument

/-- The constructor `IntArgument(short_name, name, description)`. -/
def new (short_name : Char) (name description : Str) : IntArgument :=
  { short_name_ := short_name, name_ := name, description_ := description,
    value_ := none, multi_value_ := none, default_value_ := none,
    default_multi_value_ := [], is_default_ := false, multi_value_count_ := 0,
    is_multi_value_ := false, is_set_ := false, is_positional_ := false,
    is_stored_ := false }

/-- The method `IntArgument::SetValue`: the slot is allocated first when the pointer
is null, then `std::stoi(value)` is evaluated, and only when it returns is the
number stored and `is_set_` raised. -/
def SetValue (a : IntArgument) (value : Str) : Result IntArgument :=
  if a.is_multi_value_ then
    let a1 := { a with multi_value_ := some (a.multi_value_.getD []) }
    match stoi value with
    | .error e => .raised e a1
    | .ok v => .done { a1 with multi_value_ := some (a.multi_value_.getD [] ++ [v]), is_set_ := true }
  else
    let a1 := { a with value_ := some (a.value_.getD 0) }
    match stoi value with
    | .error e => .raised e a1
    | .ok v => .done { a1 with value_ := some v, is_set_ := true }

/-- The method `IntArgument::IsCorrect`; `multi_value_->size()` reads through the pointer. -/
def IsCorrect (a : IntArgument) : Checked Bool :=
  if a.is_multi_value_ then
    match a.multi_value_ with
    | none => .error .null_dereference
    | some vs =>
      .ok (!(decide ((vs.length : Int) < to_size_t a.multi_value_count_)
              && decide (a.multi_value_count_ ≠ 0)))
  else .ok (a.is_set_ || a.is_default_)

/-- The method `IntArgument::IsPositional`. -/
def IsPositional (a : IntArgument) : Bool := a.is_positional_

/-- The method `IntArgument::IsMultiValue`. -/
def IsMultiValue (a : IntArgument) : Bool := a.is_multi_value_

/-- The method `IntArgument::ValuesCount`. -/
def ValuesCount (a : IntArgument) : Int :=
  if a.is_multi_value_ then
    if a.multi_value_count_ ≠ 0 then a.multi_value_count_ else 2147483647
  else 1

/-- The method `IntArgument::GetValue`. -/
def GetValue (a : IntArgument) (index : Int) : Checked Int :=
  if a.is_multi_value_ then
    if a.is_set_ then
      match a.multi_value_ with
      | none => .error .null_dereference
      | some vs => vector_at vs index
    else vector_at a.default_multi_value_ index
  else
    if a.is_set_ then
      match a.value_ with
      | none => .error .null_dereference
      | some v => .ok v
    else
      match a.default_value_ with
      | none => .error .indeterminate_value
      | some v => .ok v

/-- The method `IntArgument::Positional`. -/
def Positional (a : IntArgument) : IntArgument :=
  { a with is_positional_ := true }

/-- The method `IntArgument::Default(int32_t)`. -/
def Default (a : IntArgument) (value : Int) : Result IntArgument :=
  if a.is_multi_value_ then .raised .runtime_error a
  else .done { a with default_value_ := some value, is_default_ := true }

/-- The method `IntArgument::Default(const std::vector<int32_t>&)`. -/
def DefaultValues (a : IntArgument) (values : List Int) : Result IntArgument :=
  if !a.is_multi_value_ then .raised .runtime_error a
  else .done { a with default_multi_value_ := values, is_default_ := true }

/-- The method `IntArgument::MultiValue`. -/
def MultiValue (a : IntArgument) (count : Int) : IntArgument :=
  { a with multi_value_count_ := count, is_multi_value_ := true }

/-- The method `IntArgument::StoreValue`, `value_ = &value`: `value` is what the
caller location holds, and `Bound.StoreValue` keeps its address. -/
def StoreValue (a : IntArgument) (value : Int) : Result IntArgument :=
  if a.is_multi_value_ then .raised .runtime_error a
  else .done { a with value_ := some value, is_stored_ := true }

/-- The method `IntArgument::StoreValues`, `multi_value_ = &values`: `values` is what
the caller vector holds, and `Bound.StoreValues` keeps its address. -/
def StoreValues (a : IntArgument) (values : List Int) : Result IntArgument :=
  if !a.is_multi_value_ then .raised .runtime_error a
  else .done { a with multi_value_ := some values, is_stored_ := true }

end IntArgument

/-! ## String argument -/

/-- The class `StringArgument`. -/
structure StringArgument where
  short_name_ : Char
  name_ : Str
  description_ : Str
  value_ : Option Str
  multi_value_ : Option (List Str)
  default_value_ : Str
  default_multi_value_ : List Str
  is_default_ : Bool
  multi_value_count_ : Int
  is_multi_value_ : Bool
  is_set_ : Bool
  is_positional_ : Bool
  is_stored_ : Bool
  deriving DecidableEq, Repr

namespace StringArgument

/-- The constructor `StringArgument(short_name, name, description)`. -/
def new (short_name : Char) (name description : Str) : StringArgument :=
  { short_name_ := short_name, name_ := name, description_ := description,
    value_ := none, multi_value_ := none, default_value_ := [],
    default_multi_value_ := [], is_default_ := false, multi_value_count_ := 0,
    is_multi_value_ := false, is_set_ := false, is_positional_ := false,
    is_stored_ := false }

/-- The method `StringArgument::SetValue`. -/
def SetValue (a : StringArgument) (value : Str) : StringArgument :=
  if a.is_multi_value_ then
    { a with multi_value_ := some (a.multi_value_.getD [] ++ [value]), is_set_ := true }
  else
    { a with value_ := some value, is_set_ := true }

/-- The method `StringArgument::IsCorrect`; `multi_value_->size()` reads through the pointer. -/
def IsCorrect (a : StringArgument) : Checked Bool :=
  if a.is_multi_value_ then
    match a.multi_value_ with
    | none => .error .null_dereference
    | some vs =>
      .ok (!(decide ((vs.length : Int) < to_size_t a.multi_value_count_)
              && decide (a.multi_value_count_ ≠ 0)))
  else .ok (a.is_set_ || a.is_default_)

/-- The method `StringArgument::IsPositional`. -/
def IsPositional (a : StringArgument) : Bool := a.is_positional_

/-- The method `StringArgument::IsMultiValue`. -/
def IsMultiValue (a : StringArgument) : Bool := a.is_multi_value_

/-- The method `StringArgument::ValuesCount`. -/
def ValuesCount (a : StringArgument) : Int :=
  if a.is_multi_value_ then
    if a.multi_value_count_ ≠ 0 then a.multi_value_count_ else 2147483647
  else 1

/-- The method `StringArgument::GetValue`. -/
def GetValue (a : StringArgument) (index : Int) : Checked Str :=
  if a.is_multi_value_ then
    if a.is_set_ then
      match a.multi_value_ with
      | none => .error .null_dereference
      | some vs => vector_at vs index
    else vector_at a.default_multi_value_ index
  else
    if a.is_set_ then
      match a.value_ with
      | none => .error .null_dereference
      | some v => .ok v
    else .ok a.default_value_

/-- The method `StringArgument::Positional`. -/
def Positional (a : StringArgument) : StringArgument :=
  { a with is_positional_ := true }

/-- The method `StringArgument::Default(const std::string&)`. -/
def Default (a : StringArgument) (value : Str) : Result StringArgument :=
  if a.is_multi_value_ then .raised .runtime_error a
  else .done { a with default_value_ := value, is_default_ := true }

/-- The method `StringArgument::Default(const std::vector<std::string>&)`. -/
def DefaultValues (a : StringArgument) (values : List Str) : Result StringArgument :=
  if !a.is_multi_value_ then .raised .runtime_error a
  else .done { a with default_multi_value_ := values, is_default_ := true }

/-- The method `StringArgument::MultiValue`. -/
def MultiValue (a : StringArgument) (count : Int) : StringArgument :=
  { a with multi_value_count_ := count, is_multi_value_ := true }

/-- The method `StringArgument::StoreValue`, `value_ = &value`: `value` is what the
caller location holds, and `Bound.StoreValue` keeps its address. -/
def StoreValue (a : StringArgument) (value : Str) : Result StringArgument :=
  if a.is_multi_value_ then .raised .runtime_error a
  else .done { a with value_ := some value, is_stored_ := true }

/-- The method `StringArgument::StoreValues`, `multi_value_ = &values`: `values` is
what the caller vector holds, and `Bound.StoreValues` keeps its address. -/
def StoreValues (a : StringArgument) (values : List Str) : Result StringArgument :=
  if !a.is_multi_value_ then .raised .runtime_error a
  else .done { a with multi_value_ := some values, is_stored_ := true }

end StringArgument

/-! ## Flag argument -/

/-- The class `FlagArgument`. -/
structure FlagArgument where
  short_name_ : Char
  name_ : Str
  description_ : Str
  value_ : Option Bool
  default_value_ : Bool
  is_stored_ : Bool
  deriving DecidableEq, Repr

namespace FlagArgument

/-- The constructor `FlagArgument(short_name, name, description)`. -/
def new (short_name : Char) (name description : Str) : FlagArgument :=
  { short_name_ := short_name, name_ := name, description_ := description,
    value_ := none, default_value_ := false, is_stored_ := false }

/-- The method `FlagArgument::SetValue`: the raw value is not read. -/
def SetValue (a : FlagArgument) (_value : Str) : FlagArgument :=
  { a with value_ := some (!a.default_value_) }

/-- The method `FlagArgument::IsCorrect`. -/
def IsCorrect (_a : FlagArgument) : Checked Bool := .ok true

/-- The method `FlagArgument::GetValue`: the index is not read. -/
def GetValue (a : FlagArgument) (_index : Int) : Bool :=
  match a.value_ with
  | none => a.default_value_
  | some v => v

/-- The method `FlagArgument::Default`. -/
def Default (a : FlagArgument) (value : Bool) : FlagArgument :=
  { a with default_value_ := value }

/-- The method `FlagArgument::StoreValue`, `value_ = &value`: `value` is what the
caller location holds, and `Bound.StoreValue` keeps its address. -/
def StoreValue (a : FlagArgument) (value : Bool) : FlagArgument :=
  { a with value_ := some value, is_stored_ := true }

/-- The method `FlagArgument::IsPositional`. -/
def IsPositional (_a : FlagArgument) : Bool := false

/-- The method `FlagArgument::ValuesCount`. -/
def ValuesCount (_a : FlagArgument) : Int := 0

end FlagArgument

/-! ## The base class: dynamic dispatch over the three kinds -/

/-- A `BaseArgument*`: an object of one of the three derived classes. -/
inductive BaseArgument
  | int (a : IntArgument)
  | string (a : StringArgument)
  | flag (a : FlagArgument)
  deriving DecidableEq, Repr

namespace BaseArgument

/-- The virtual `SetValue`. -/
def SetValue : BaseArgument → Str → Result BaseArgument
  | .int a, value =>
    match a.SetValue value with
    | .done a1 => .done (.int a1)
    | .raised e a1 => .raised e (.int a1)
  | .string a, value => .done (.string (a.SetValue value))
  | .flag a, value => .done (.flag (a.SetValue value))

/-- The virtual `IsCorrect`. -/
def IsCorrect : BaseArgument → Checked Bool
  | .int a => a.IsCorrect
  | .string a => a.IsCorrect
  | .flag a => a.IsCorrect

/-- The virtual `IsPositional`. -/
def IsPositional : BaseArgument → Bool
  | .int a => a.IsPositional
  | .string a => a.IsPositional
  | .flag a => a.IsPositional

/-- The virtual `IsMultiValue`; `FlagArgument` inherits the base `false`. -/
def IsMultiValue : BaseArgument → Bool
  | .int a => a.IsMultiValue
  | .string a => a.IsMultiValue
  | .flag _ => false

/-- The virtual `ValuesCount`. -/
def ValuesCount : BaseArgument → Int
  | .int a => a.ValuesCount
  | .string a => a.ValuesCount
  | .flag a => a.ValuesCount

end BaseArgument

/-! ## The parser -/

/-- The class `ArgParser`: `arguments_` in registration order, the map
`short_names_` as an association list, and the positional buffer. -/
structure ArgParser where
  name_ : Str
  arguments_ : List (Str × BaseArgument)
  short_names_ : List (Char × Str)
  positional_arguments_ : List (Nat × Str)
  deriving DecidableEq, Repr

/-- A line written to `std::cerr`. -/
inductive Diagnostic
  | unknown_argument (name : Str)
  | positional_not_correct
  | argument_not_correct (name : Str)
  deriving DecidableEq, Repr

/-- How a call of `Parse` ends. -/
inductive Outcome
  | returned (b : Bool)
  | raised (e : Failure)
  | out_of_fuel
  deriving DecidableEq, Repr

/-- The parser object after a call of `Parse`, the line the call wrote to
`std::cerr`, and how it ended. -/
structure ParseResult where
  parser : ArgParser
  cerr : Option Diagnostic
  outcome : Outcome
  deriving DecidableEq, Repr

/-- What one invocation of `Parse` below the end of the tokens does: it ends
the parse, or it calls `Parse(args, index)` on the updated object. -/
inductive Step
  | next (p : ArgParser) (index : Nat)
  | stop (r : ParseResult)
  deriving DecidableEq, Repr

/-- The method `ArgParser::GetArgument` on the vector `arguments_`: the first entry
under the name. -/
def GetArgument : List (Str × BaseArgument) → Str → Option BaseArgument
  | [], _ => none
  | (n, a) :: rest, name => if n = name then some a else GetArgument rest name

/-- Writing through the pointer that `GetArgument` returned for `name`. -/
def StoreArgument : List (Str × BaseArgument) → Str → BaseArgument → List (Str × BaseArgument)
  | [], _, _ => []
  | (n, a) :: rest, name, a1 =>
    if n = name then (n, a1) :: rest else (n, a) :: StoreArgument rest name a1

namespace ArgParser

/-- The constructor `ArgParser(name)`. -/
def new (name : Str) : ArgParser :=
  { name_ := name, arguments_ := [], short_names_ := [], positional_arguments_ := [] }

/-- The object after a write through the pointer to the argument `name`. -/
def store (p : ArgParser) (name : Str) (a : BaseArgument) : ArgParser :=
  { p with arguments_ := StoreArgument p.arguments_ name a }

/-- The call `short_names_.insert`: a key that is present keeps its entry. -/
def insertShort (p : ArgParser) (short_name : Char) (name : Str) : ArgParser :=
  match p.short_names_.lookup short_name with
  | some _ => p
  | none => { p with short_names_ := p.short_names_ ++ [(short_name, name)] }

/-- The common body of the `Add...` methods. -/
def register (p : ArgParser) (short_name : Char) (name : Str) (a : BaseArgument) : ArgParser :=
  insertShort { p with arguments_ := p.arguments_ ++ [(name, a)] } short_name name

/-- The method `ArgParser::AddHelp`; `configure` is the chain of modifiers called on
the returned reference. -/
def AddHelp (p : ArgParser) (short_name : Char) (name description : Str)
    (configure : FlagArgument → FlagArgument) : ArgParser :=
  p.register short_name name (.flag (configure (FlagArgument.new short_name name description)))

/-- The method `ArgParser::AddStringArgument`; `configure` is the chain of modifiers
called on the returned reference. -/
def AddStringArgument (p : ArgParser) (short_name : Char) (name description : Str)
    (configure : StringArgument → StringArgument) : ArgParser :=
  p.register short_name name (.string (configure (StringArgument.new short_name name description)))

/-- The method `ArgParser::AddIntArgument`; `configure` is the chain of modifiers called
on the returned reference. -/
def AddIntArgument (p : ArgParser) (short_name : Char) (name description : Str)
    (configure : IntArgument → IntArgument) : ArgParser :=
  p.register short_name name (.int (configure (IntArgument.new short_name name description)))

/-- The method `ArgParser::AddFlag`; `configure` is the chain of modifiers called on
the returned reference. -/
def AddFlag (p : ArgParser) (short_name : Char) (name description : Str)
    (configure : FlagArgument → FlagArgument) : ArgParser :=
  p.register short_name name (.flag (configure (FlagArgument.new short_name name description)))

end ArgParser

/-! ## `Parse` -/

/-- The call `s.find(c)`: the index of the first occurrence, `none` for `npos`. -/
def find (c : Char) : Str → Option Nat
  | [] => none
  | x :: rest => if x = c then some 0 else (find c rest).map (· + 1)

/-- The test `token[0] == '-'`; on the empty string `token[0]` is the terminator. -/
def beginsWithHyphen : Str → Bool
  | '-' :: _ => true
  | _ => false

/-- The value loop of an option occurrence (lines 61-66 and 107-112):
`while (index + 1 < args.size() && args[index + 1][0] != '-' && count > 0)`;
the last argument is `args` from `index + 1` on. -/
def consumeValues : BaseArgument → Nat → Int → List Str → Result (BaseArgument × Nat)
  | argument, index, _, [] => .done (argument, index)
  | argument, index, count, token :: rest =>
    if !beginsWithHyphen token && decide (count > 0) then
      match argument.SetValue token with
      | .done a => consumeValues a (index + 1) (count - 1) rest
      | .raised e a => .raised e (a, index)
    else .done (argument, index)

/-- Lines 57-66 and 103-112: `count = argument->ValuesCount()`, the call
`SetValue()` when `count == 0`, then the value loop. -/
def takeValues (argument : BaseArgument) (args : List Str) (index : Nat) :
    Result (BaseArgument × Nat) :=
  let count := argument.ValuesCount
  if count = 0 then
    match argument.SetValue [] with
    | .done a => consumeValues a index count (args.drop (index + 1))
    | .raised e a => .raised e (a, index)
  else consumeValues argument index count (args.drop (index + 1))

/-- The exit `Unknown argument ...; return false`. -/
def unknownArgument (p : ArgParser) (name : Str) : Step :=
  .stop { parser := p, cerr := some (.unknown_argument name), outcome := .returned false }

/-- An exception leaving `Parse`. -/
def raise (p : ArgParser) (e : Failure) : Step :=
  .stop { parser := p, cerr := none, outcome := .raised e }

/-- Lines 38-68: the token `--name` or `--name=value`; `name` is `args[index].substr(2)`. -/
def ParseLong (p : ArgParser) (args : List Str) (index : Nat) (name : Str) : Step :=
  match find '=' name with
  | some k =>
    let value := name.drop (k + 1)
    let name := name.take k
    match GetArgument p.arguments_ name with
    | none => unknownArgument p name
    | some argument =>
      match argument.SetValue value with
      | .raised e a => raise (p.store name a) e
      | .done a => .next (p.store name a) (index + 1)
  | none =>
    match GetArgument p.arguments_ name with
    | none => unknownArgument p name
    | some argument =>
      match takeValues argument args index with
      | .raised e (a, _) => raise (p.store name a) e
      | .done (a, index) => .next (p.store name a) (index + 1)

/-- Lines 76-90: the characters of a cluster `-xyz=value`, each given `value`. -/
def ParseShortInline (value : Str) (index : Nat) : List Char → ArgParser → Step
  | [], p => .next p (index + 1)
  | sname :: names, p =>
    match p.short_names_.lookup sname with
    | none => unknownArgument p [sname]
    | some name =>
      match GetArgument p.arguments_ name with
      | none => unknownArgument p name
      | some argument =>
        match argument.SetValue value with
        | .raised e a => raise (p.store name a) e
        | .done a => ParseShortInline value index names (p.store name a)

/-- Lines 92-114: the characters of a cluster `-xyz`, each taking its values from
the tokens after the shared `index`. -/
def ParseShortCluster (args : List Str) : List Char → ArgParser → Nat → Step
  | [], p, index => .next p (index + 1)
  | sname :: names, p, index =>
    match p.short_names_.lookup sname with
    | none => unknownArgument p [sname]
    | some name =>
      match GetArgument p.arguments_ name with
      | none => unknownArgument p name
      | some argument =>
        match takeValues argument args index with
        | .raised e (a, _) => raise (p.store name a) e
        | .done (a, index) => ParseShortCluster args names (p.store name a) index

/-- Lines 70-115: the token `-xyz` or `-xyz=value`; `names` is `args[index].substr(1)`. -/
def ParseShort (p : ArgParser) (args : List Str) (index : Nat) (names : Str) : Step :=
  match find '=' names with
  | some k => ParseShortInline (names.drop (k + 1)) index (names.take k) p
  | none => ParseShortCluster args names p index

/-- Lines 117-123: the run of tokens from `index` on that do not begin with a
hyphen is pushed on the buffer under the number `index`. -/
def ParsePositional (p : ArgParser) (args : List Str) (index : Nat) : Step :=
  let run := (args.drop index).takeWhile (fun token => !beginsWithHyphen token)
  .next { p with positional_arguments_ :=
            p.positional_arguments_ ++ run.map (fun token => (index, token)) }
    (index + run.length)

/-- Lines 38-123: the body of `Parse` when `index < args.size()`. -/
def ParseToken (p : ArgParser) (args : List Str) (index : Nat) : Step :=
  match args.getD index [] with
  | '-' :: '-' :: name => ParseLong p args index name
  | '-' :: names => ParseShort p args index names
  | _ => ParsePositional p args index

/-- The inner loop of `UpdatePositionalArguments` (lines 134-138) for one
argument; the last argument is the buffer from the cursor `index` on. -/
def assignRun (current : Nat) : BaseArgument → List (Nat × Str) →
    Result (BaseArgument × List (Nat × Str))
  | argument, [] => .done (argument, [])
  | argument, (number, token) :: rest =>
    if number = current then
      match argument.SetValue token with
      | .done a => assignRun current a rest
      | .raised e a => .raised e (a, (number, token) :: rest)
    else .done (argument, (number, token) :: rest)

/-- The outer loop of `UpdatePositionalArguments` (lines 131-140) over
`arguments_`; the last argument is the buffer from the cursor `index` on. -/
def assignPositional (current : Nat) : List (Str × BaseArgument) → List (Nat × Str) →
    Result (List (Str × BaseArgument) × List (Nat × Str))
  | [], unread => .done ([], unread)
  | (name, argument) :: rest, unread =>
    if argument.IsPositional then
      match assignRun current argument unread with
      | .raised e (a, u) => .raised e ((name, a) :: rest, u)
      | .done (a, u) =>
        match assignPositional current rest u with
        | .raised e (rest1, u1) => .raised e ((name, a) :: rest1, u1)
        | .done (rest1, u1) => .done ((name, a) :: rest1, u1)
    else
      match assignPositional current rest unread with
      | .raised e (rest1, u1) => .raised e ((name, argument) :: rest1, u1)
      | .done (rest1, u1) => .done ((name, argument) :: rest1, u1)

/-- The method `ArgParser::UpdatePositionalArguments`: the object afterwards and the
returned `index == positional_arguments_.size()`. -/
def UpdatePositionalArguments (p : ArgParser) : Result (ArgParser × Bool) :=
  match p.positional_arguments_ with
  | [] => .done (p, true)
  | (current, _) :: _ =>
    match assignPositional current p.arguments_ p.positional_arguments_ with
    | .raised e (arguments, _) => .raised e ({ p with arguments_ := arguments }, false)
    | .done (arguments, unread) => .done ({ p with arguments_ := arguments }, unread.isEmpty)

/-- Lines 28-35: the loop that asks every argument `IsCorrect`. -/
def checkArguments (p : ArgParser) : List (Str × BaseArgument) → ParseResult
  | [] => { parser := p, cerr := none, outcome := .returned true }
  | (name, argument) :: rest =>
    match argument.IsCorrect with
    | .error e => { parser := p, cerr := none, outcome := .raised e }
    | .ok false => { parser := p, cerr := some (.argument_not_correct name), outcome := .returned false }
    | .ok true => checkArguments p rest

/-- The name under which `Parse` looks for the help flag. -/
def helpName : Str := ['h', 'e', 'l', 'p']

/-- Lines 21-35: positional reconciliation, `clear()`, and the `IsCorrect` loop. -/
def ParseValidate (p : ArgParser) : ParseResult :=
  match UpdatePositionalArguments p with
  | .raised e (p1, _) => { parser := p1, cerr := none, outcome := .raised e }
  | .done (p1, is_positional_correct) =>
    let p2 := { p1 with positional_arguments_ := [] }
    if !is_positional_correct then
      { parser := p2, cerr := some .positional_not_correct, outcome := .returned false }
    else checkArguments p2 p2.arguments_

/-- Lines 12-35: the body of `Parse` when `index >= args.size()`. -/
def ParseEnd (p : ArgParser) : ParseResult :=
  match GetArgument p.arguments_ helpName with
  | some (.flag flag_argument) =>
    { parser := p, cerr := none, outcome := .returned (flag_argument.GetValue 0) }
  | _ => ParseValidate p

/-- The method `ArgParser::Parse(args, index)`, with a bound on the depth of the recursion. -/
def ParseFuel : Nat → ArgParser → List Str → Nat → ParseResult
  | 0, p, _, _ => { parser := p, cerr := none, outcome := .out_of_fuel }
  | fuel + 1, p, args, index =>
    if args.length ≤ index then ParseEnd p
    else
      match ParseToken p args index with
      | .next p1 index1 => ParseFuel fuel p1 args index1
      | .stop r => r

/-- The method `ArgParser::Parse(args, index)`. -/
def Parse (p : ArgParser) (args : List Str) (index : Nat) : ParseResult :=
  ParseFuel (args.length - index + 1) p args index

/-- The method `ArgParser::GetStringValue`. -/
def GetStringValue (p : ArgParser) (name : Str) (index : Int) : Checked Str :=
  match GetArgument p.arguments_ name with
  | some (.string string_argument) => string_argument.GetValue index
  | _ => .ok []

/-- The method `ArgParser::GetIntValue`. -/
def GetIntValue (p : ArgParser) (name : Str) (index : Int) : Checked Int :=
  match GetArgument p.arguments_ name with
  | some (.int int_argument) => int_argument.GetValue index
  | _ => .ok 0

/-- The method `ArgParser::GetFlag`. -/
def GetFlag (p : ArgParser) (name : Str) (index : Int) : Bool :=
  match GetArgument p.arguments_ name with
  | some (.flag flag_argument) => flag_argument.GetValue index
  | _ => false

/-! ## The example of the specification -/

/-- The parser of the end-to-end example. -/
def exampleParser : ArgParser :=
  (((ArgParser.new "My Parser".toList).AddStringArgument 'i' "input".toList [] (fun a => a.MultiValue 1)).AddFlag
      's' "flag1".toList [] (fun a => a.Default true)).AddFlag 'p' "flag2".toList [] id
    |>.AddIntArgument (Char.ofNat 0) "number".toList [] id

/-- The token sequence of the end-to-end example. -/
def exampleArgs : List Str :=
  ["app".toList, "--input".toList, "a.txt".toList, "-s".toList, "--number".toList, "42".toList]

/-- The object with which the recursion of `Parse` arrives at the end of the
tokens; `none` when a token ends the parse before (an unknown option, a raised
exception). -/
def ParseTokens : Nat → ArgParser → List Str → Nat → Option ArgParser
  | 0, _, _, _ => none
  | fuel + 1, p, args, index =>
    if args.length ≤ index then some p
    else
      match ParseToken p args index with
      | .next p1 index1 => ParseTokens fuel p1 args index1
      | .stop _ => none

/-- The token sequence from `index` on is processed without failure. -/
def tokensProcessed (p : ArgParser) (args : List Str) (index : Nat) : Bool :=
  (ParseTokens (args.length - index + 1) p args index).isSome

/-- The name part of `--name` or `--name=value`, and the cluster of `-xyz` or
`-xyz=value`: the text before the first `=`. -/
def beforeEq (s : Str) : Str :=
  match find '=' s with
  | some k => s.take k
  | none => s

/-- The character of a cluster does not resolve: `short_names_` does not hold
it, or holds it under a name that `GetArgument` does not find. -/
def unknownShort (p : ArgParser) (c : Char) : Bool :=
  match p.short_names_.lookup c with
  | none => true
  | some name => (GetArgument p.arguments_ name).isNone

/-- The token names an option that `Parse` cannot resolve: a long name that
`GetArgument` does not find, or a cluster with a character that does not
resolve. -/
def unknownToken (p : ArgParser) : Str → Bool
  | '-' :: '-' :: name => (GetArgument p.arguments_ (beforeEq name)).isNone
  | '-' :: names => (beforeEq names).any (unknownShort p)
  | _ => false

/-- The token names the argument registered as `name`: as `--name`, as
`--name=value`, or by a character of a short cluster. -/
def namesArgument (p : ArgParser) (name : Str) : Str → Bool
  | '-' :: '-' :: text => beforeEq text = name
  | '-' :: names => (beforeEq names).any (fun c => p.short_names_.lookup c = some name)
  | _ => false

/-- Successive `SetValue` calls on one argument, up to the first that raises. -/
def SetValues : BaseArgument → List Str → Result BaseArgument
  | argument, [] => .done argument
  | argument, value :: rest =>
    match argument.SetValue value with
    | .done a => SetValues a rest
    | .raised e a => .raised e a

/-- What token processing keeps of an argument: its kind; for a flag the
default and a value that is the old one or the negated default; for a String or
Int argument what the modifiers configured. -/
def Evolves : BaseArgument → BaseArgument → Prop
  | .flag f, .flag g =>
    g.default_value_ = f.default_value_ ∧
      (g.value_ = f.value_ ∨ g.value_ = some (!f.default_value_))
  | .string a, .string b =>
    b.is_positional_ = a.is_positional_ ∧ b.is_multi_value_ = a.is_multi_value_ ∧
      b.multi_value_count_ = a.multi_value_count_ ∧ b.is_default_ = a.is_default_
  | .int a, .int b =>
    b.is_positional_ = a.is_positional_ ∧ b.is_multi_value_ = a.is_multi_value_ ∧
      b.multi_value_count_ = a.multi_value_count_ ∧ b.is_default_ = a.is_default_
  | _, _ => False

/-- Two `arguments_` vectors with the same names in the same order, entry by
entry related by `Evolves`. -/
def ArgsEvolve (l l1 : List (Str × BaseArgument)) : Prop :=
  List.Forall₂ (fun x y => x.1 = y.1 ∧ Evolves x.2 y.2) l l1

/-- The parser object keeps its names, kinds, flag defaults and `short_names_`. -/
def ParserEvolves (p p1 : ArgParser) : Prop :=
  ArgsEvolve p.arguments_ p1.arguments_ ∧ p1.short_names_ = p.short_names_

/-! ## Predicates of the statements, and the inputs of the examples -/

/-- A stoi failure. -/
def stoiFailure (e : Failure) : Prop := e = .invalid_argument ∨ e = .out_of_range

/-- What every step of `Parse` guarantees: a recursive call is made on a
greater index, over tokens that do not begin with a hyphen, with the names
kept; a step that ends the parse reports an unknown argument and returns false,
or passes on an exception of `std::stoi`. -/
def StepOk (p : ArgParser) (args : List Str) (index : Nat) : Step → Prop
  | .next p1 index1 =>
    ParserEvolves p p1 ∧ index < index1 ∧ index1 ≤ args.length ∧
      ∀ j, index < j → j < index1 → beginsWithHyphen (args.getD j []) = false
  | .stop r =>
    ParserEvolves p r.parser ∧
      ((r.outcome = .returned false ∧ ∃ n, r.cerr = some (.unknown_argument n)) ∨
        (∃ e, r.outcome = .raised e ∧ stoiFailure e ∧ r.cerr = none))

/-- The name resolves to a flag with default `d`. -/
def FlagReg (p : ArgParser) (nm : Str) (d : Bool) : Prop :=
  ∃ f, GetArgument p.arguments_ nm = some (.flag f) ∧ f.default_value_ = d

/-- The name resolves to a flag with default `d` whose slot holds `!d`. -/
def FlagSet (p : ArgParser) (nm : Str) (d : Bool) : Prop :=
  ∃ f, GetArgument p.arguments_ nm = some (.flag f) ∧ f.default_value_ = d ∧ f.value_ = some (!d)

/-- The call does not succeed: it returns false, or it passes on an exception of `std::stoi`. -/
def notSucceeded (o : Outcome) : Prop :=
  o = .returned false ∨ ∃ e, o = .raised e ∧ stoiFailure e

/-- The argument is a String or Int argument declared `MultiValue(k)`. -/
def declaredMultiValue : BaseArgument → Int → Prop
  | .string a, k => a.is_multi_value_ = true ∧ a.multi_value_count_ = k
  | .int a, k => a.is_multi_value_ = true ∧ a.multi_value_count_ = k
  | .flag _, _ => False

/-- The number of tokens that an occurrence of a `MultiValue(k)` argument takes
from a run of `n` tokens: `min(k, n)`, and `n` when `k` is 0. -/
def consumed (k : Int) (n : Nat) : Nat :=
  if k = 0 then n else min k.toNat n

/-- The parser with the single String argument registered as `a=b`. -/
def equalsNameParser : ArgParser :=
  (ArgParser.new "p".toList).AddStringArgument (Char.ofNat 0) "a=b".toList [] id

/-- The sequence that an Int argument has stored, `none` for a null `multi_value_`
and for the other kinds. -/
def storedInts : BaseArgument → Option (List Int)
  | .int a => a.multi_value_
  | _ => none

/-- The parser with the single Int argument `n`, declared `MultiValue(2)`. -/
def intPairParser : ArgParser :=
  (ArgParser.new "p".toList).AddIntArgument 'n' "n".toList [] (fun a => a.MultiValue 2)

/-- The parser with the single String argument `input`, declared `MultiValue(2)`. -/
def stringPairParser : ArgParser :=
  (ArgParser.new "p".toList).AddStringArgument 'i' "input".toList [] (fun a => a.MultiValue 2)

/-- The parser with the single Int argument `number`. -/
def intParser : ArgParser :=
  (ArgParser.new "p".toList).AddIntArgument 'n' "number".toList [] id

/-- The parser of `main.cpp`: the help flag, then the arguments of the example. -/
def helpExampleParser : ArgParser :=
  ((((ArgParser.new "My Parser".toList).AddHelp 'h' "help".toList
      "Some Description about program".toList id).AddStringArgument
      'i' "input".toList [] (fun a => a.MultiValue 1)).AddFlag
      's' "flag1".toList [] (fun a => a.Default true)).AddFlag 'p' "flag2".toList [] id
    |>.AddIntArgument (Char.ofNat 0) "number".toList [] id

/-- The parser with the independent flags `a` (default false) and `b` (default true). -/
def twoFlagsParser : ArgParser :=
  ((ArgParser.new "p".toList).AddFlag 'a' "alpha".toList [] id).AddFlag
    'b' "beta".toList [] (fun f => f.Default true)

/-- The String argument `MultiValue(2)` with the sequence default `a b`. -/
def pairWithDefault : StringArgument :=
  { (StringArgument.new 'x' "x".toList []).MultiValue 2 with
    default_multi_value_ := ["a".toList, "b".toList], is_default_ := true }

/-- The same argument after `StoreValues` on an empty caller vector. -/
def boundPairWithDefault : StringArgument :=
  { pairWithDefault with multi_value_ := some [], is_stored_ := true }

/-- The single-value String argument `out` with the default `a.out`. -/
def outWithDefault : StringArgument :=
  { StringArgument.new 'o' "out".toList [] with
    default_value_ := "a.out".toList, is_default_ := true }

/-- A single-value String or Int argument that has no default and is not set. -/
def requiredUnset : BaseArgument → Bool
  | .string a => !a.is_multi_value_ && !a.is_default_ && !a.is_set_
  | .int a => !a.is_multi_value_ && !a.is_default_ && !a.is_set_
  | .flag _ => false

/-- The object after a call, whether the call returned or raised. -/
def Result.state {σ : Type} : Result σ → σ
  | .done s => s
  | .raised _ s => s

/-- The parser with the single-value String argument `out`, default `a.out`. -/
def outDefaultParser : ArgParser :=
  (ArgParser.new "p".toList).AddStringArgument 'o' "out".toList []
    (fun a => (a.Default "a.out".toList).state)

/-- The single-value String argument `out` after `SetValue("x")`. -/
def outSetToX : StringArgument :=
  (StringArgument.new 'o' "out".toList []).SetValue "x".toList

/-- The parser with the single-value String argument `input`, holding `42`. -/
def holdsFortyTwoParser : ArgParser :=
  (ArgParser.new "p".toList).AddStringArgument 'i' "input".toList []
    (fun a => a.SetValue "42".toList)

/-- The parser object that a step leaves. -/
def Step.parser : Step → ArgParser
  | .next p _ => p
  | .stop r => r.parser

/-- The parser with the positional String arguments `first` and `second` and the flag `v`. -/
def twoPositionalsParser : ArgParser :=
  (((ArgParser.new "p".toList).AddStringArgument 'a' "first".toList []
      (fun a => a.Positional)).AddStringArgument 'b' "second".toList []
      (fun a => a.Positional)).AddFlag 'v' "verbose".toList [] id

instance : Inhabited BaseArgument := ⟨.flag (FlagArgument.new 'h' [] [])⟩

instance : Inhabited ArgParser := ⟨ArgParser.new []⟩

/-- The parser with the positional String argument `file` and the String argument `input`. -/
def fileInputParser : ArgParser :=
  ((ArgParser.new "p".toList).AddStringArgument 'f' "file".toList []
      (fun a => a.Positional)).AddStringArgument 'i' "input".toList [] id

/-- The parser with the positional multi-value String argument `files`. -/
def filesParser : ArgParser :=
  (ArgParser.new "p".toList).AddStringArgument 'f' "files".toList []
    (fun a => (a.Positional).MultiValue 0)

/-- A call of a modifier on the reference that `AddStringArgument` or
`AddIntArgument` returned; `α` is the type of the values. -/
inductive BuilderCall (α : Type)
  | Positional
  | Default (value : α)
  | DefaultValues (values : List α)
  | MultiValue (count : Int)
  | StoreValue (value : α)
  | StoreValues (values : List α)
  deriving DecidableEq, Repr

/-- The call writes a scalar default or binds a scalar location. -/
def BuilderCall.isScalar {α : Type} : BuilderCall α → Bool
  | .Default _ => true
  | .StoreValue _ => true
  | _ => false

/-- The call writes a sequence default or binds a sequence location. -/
def BuilderCall.isSequence {α : Type} : BuilderCall α → Bool
  | .DefaultValues _ => true
  | .StoreValues _ => true
  | _ => false

/-- The call is `MultiValue`. -/
def BuilderCall.isMultiValue {α : Type} : BuilderCall α → Bool
  | .MultiValue _ => true
  | _ => false

/-- One modifier call on a String argument. -/
def StringArgument.call (a : StringArgument) : BuilderCall Str → Result StringArgument
  | .Positional => .done a.Positional
  | .Default value => a.Default value
  | .DefaultValues values => a.DefaultValues values
  | .MultiValue count => .done (a.MultiValue count)
  | .StoreValue value => a.StoreValue value
  | .StoreValues values => a.StoreValues values

/-- One modifier call on an Int argument. -/
def IntArgument.call (a : IntArgument) : BuilderCall Int → Result IntArgument
  | .Positional => .done a.Positional
  | .Default value => a.Default value
  | .DefaultValues values => a.DefaultValues values
  | .MultiValue count => .done (a.MultiValue count)
  | .StoreValue value => a.StoreValue value
  | .StoreValues values => a.StoreValues values

/-- A chain of calls, up to the first that raises. -/
def runCalls {σ γ : Type} (call : σ → γ → Result σ) : σ → List γ → Result σ
  | a, [] => .done a
  | a, c :: rest =>
    match call a c with
    | .done b => runCalls call b rest
    | .raised e b => .raised e b

/-- The parser with the positional multi-value String argument `first`, the
positional String argument `second` and the String argument `input`. -/
def firstMultiParser : ArgParser :=
  (((ArgParser.new "p".toList).AddStringArgument 'a' "first".toList []
      (fun a => (a.Positional).MultiValue 0)).AddStringArgument 'b' "second".toList []
      (fun a => a.Positional)).AddStringArgument 'i' "input".toList [] id

/-- The parser with the positional String arguments `first` and `second`, the
second with the default `d`. -/
def secondDefaultParser : ArgParser :=
  ((ArgParser.new "p".toList).AddStringArgument 'a' "first".toList []
      (fun a => a.Positional)).AddStringArgument 'b' "second".toList []
      (fun a => (a.Positional.Default "d".toList).state)

/-- The calls `SetValue(token)` of the value loop of an option occurrence (lines
61-66 and 107-112), each with the index of the token it reads; the last
argument is `args` from `index + 1` on. -/
def takenValues : Nat → Int → List Str → List (Nat × Str)
  | _, _, [] => []
  | index, count, token :: rest =>
    if !beginsWithHyphen token && decide (count > 0) then
      (index + 1, token) :: takenValues (index + 1) (count - 1) rest
    else []

/-- The calls `SetValue` that the token `--name` or `--name=value` at `index` makes
on the String argument `nm`, each with the index of the token its value is read from. -/
def longCalls (p : ArgParser) (args : List Str) (index : Nat) (nm text : Str) :
    List (Nat × Str) :=
  match find '=' text with
  | some k => if text.take k = nm then [(index, text.drop (k + 1))] else []
  | none =>
    if text = nm then
      match GetArgument p.arguments_ nm with
      | some argument => takenValues index argument.ValuesCount (args.drop (index + 1))
      | none => []
    else []

/-- The calls `SetValue(value)` that the cluster `-xyz=value` at `index` makes on
the String argument `nm`: one for every character that stands for `nm`. -/
def shortInlineCalls (short_names : List (Char × Str)) (value : Str) (index : Nat)
    (nm : Str) : List Char → List (Nat × Str)
  | [] => []
  | sname :: names =>
    (if short_names.lookup sname = some nm then [(index, value)] else []) ++
      shortInlineCalls short_names value index nm names

/-- The calls `SetValue` that the cluster `-xyz` makes on the String argument `nm`;
the walk over the characters is the one of `ParseShortCluster`. -/
def shortClusterCalls (args : List Str) (nm : Str) :
    List Char → ArgParser → Nat → List (Nat × Str)
  | [], _, _ => []
  | sname :: names, p, index =>
    match p.short_names_.lookup sname with
    | none => []
    | some name =>
      match GetArgument p.arguments_ name with
      | none => []
      | some argument =>
        match takeValues argument args index with
        | .raised _ _ => []
        | .done (a, index1) =>
          (if name = nm then
              takenValues index argument.ValuesCount (args.drop (index + 1)) else []) ++
            shortClusterCalls args nm names (p.store name a) index1

/-- The calls `SetValue` that the token at `index` makes on the String argument `nm`. -/
def tokenCalls (p : ArgParser) (args : List Str) (index : Nat) (nm : Str) : List (Nat × Str) :=
  match args.getD index [] with
  | '-' :: '-' :: text => longCalls p args index nm text
  | '-' :: names =>
    match find '=' names with
    | some k => shortInlineCalls p.short_names_ (names.drop (k + 1)) index nm (names.take k)
    | none => shortClusterCalls args nm names p index
  | _ => []

/-- The calls `SetValue` that the recursion of `Parse` over the tokens from `index`
on makes on the String argument `nm`, in the order in which it makes them, each
with the index of the token its value is read from. -/
def SetValueCallsFuel : Nat → ArgParser → List Str → Nat → Str → List (Nat × Str)
  | 0, _, _, _, _ => []
  | fuel + 1, p, args, index, nm =>
    if args.length ≤ index then []
    else
      match ParseToken p args index with
      | .next p1 index1 => tokenCalls p args index nm ++ SetValueCallsFuel fuel p1 args index1 nm
      | .stop _ => []

/-- The calls `SetValue` that `Parse(args, index)` makes on the String argument
`nm` while it walks the tokens. -/
def SetValueCalls (p : ArgParser) (args : List Str) (index : Nat) (nm : Str) :
    List (Nat × Str) :=
  SetValueCallsFuel (args.length - index + 1) p args index nm

/-- The values of the calls of `SetValueCalls`, in the order of the calls. -/
def suppliedValues (p : ArgParser) (args : List Str) (index : Nat) (nm : Str) : List Str :=
  (SetValueCalls p args index nm).map Prod.snd

/-- The value that a token supplies: the text after the first `=` of an option
token, the token itself when it does not begin with a hyphen. -/
def tokenValue (token : Str) : Str :=
  if beginsWithHyphen token then
    match find '=' token with
    | some k => token.drop (k + 1)
    | none => []
  else token

/-- The calls are in token order between `lo` and `hi`, and each passes the value
of its token. -/
def InTokenOrder (args : List Str) (lo hi : Nat) (calls : List (Nat × Str)) : Prop :=
  calls.Pairwise (fun x y => x.1 ≤ y.1) ∧
    ∀ e ∈ calls, lo ≤ e.1 ∧ e.1 < hi ∧ e.2 = tokenValue (args.getD e.1 [])

/-- The parser with the single-value String argument `out` (short `o`), the
multi-value String argument `input` (short `i`, any number of values) and the
flag `verbose` (short `v`). -/
def outInputParser : ArgParser :=
  (((ArgParser.new "p".toList).AddStringArgument 'o' "out".toList [] id).AddStringArgument
      'i' "input".toList [] (fun a => a.MultiValue 0)).AddFlag 'v' "verbose".toList [] id

/-- Tokens that supply `input` and `out` of `outInputParser` in every form of an
option occurrence. -/
def outInputArgs : List Str :=
  ["app".toList, "--input=a".toList, "-o".toList, "x".toList, "--input".toList, "b".toList,
    "c".toList, "--out=y".toList, "-vi".toList, "d".toList]

/-- The parser with the optional multi-value String argument `files`, `MultiValue()`. -/
def optionalFilesParser : ArgParser :=
  (ArgParser.new "p".toList).AddStringArgument 'f' "files".toList [] (fun a => a.MultiValue 0)

/-- The parser with the optional multi-value Int argument `ids`, `MultiValue()`. -/
def optionalIdsParser : ArgParser :=
  (ArgParser.new "p".toList).AddIntArgument 'n' "ids".toList [] (fun a => a.MultiValue 0)

/-- The token indices of the successive calls `Parse(args, index)` that one call
of `Parse` makes, its own index first. -/
def ParseCalls : Nat → ArgParser → List Str → Nat → List Nat
  | 0, _, _, _ => []
  | fuel + 1, p, args, index =>
    index ::
      (if args.length ≤ index then []
        else
          match ParseToken p args index with
          | .next p1 index1 => ParseCalls fuel p1 args index1
          | .stop _ => [])

/-- The method `ArgParser::Parse(args, index)` as `ParseFuel` runs it, together
with the token indices of the calls of `Parse` that are made, the first call
first. -/
def ParseTrace : Nat → ArgParser → List Str → Nat → ParseResult × List Nat
  | 0, p, _, _ => ({ parser := p, cerr := none, outcome := .out_of_fuel }, [])
  | fuel + 1, p, args, index =>
    if args.length ≤ index then (ParseEnd p, [index])
    else
      match ParseToken p args index with
      | .next p1 index1 =>
        ((ParseTrace fuel p1 args index1).1, index :: (ParseTrace fuel p1 args index1).2)
      | .stop r => (r, [index])

/-- The name that the exit `Unknown argument` of a cluster reports for the
character `c`: the character when `short_names_` does not hold it, else the
long name that `GetArgument` does not find. -/
def unresolvedName (p : ArgParser) (c : Char) : Str :=
  match p.short_names_.lookup c with
  | none => [c]
  | some name => name

/-! ## Caller locations bound to several arguments

`StoreValue(x)` and `StoreValues(xs)` keep the address of the caller location
(`value_ = &x`, `multi_value_ = &xs`), so a location that is bound to several
arguments is written through each of them and read by all.  `Bound` records
the addresses; `ParseShared` is `Parse` with every write seen through all the
pointers that hold the written address. -/

/-- The addresses that the pointers of one argument hold after `StoreValue(x)`
(`value_at`, the address `&x`) and `StoreValues(xs)` (`multi_value_at`, the
address `&xs`); `none` for a pointer that is null or that points to a slot of
the argument alone. -/
structure Bound where
  value_at : Option Nat
  multi_value_at : Option Nat
  deriving DecidableEq, Repr

/-- The pointers of an argument that `StoreValue` and `StoreValues` did not bind. -/
def Bound.owned : Bound := { value_at := none, multi_value_at := none }

/-- The assignment `value_ = &value` of `StoreValue(value)`; `address` is `&value`. -/
def Bound.StoreValue (bd : Bound) (address : Nat) : Bound :=
  { bd with value_at := some address }

/-- The assignment `multi_value_ = &values` of `StoreValues(values)`; `address` is
`&values`. -/
def Bound.StoreValues (bd : Bound) (address : Nat) : Bound :=
  { bd with multi_value_at := some address }

/-- Two pointers hold the address of one caller location. -/
def sameAddress : Option Nat → Option Nat → Bool
  | some x, some y => decide (x = y)
  | _, _ => false

/-- A pointer of the one argument and the pointer of the same member of the other
hold one address. -/
def sharesWith (x y : Bound) : Bool :=
  sameAddress x.value_at y.value_at || sameAddress x.multi_value_at y.multi_value_at

/-- The argument `b`, whose pointers are bound as `bd`, after `SetValue` wrote
through a pointer of the argument `a`, bound as `written` and now in the state
`a`: `SetValue` of a flag writes `*value_`, `SetValue` of a String or Int
argument writes `*multi_value_` when the argument is multi-value and `*value_`
otherwise, and a pointer of `b` that holds the written address reads what was
written. -/
def shareWith (written : Bound) (a : BaseArgument) (bd : Bound) (b : BaseArgument) :
    BaseArgument :=
  match a, b with
  | .flag f, .flag g =>
    if sameAddress written.value_at bd.value_at then .flag { g with value_ := f.value_ } else b
  | .string f, .string g =>
    if f.is_multi_value_ then
      if sameAddress written.multi_value_at bd.multi_value_at then
        .string { g with multi_value_ := f.multi_value_ }
      else b
    else
      if sameAddress written.value_at bd.value_at then .string { g with value_ := f.value_ }
      else b
  | .int f, .int g =>
    if f.is_multi_value_ then
      if sameAddress written.multi_value_at bd.multi_value_at then
        .int { g with multi_value_ := f.multi_value_ }
      else b
    else
      if sameAddress written.value_at bd.value_at then .int { g with value_ := f.value_ }
      else b
  | _, _ => b

/-- The vector `arguments_` after a write through a pointer of the argument `a`;
`bounds` gives the addresses entry by entry, and an entry beyond its end is not
bound. -/
def shareAll (written : Bound) (a : BaseArgument) :
    List (Str × BaseArgument) → List Bound → List (Str × BaseArgument)
  | (n, b) :: rest, bd :: bounds => (n, shareWith written a bd b) :: shareAll written a rest bounds
  | arguments, _ => arguments

/-- The addresses of the entry that `GetArgument` returns for `name`; the first
argument is the list of the names of `arguments_`. -/
def GetBound : List Str → List Bound → Str → Bound
  | n :: names, bd :: bounds, name => if n = name then bd else GetBound names bounds name
  | _, _, _ => Bound.owned

/-- The object after `SetValue` calls through the pointer that `GetArgument`
returned for `name` left that argument as `a`. -/
def ArgParser.storeShared (bounds : List Bound) (p : ArgParser) (name : Str)
    (a : BaseArgument) : ArgParser :=
  let written := GetBound (p.arguments_.map Prod.fst) bounds name
  { p with arguments_ := shareAll written a (StoreArgument p.arguments_ name a) bounds }

/-- Lines 38-68, as `ParseLong`, with the caller locations bound as `bounds`. -/
def ParseLongShared (bounds : List Bound) (p : ArgParser) (args : List Str) (index : Nat)
    (name : Str) : Step :=
  match find '=' name with
  | some k =>
    let value := name.drop (k + 1)
    let name := name.take k
    match GetArgument p.arguments_ name with
    | none => unknownArgument p name
    | some argument =>
      match argument.SetValue value with
      | .raised e a => raise (p.storeShared bounds name a) e
      | .done a => .next (p.storeShared bounds name a) (index + 1)
  | none =>
    match GetArgument p.arguments_ name with
    | none => unknownArgument p name
    | some argument =>
      match takeValues argument args index with
      | .raised e (a, _) => raise (p.storeShared bounds name a) e
      | .done (a, index) => .next (p.storeShared bounds name a) (index + 1)

/-- Lines 76-90, as `ParseShortInline`, with the caller locations bound as `bounds`. -/
def ParseShortInlineShared (bounds : List Bound) (value : Str) (index : Nat) :
    List Char → ArgParser → Step
  | [], p => .next p (index + 1)
  | sname :: names, p =>
    match p.short_names_.lookup sname with
    | none => unknownArgument p [sname]
    | some name =>
      match GetArgument p.arguments_ name with
      | none => unknownArgument p name
      | some argument =>
        match argument.SetValue value with
        | .raised e a => raise (p.storeShared bounds name a) e
        | .done a => ParseShortInlineShared bounds value index names (p.storeShared bounds name a)

/-- Lines 92-114, as `ParseShortCluster`, with the caller locations bound as `bounds`. -/
def ParseShortClusterShared (bounds : List Bound) (args : List Str) :
    List Char → ArgParser → Nat → Step
  | [], p, index => .next p (index + 1)
  | sname :: names, p, index =>
    match p.short_names_.lookup sname with
    | none => unknownArgument p [sname]
    | some name =>
      match GetArgument p.arguments_ name with
      | none => unknownArgument p name
      | some argument =>
        match takeValues argument args index with
        | .raised e (a, _) => raise (p.storeShared bounds name a) e
        | .done (a, index) =>
          ParseShortClusterShared bounds args names (p.storeShared bounds name a) index

/-- Lines 70-115, as `ParseShort`, with the caller locations bound as `bounds`. -/
def ParseShortShared (bounds : List Bound) (p : ArgParser) (args : List Str) (index : Nat)
    (names : Str) : Step :=
  match find '=' names with
  | some k => ParseShortInlineShared bounds (names.drop (k + 1)) index (names.take k) p
  | none => ParseShortClusterShared bounds args names p index

/-- Lines 38-123, as `ParseToken`, with the caller locations bound as `bounds`. -/
def ParseTokenShared (bounds : List Bound) (p : ArgParser) (args : List Str) (index : Nat) :
    Step :=
  match args.getD index [] with
  | '-' :: '-' :: name => ParseLongShared bounds p args index name
  | '-' :: names => ParseShortShared bounds p args index names
  | _ => ParsePositional p args index

/-- The loop of `UpdatePositionalArguments` over `arguments_` (lines 131-140) with
the caller locations bound as `bounds`: `i` is the position of the entry that
the loop is at, the first argument bounds the number of entries left. -/
def assignPositionalShared (bounds : List Bound) (current : Nat) :
    Nat → Nat → List (Str × BaseArgument) → List (Nat × Str) →
    Result (List (Str × BaseArgument) × List (Nat × Str))
  | 0, _, arguments, unread => .done (arguments, unread)
  | left + 1, i, arguments, unread =>
    match arguments.get? i with
    | none => .done (arguments, unread)
    | some (name, argument) =>
      if argument.IsPositional then
        match assignRun current argument unread with
        | .raised e (a, u) =>
          .raised e (shareAll (bounds.getD i Bound.owned) a (arguments.set i (name, a)) bounds, u)
        | .done (a, u) =>
          assignPositionalShared bounds current left (i + 1)
            (shareAll (bounds.getD i Bound.owned) a (arguments.set i (name, a)) bounds) u
      else assignPositionalShared bounds current left (i + 1) arguments unread

/-- The method `ArgParser::UpdatePositionalArguments` with the caller locations
bound as `bounds`. -/
def UpdatePositionalArgumentsShared (bounds : List Bound) (p : ArgParser) :
    Result (ArgParser × Bool) :=
  match p.positional_arguments_ with
  | [] => .done (p, true)
  | (current, _) :: _ =>
    match assignPositionalShared bounds current p.arguments_.length 0 p.arguments_
        p.positional_arguments_ with
    | .raised e (arguments, _) => .raised e ({ p with arguments_ := arguments }, false)
    | .done (arguments, unread) => .done ({ p with arguments_ := arguments }, unread.isEmpty)

/-- Lines 21-35, as `ParseValidate`, with the caller locations bound as `bounds`. -/
def ParseValidateShared (bounds : List Bound) (p : ArgParser) : ParseResult :=
  match UpdatePositionalArgumentsShared bounds p with
  | .raised e (p1, _) => { parser := p1, cerr := none, outcome := .raised e }
  | .done (p1, is_positional_correct) =>
    let p2 := { p1 with positional_arguments_ := [] }
    if !is_positional_correct then
      { parser := p2, cerr := some .positional_not_correct, outcome := .returned false }
    else checkArguments p2 p2.arguments_

/-- Lines 12-35, as `ParseEnd`, with the caller locations bound as `bounds`. -/
def ParseEndShared (bounds : List Bound) (p : ArgParser) : ParseResult :=
  match GetArgument p.arguments_ helpName with
  | some (.flag flag_argument) =>
    { parser := p, cerr := none, outcome := .returned (flag_argument.GetValue 0) }
  | _ => ParseValidateShared bounds p

/-- The method `ArgParser::Parse(args, index)` with the caller locations bound as
`bounds` and a bound on the depth of the recursion. -/
def ParseFuelShared (bounds : List Bound) : Nat → ArgParser → List Str → Nat → ParseResult
  | 0, p, _, _ => { parser := p, cerr := none, outcome := .out_of_fuel }
  | fuel + 1, p, args, index =>
    if args.length ≤ index then ParseEndShared bounds p
    else
      match ParseTokenShared bounds p args index with
      | .next p1 index1 => ParseFuelShared bounds fuel p1 args index1
      | .stop r => r

/-- The method `ArgParser::Parse(args, index)` with the caller locations bound as
`bounds`. -/
def ParseShared (bounds : List Bound) (p : ArgParser) (args : List Str) (index : Nat) :
    ParseResult :=
  ParseFuelShared bounds (args.length - index + 1) p args index

/-- The object with which the recursion of `ParseShared` arrives at the end of the
tokens, as `ParseTokens`. -/
def ParseTokensShared (bounds : List Bound) : Nat → ArgParser → List Str → Nat →
    Option ArgParser
  | 0, _, _, _ => none
  | fuel + 1, p, args, index =>
    if args.length ≤ index then some p
    else
      match ParseTokenShared bounds p args index with
      | .next p1 index1 => ParseTokensShared bounds fuel p1 args index1
      | .stop _ => none

/-- The token sequence from `index` on is processed without failure, with the
caller locations bound as `bounds`. -/
def tokensProcessedShared (bounds : List Bound) (p : ArgParser) (args : List Str)
    (index : Nat) : Bool :=
  (ParseTokensShared bounds (args.length - index + 1) p args index).isSome

/-- No pointer of another entry of `arguments_` holds an address that a pointer of
the entry that `name` resolves to holds; the second argument is the list of
the names of `arguments_`. -/
def unshared (name : Str) : List Str → List Bound → Bool
  | n :: names, bd :: bounds =>
    if n = name then bounds.all (fun other => !sharesWith other bd)
    else !sharesWith bd (GetBound names bounds name) && unshared name names bounds
  | _, _ => true

/-- The parser with the flags `alpha` (default false) and `beta` (default true),
both bound by `StoreValue(x)` to one caller `bool` that holds false, and the
flag `gamma` (default true), bound to a caller `bool` of its own. -/
def sharedFlagsParser : ArgParser :=
  (((ArgParser.new "p".toList).AddFlag 'a' "alpha".toList [] (fun f => f.StoreValue false)).AddFlag
      'b' "beta".toList [] (fun f => (f.Default true).StoreValue false)).AddFlag
    'c' "gamma".toList [] (fun f => (f.Default true).StoreValue false)

/-- The addresses of `sharedFlagsParser`: `alpha` and `beta` hold the address 0,
`gamma` holds the address 1. -/
def sharedFlagsBound : List Bound :=
  [Bound.owned.StoreValue 0, Bound.owned.StoreValue 0, Bound.owned.StoreValue 1]

/-- What the walk over the tokens reads of an argument besides the values it
stores: its kind and what `Positional` and `MultiValue` configured. -/
def shapeOf : BaseArgument → Nat × Bool × Bool × Int
  | .flag _ => (0, false, false, 0)
  | .string a => (1, a.is_positional_, a.is_multi_value_, a.multi_value_count_)
  | .int a => (2, a.is_positional_, a.is_multi_value_, a.multi_value_count_)

/-- The exception with which a call ended, if it raised. -/
def Result.failure {σ : Type} : Result σ → Option Failure
  | .done _ => none
  | .raised e _ => some e

/-- Two `arguments_` vectors with the same names, kinds and configuration, entry by
entry, in which `nm` resolves to the same argument in the same state. -/
def Sim (nm : Str) (ls lc : List (Str × BaseArgument)) : Prop :=
  ls.map (fun x => (x.1, shapeOf x.2)) = lc.map (fun x => (x.1, shapeOf x.2)) ∧
    GetArgument ls nm = GetArgument lc nm

/-- Two parser objects that differ at most in the values stored by the arguments
other than `nm`; `names` are the names of `arguments_`. -/
def PSim (names : List Str) (nm : Str) (ps pc : ArgParser) : Prop :=
  Sim nm ps.arguments_ pc.arguments_ ∧ ps.short_names_ = pc.short_names_ ∧
    ps.positional_arguments_ = pc.positional_arguments_ ∧
    ps.arguments_.map Prod.fst = names

/-- Two steps that end alike on parser objects related by `PSim`. -/
def StepSim (names : List Str) (nm : Str) : Step → Step → Prop
  | .next ps i, .next pc j => i = j ∧ PSim names nm ps pc
  | .stop rs, .stop rc =>
    rs.outcome = rc.outcome ∧ rs.cerr = rc.cerr ∧ PSim names nm rs.parser rc.parser
  | _, _ => False

/-- The calls `SetValue` that the cluster `-xyz` makes on the String argument `nm`,
as `shortClusterCalls`, with the caller locations bound as `bounds`. -/
def shortClusterCallsShared (bounds : List Bound) (args : List Str) (nm : Str) :
    List Char → ArgParser → Nat → List (Nat × Str)
  | [], _, _ => []
  | sname :: names, p, index =>
    match p.short_names_.lookup sname with
    | none => []
    | some name =>
      match GetArgument p.arguments_ name with
      | none => []
      | some argument =>
        match takeValues argument args index with
        | .raised _ _ => []
        | .done (a, index1) =>
          (if name = nm then
              takenValues index argument.ValuesCount (args.drop (index + 1)) else []) ++
            shortClusterCallsShared bounds args nm names (p.storeShared bounds name a) index1

/-- The calls `SetValue` that the token at `index` makes on the String argument
`nm`, with the caller locations bound as `bounds`. -/
def tokenCallsShared (bounds : List Bound) (p : ArgParser) (args : List Str) (index : Nat)
    (nm : Str) : List (Nat × Str) :=
  match args.getD index [] with
  | '-' :: '-' :: text => longCalls p args index nm text
  | '-' :: names =>
    match find '=' names with
    | some k => shortInlineCalls p.short_names_ (names.drop (k + 1)) index nm (names.take k)
    | none => shortClusterCallsShared bounds args nm names p index
  | _ => []

/-- The calls `SetValue` that the recursion of `ParseShared` over the tokens from
`index` on makes on the String argument `nm`, in the order in which it makes
them, each with the index of the token its value is read from. -/
def SetValueCallsFuelShared (bounds : List Bound) :
    Nat → ArgParser → List Str → Nat → Str → List (Nat × Str)
  | 0, _, _, _, _ => []
  | fuel + 1, p, args, index, nm =>
    if args.length ≤ index then []
    else
      match ParseTokenShared bounds p args index with
      | .next p1 index1 =>
        tokenCallsShared bounds p args index nm ++
          SetValueCallsFuelShared bounds fuel p1 args index1 nm
      | .stop _ => []

/-- The calls `SetValue` that `ParseShared(args, index)` makes on the String
argument `nm` while it walks the tokens. -/
def SetValueCallsShared (bounds : List Bound) (p : ArgParser) (args : List Str) (index : Nat)
    (nm : Str) : List (Nat × Str) :=
  SetValueCallsFuelShared bounds (args.length - index + 1) p args index nm

/-- The values of the calls of `SetValueCallsShared`, in the order of the calls. -/
def suppliedValuesShared (bounds : List Bound) (p : ArgParser) (args : List Str)
    (index : Nat) (nm : Str) : List Str :=
  (SetValueCallsShared bounds p args index nm).map Prod.snd

/-- The parser with the multi-value String arguments `include` and `isystem`,
both bound by `StoreValues(paths)` to one empty caller vector, the multi-value
String argument `lib`, bound to a caller vector of its own that holds `c`,
and the single-value String argument `out`. -/
def sharedPathsParser : ArgParser :=
  ((((ArgParser.new "p".toList).AddStringArgument 'I' "include".toList []
      (fun a => ((a.MultiValue 0).StoreValues []).state)).AddStringArgument
      'S' "isystem".toList [] (fun a => ((a.MultiValue 0).StoreValues []).state)
    ).AddStringArgument 'L' "lib".toList []
      (fun a => ((a.MultiValue 0).StoreValues ["c".toList]).state)
    ).AddStringArgument 'o' "out".toList [] (fun a => (a.Default "a.out".toList).state)

/-- The addresses of `sharedPathsParser`: `include` and `isystem` hold the address
0, `lib` holds the address 1, `out` is not bound. -/
def sharedPathsBound : List Bound :=
  [Bound.owned.StoreValues 0, Bound.owned.StoreValues 0, Bound.owned.StoreValues 1, Bound.owned]

/-- Tokens that supply `lib` and `out` of `sharedPathsParser` in every form of an
option occurrence, between occurrences of `include` and `isystem`. -/
def sharedPathsArgs : List Str :=
  ["app".toList, "--include".toList, "a".toList, "--lib=x".toList, "-o".toList, "u".toList,
    "--lib".toList, "y".toList, "z".toList, "--isystem".toList, "b".toList, "--out=v".toList,
    "-IL".toList, "w".toList]

/-- No two entries of `arguments_` hold the address of one caller location. -/
def noSharing : List Bound → Bool
  | [] => true
  | bd :: bounds => bounds.all (fun other => !sharesWith bd other) && noSharing bounds

/-! ## Lemmas: strings -/

theorem find_eq_none_iff (c : Char) (s : Str) : find c s = none ↔ c ∉ s := by
  induction s with
  | nil => simp [find]
  | cons x rest ih =>
    by_cases h : x = c
    · simp [find, h]
    · simp [find, h, ih, Ne.symm h]

theorem find_append (c : Char) (s t : Str) (h : c ∉ s) :
    find c (s ++ c :: t) = some s.length := by
  induction s with
  | nil => simp [find]
  | cons x rest ih =>
    have hx : x ≠ c := fun e => h (by simp [e])
    have hr : c ∉ rest := fun e => h (by simp [e])
    simp [find, hx, ih hr]

theorem find_some_lt (c : Char) (s : Str) (k : Nat) (h : find c s = some k) :
    k < s.length ∧ c ∉ s.take k := by
  induction s generalizing k with
  | nil => simp [find] at h
  | cons x rest ih =>
    by_cases hx : x = c
    · simp [find, hx] at h
      subst h
      simp
    · simp [find, hx] at h
      obtain ⟨k1, hk1, rfl⟩ := h
      have := ih k1 hk1
      simp [this.1, List.take_succ_cons, Ne.symm hx, this.2]

theorem beforeEq_no_eq (s : Str) : '=' ∉ beforeEq s := by
  unfold beforeEq
  cases h : find '=' s with
  | none => simpa using (find_eq_none_iff _ _).1 h
  | some k => simpa using (find_some_lt _ _ _ h).2

theorem beforeEq_of_not_mem (s : Str) (h : '=' ∉ s) : beforeEq s = s := by
  unfold beforeEq
  rw [(find_eq_none_iff _ _).2 h]

theorem beforeEq_append (s t : Str) (h : '=' ∉ s) : beforeEq (s ++ '=' :: t) = s := by
  unfold beforeEq
  rw [find_append _ _ _ h]
  simp

/-! ## Lemmas: the `arguments_` vector -/

theorem GetArgument_store (l : List (Str × BaseArgument)) (name nm : Str) (a a1 : BaseArgument)
    (h : GetArgument l name = some a) :
    GetArgument (StoreArgument l name a1) nm =
      if nm = name then some a1 else GetArgument l nm := by
  induction l with
  | nil => simp [GetArgument] at h
  | cons x rest ih =>
    obtain ⟨n, b⟩ := x
    by_cases hn : n = name
    · subst hn
      by_cases hm : nm = n
      · simp [GetArgument, StoreArgument, hm]
      · simp [GetArgument, StoreArgument, hm, Ne.symm hm]
    · simp [GetArgument, hn] at h
      by_cases hm : nm = name
      · subst hm
        simp [GetArgument, StoreArgument, hn, ih h]
      · by_cases hnm : n = nm
        · simp [GetArgument, StoreArgument, hn, hm, hnm]
        · simp [GetArgument, StoreArgument, hn, hm, hnm, ih h]

theorem Evolves_refl (a : BaseArgument) : Evolves a a := by
  cases a <;> simp [Evolves]

theorem Evolves_trans {a b c : BaseArgument} (h1 : Evolves a b) (h2 : Evolves b c) :
    Evolves a c := by
  cases a <;> cases b <;> cases c <;> simp only [Evolves] at h1 h2 ⊢
  · exact ⟨h2.1.trans h1.1, h2.2.1.trans h1.2.1, h2.2.2.1.trans h1.2.2.1,
      h2.2.2.2.trans h1.2.2.2⟩
  · exact ⟨h2.1.trans h1.1, h2.2.1.trans h1.2.1, h2.2.2.1.trans h1.2.2.1,
      h2.2.2.2.trans h1.2.2.2⟩
  · obtain ⟨hd1, hv1⟩ := h1
    obtain ⟨hd2, hv2⟩ := h2
    refine ⟨hd2.trans hd1, ?_⟩
    rcases hv2 with hv2 | hv2
    · rw [hv2]; exact hv1
    · right; rw [hv2, hd1]

theorem ArgsEvolve_refl (l : List (Str × BaseArgument)) : ArgsEvolve l l := by
  induction l with
  | nil => exact List.Forall₂.nil
  | cons x rest ih => exact List.Forall₂.cons ⟨rfl, Evolves_refl _⟩ ih

theorem ArgsEvolve_trans {l1 l2 l3 : List (Str × BaseArgument)}
    (h1 : ArgsEvolve l1 l2) (h2 : ArgsEvolve l2 l3) : ArgsEvolve l1 l3 := by
  unfold ArgsEvolve at *
  induction h1 generalizing l3 with
  | nil => cases h2; exact List.Forall₂.nil
  | cons hx _ ih =>
    cases h2 with
    | cons hy hrest =>
      exact List.Forall₂.cons ⟨hx.1.trans hy.1, Evolves_trans hx.2 hy.2⟩ (ih hrest)

theorem ArgsEvolve_store (l : List (Str × BaseArgument)) (name : Str) (a a1 : BaseArgument)
    (h : GetArgument l name = some a) (he : Evolves a a1) :
    ArgsEvolve l (StoreArgument l name a1) := by
  induction l with
  | nil => simp [GetArgument] at h
  | cons x rest ih =>
    obtain ⟨n, b⟩ := x
    by_cases hn : n = name
    · simp [GetArgument, hn] at h
      subst h
      simp only [StoreArgument, hn, if_true]
      exact List.Forall₂.cons ⟨rfl, he⟩ (ArgsEvolve_refl rest)
    · simp [GetArgument, hn] at h
      simp only [StoreArgument, hn, if_false]
      exact List.Forall₂.cons ⟨rfl, Evolves_refl _⟩ (ih h)

theorem ArgsEvolve_get {l l1 : List (Str × BaseArgument)} (h : ArgsEvolve l l1) (nm : Str) :
    (GetArgument l nm = none → GetArgument l1 nm = none) ∧
      (∀ a, GetArgument l nm = some a → ∃ a1, GetArgument l1 nm = some a1 ∧ Evolves a a1) := by
  unfold ArgsEvolve at h
  induction h with
  | nil => simp [GetArgument]
  | @cons x y rest rest1 hx _ ih =>
    obtain ⟨n, b⟩ := x
    obtain ⟨n1, b1⟩ := y
    simp only at hx
    obtain ⟨hn, hb⟩ := hx
    subst hn
    by_cases hm : n = nm
    · simp [GetArgument, hm, hb]
    · simpa [GetArgument, hm] using ih

theorem ParserEvolves_refl (p : ArgParser) : ParserEvolves p p :=
  ⟨ArgsEvolve_refl _, rfl⟩

theorem ParserEvolves_trans {p1 p2 p3 : ArgParser} (h1 : ParserEvolves p1 p2)
    (h2 : ParserEvolves p2 p3) : ParserEvolves p1 p3 :=
  ⟨ArgsEvolve_trans h1.1 h2.1, h2.2.trans h1.2⟩

theorem ParserEvolves_store (p : ArgParser) (name : Str) (a a1 : BaseArgument)
    (h : GetArgument p.arguments_ name = some a) (he : Evolves a a1) :
    ParserEvolves p (p.store name a1) :=
  ⟨ArgsEvolve_store _ _ _ _ h he, rfl⟩

theorem GetArgument_isNone_evolves {p p1 : ArgParser} (h : ParserEvolves p p1) (nm : Str) :
    (GetArgument p1.arguments_ nm).isNone = (GetArgument p.arguments_ nm).isNone := by
  have := ArgsEvolve_get h.1 nm
  cases hg : GetArgument p.arguments_ nm with
  | none => simp [this.1 hg]
  | some a =>
    obtain ⟨a1, ha1, _⟩ := this.2 a hg
    simp [ha1]

theorem unknownShort_evolves {p p1 : ArgParser} (h : ParserEvolves p p1) :
    unknownShort p1 = unknownShort p := by
  funext c
  unfold unknownShort
  rw [h.2]
  split
  · rfl
  · exact GetArgument_isNone_evolves h _

theorem unknownToken_evolves {p p1 : ArgParser} (h : ParserEvolves p p1) (token : Str) :
    unknownToken p1 token = unknownToken p token := by
  have key := GetArgument_isNone_evolves h
  have key2 := unknownShort_evolves h
  unfold unknownToken
  split
  · exact key _
  · rw [key2]
  · rfl

theorem namesArgument_evolves {p p1 : ArgParser} (h : ParserEvolves p p1) (name token : Str) :
    namesArgument p1 name token = namesArgument p name token := by
  unfold namesArgument
  split
  · rfl
  · rw [h.2]
  · rfl

/-! ## Lemmas: `SetValue` and the value loop -/

theorem stoi_error (value : Str) (e : Failure) (h : stoi value = .error e) :
    e = .invalid_argument ∨ e = .out_of_range := by
  have hr : ∀ v, to_int v = .error e → e = .out_of_range := by
    intro v hv
    unfold to_int at hv
    split at hv
    · cases hv; rfl
    · cases hv
  unfold stoi at h
  simp only at h
  split at h
  · cases h; exact Or.inl rfl
  · exact Or.inr (hr _ h)

theorem IntArgument.SetValue_raised (a : IntArgument) (value : Str) (e : Failure)
    (a1 : IntArgument) (h : a.SetValue value = .raised e a1) :
    stoi value = .error e := by
  unfold IntArgument.SetValue at h
  cases hs : stoi value with
  | ok v => simp [hs] at h; split at h <;> simp at h
  | error e1 =>
    simp [hs] at h
    split at h <;> simp at h <;> simp [h.1]

theorem SetValue_evolves (a : BaseArgument) (value : Str) :
    (∀ a1, a.SetValue value = .done a1 → Evolves a a1) ∧
      (∀ e a1, a.SetValue value = .raised e a1 →
        Evolves a a1 ∧ (e = .invalid_argument ∨ e = .out_of_range)) := by
  cases a with
  | flag f =>
    simp [BaseArgument.SetValue, Evolves, FlagArgument.SetValue]
  | string s =>
    simp only [BaseArgument.SetValue]
    refine ⟨?_, by simp⟩
    intro a1 h
    simp only [Result.done.injEq] at h
    subst h
    unfold StringArgument.SetValue
    split <;> simp_all [Evolves]
  | int i =>
    have key : ∀ x, (i.SetValue value = .done x ∨ ∃ e, i.SetValue value = .raised e x) →
        Evolves (.int i) (.int x) := by
      intro x hx
      unfold IntArgument.SetValue at hx
      by_cases hm : i.is_multi_value_ = true <;> cases hv : stoi value <;>
        simp [hm, hv] at hx <;> subst hx <;> simp [Evolves, hm]
    simp only [BaseArgument.SetValue]
    constructor
    · intro a1 h
      cases hs : i.SetValue value <;> simp [hs] at h
      subst h
      exact key _ (Or.inl hs)
    · intro e a1 h
      cases hs : i.SetValue value with
      | done x => simp [hs] at h
      | raised e1 x =>
        simp [hs] at h
        obtain ⟨rfl, rfl⟩ := h
        exact ⟨key _ (Or.inr ⟨_, hs⟩),
          stoi_error _ _ (IntArgument.SetValue_raised _ _ _ _ hs)⟩

theorem consumeValues_spec (rest : List Str) (a : BaseArgument) (index : Nat) (count : Int) :
    (∀ a1 index1, consumeValues a index count rest = .done (a1, index1) →
        Evolves a a1 ∧ index ≤ index1 ∧ index1 ≤ index + rest.length ∧
          ∀ i, i < index1 - index → beginsWithHyphen (rest.getD i []) = false) ∧
      (∀ e a1 index1, consumeValues a index count rest = .raised e (a1, index1) →
        Evolves a a1 ∧ stoiFailure e) := by
  induction rest generalizing a index count with
  | nil =>
    simp only [consumeValues]
    refine ⟨?_, by simp⟩
    intro a1 index1 h
    simp at h
    obtain ⟨rfl, rfl⟩ := h
    simp [Evolves_refl]
  | cons token rest ih =>
    simp only [consumeValues]
    split
    · rename_i hc
      simp at hc
      cases hs : a.SetValue token with
      | done b =>
        simp only
        have hab := (SetValue_evolves a token).1 b hs
        have := ih b (index + 1) (count - 1)
        refine ⟨?_, ?_⟩
        · intro a1 index1 h
          obtain ⟨h1, h2, h3, h4⟩ := this.1 a1 index1 h
          refine ⟨Evolves_trans hab h1, by omega, by simp; omega, ?_⟩
          intro i hi
          cases i with
          | zero => simpa using hc.1
          | succ i =>
            have := h4 i (by omega)
            simpa [List.getD_eq_getElem?_getD] using this
        · intro e a1 index1 h
          obtain ⟨h1, h2⟩ := this.2 e a1 index1 h
          exact ⟨Evolves_trans hab h1, h2⟩
      | raised e b =>
        simp only
        have hab := (SetValue_evolves a token).2 e b hs
        refine ⟨by simp, ?_⟩
        intro e1 a1 index1 h
        simp at h
        obtain ⟨rfl, rfl, rfl⟩ := h
        exact hab
    · refine ⟨?_, by simp⟩
      intro a1 index1 h
      simp at h
      obtain ⟨rfl, rfl⟩ := h
      simp [Evolves_refl]

theorem takeValues_spec (args : List Str) (a : BaseArgument) (index : Nat) :
    (∀ a1 index1, takeValues a args index = .done (a1, index1) →
        Evolves a a1 ∧ index ≤ index1 ∧ index1 ≤ index + (args.length - (index + 1)) ∧
          ∀ j, index < j → j ≤ index1 → beginsWithHyphen (args.getD j []) = false) ∧
      (∀ e a1 index1, takeValues a args index = .raised e (a1, index1) →
        Evolves a a1 ∧ stoiFailure e) := by
  have hget : ∀ i, (args.drop (index + 1)).getD i [] = args.getD (index + 1 + i) [] := by
    intro i
    simp [List.getD_eq_getElem?_getD, List.getElem?_drop]
  have key : ∀ b count, Evolves a b →
      (∀ a1 index1, consumeValues b index count (args.drop (index + 1)) = .done (a1, index1) →
        Evolves a a1 ∧ index ≤ index1 ∧ index1 ≤ index + (args.length - (index + 1)) ∧
          ∀ j, index < j → j ≤ index1 → beginsWithHyphen (args.getD j []) = false) ∧
      (∀ e a1 index1, consumeValues b index count (args.drop (index + 1)) = .raised e (a1, index1) →
        Evolves a a1 ∧ stoiFailure e) := by
    intro b count hab
    have := consumeValues_spec (args.drop (index + 1)) b index count
    refine ⟨?_, ?_⟩
    · intro a1 index1 h
      obtain ⟨h1, h2, h3, h4⟩ := this.1 a1 index1 h
      refine ⟨Evolves_trans hab h1, h2, by simpa using h3, ?_⟩
      intro j hj1 hj2
      have := h4 (j - (index + 1)) (by omega)
      rw [hget] at this
      have e : index + 1 + (j - (index + 1)) = j := by omega
      rwa [e] at this
    · intro e a1 index1 h
      obtain ⟨h1, h2⟩ := this.2 e a1 index1 h
      exact ⟨Evolves_trans hab h1, h2⟩
  unfold takeValues
  simp only
  split
  · cases hs : a.SetValue [] with
    | done b => exact key b _ ((SetValue_evolves a []).1 b hs)
    | raised e b =>
      refine ⟨by simp, ?_⟩
      intro e1 a1 index1 h
      simp at h
      obtain ⟨rfl, rfl, rfl⟩ := h
      exact (SetValue_evolves a []).2 _ _ hs
  · exact key a _ (Evolves_refl a)

theorem takeValues_flag (args : List Str) (f : FlagArgument) (index : Nat) :
    takeValues (.flag f) args index = .done (.flag (f.SetValue []), index) := by
  unfold takeValues
  simp only [BaseArgument.ValuesCount, FlagArgument.ValuesCount, if_true, BaseArgument.SetValue]
  cases args.drop (index + 1) with
  | nil => simp [consumeValues]
  | cons token rest => simp [consumeValues]

/-! ## Lemmas: one step of `Parse` -/

theorem StepOk_unknown (p p1 : ArgParser) (args : List Str) (index : Nat) (name : Str)
    (h : ParserEvolves p p1) : StepOk p args index (unknownArgument p1 name) := by
  simp [StepOk, unknownArgument, h]

theorem StepOk_raise (p p1 : ArgParser) (args : List Str) (index : Nat) (e : Failure)
    (h : ParserEvolves p p1) (he : stoiFailure e) : StepOk p args index (raise p1 e) := by
  simp [StepOk, raise, h, he]

theorem ParseLong_ok (p : ArgParser) (args : List Str) (index : Nat) (name : Str)
    (hi : index < args.length) : StepOk p args index (ParseLong p args index name) := by
  unfold ParseLong
  split
  · simp only
    split
    · exact StepOk_unknown _ _ _ _ _ (ParserEvolves_refl p)
    · rename_i argument hg
      cases hs : argument.SetValue _ with
      | done a =>
        simp only
        have := (SetValue_evolves argument _).1 a hs
        refine ⟨ParserEvolves_store _ _ _ _ hg this, by omega, by omega, ?_⟩
        intro j h1 h2
        omega
      | raised e a =>
        simp only
        have := (SetValue_evolves argument _).2 e a hs
        exact StepOk_raise _ _ _ _ _ (ParserEvolves_store _ _ _ _ hg this.1) this.2
  · split
    · exact StepOk_unknown _ _ _ _ _ (ParserEvolves_refl p)
    · rename_i argument hg
      cases hs : takeValues argument args index with
      | done r =>
        obtain ⟨a, index1⟩ := r
        simp only
        obtain ⟨h1, h2, h3, h4⟩ := (takeValues_spec args argument index).1 a index1 hs
        refine ⟨ParserEvolves_store _ _ _ _ hg h1, by omega, by omega, ?_⟩
        intro j hj1 hj2
        exact h4 j hj1 (by omega)
      | raised e r =>
        obtain ⟨a, index1⟩ := r
        simp only
        have := (takeValues_spec args argument index).2 e a index1 hs
        exact StepOk_raise _ _ _ _ _ (ParserEvolves_store _ _ _ _ hg this.1) this.2

theorem ParseShortInline_ok (p : ArgParser) (args : List Str) (index : Nat) (value : Str)
    (hi : index < args.length) (names : List Char) (p1 : ArgParser) (hp : ParserEvolves p p1) :
    StepOk p args index (ParseShortInline value index names p1) := by
  induction names generalizing p1 with
  | nil =>
    simp only [ParseShortInline]
    refine ⟨hp, by omega, by omega, ?_⟩
    intro j h1 h2
    omega
  | cons sname names ih =>
    simp only [ParseShortInline]
    split
    · exact StepOk_unknown _ _ _ _ _ hp
    · split
      · exact StepOk_unknown _ _ _ _ _ hp
      · rename_i name _ argument hg
        cases hs : argument.SetValue value with
        | done a =>
          simp only
          have := (SetValue_evolves argument _).1 a hs
          exact ih _ (ParserEvolves_trans hp (ParserEvolves_store _ _ _ _ hg this))
        | raised e a =>
          simp only
          have := (SetValue_evolves argument _).2 e a hs
          exact StepOk_raise _ _ _ _ _ (ParserEvolves_trans hp (ParserEvolves_store _ _ _ _ hg this.1)) this.2

theorem ParseShortCluster_ok (p : ArgParser) (args : List Str) (index : Nat)
    (names : List Char) (p1 : ArgParser) (index1 : Nat) (hp : ParserEvolves p p1)
    (h1 : index ≤ index1) (h2 : index1 < args.length)
    (h3 : ∀ j, index < j → j ≤ index1 → beginsWithHyphen (args.getD j []) = false) :
    StepOk p args index (ParseShortCluster args names p1 index1) := by
  induction names generalizing p1 index1 with
  | nil =>
    simp only [ParseShortCluster]
    refine ⟨hp, by omega, by omega, ?_⟩
    intro j hj1 hj2
    exact h3 j hj1 (by omega)
  | cons sname names ih =>
    simp only [ParseShortCluster]
    split
    · exact StepOk_unknown _ _ _ _ _ hp
    · split
      · exact StepOk_unknown _ _ _ _ _ hp
      · rename_i name _ argument hg
        cases hs : takeValues argument args index1 with
        | done r =>
          obtain ⟨a, index2⟩ := r
          simp only
          obtain ⟨k1, k2, k3, k4⟩ := (takeValues_spec args argument index1).1 a index2 hs
          refine ih _ _ (ParserEvolves_trans hp (ParserEvolves_store _ _ _ _ hg k1)) (by omega) (by omega) ?_
          intro j hj1 hj2
          by_cases hj : j ≤ index1
          · exact h3 j hj1 hj
          · exact k4 j (by omega) hj2
        | raised e r =>
          obtain ⟨a, index2⟩ := r
          simp only
          have := (takeValues_spec args argument index1).2 e a index2 hs
          exact StepOk_raise _ _ _ _ _ (ParserEvolves_trans hp (ParserEvolves_store _ _ _ _ hg this.1)) this.2

theorem ParseShort_ok (p : ArgParser) (args : List Str) (index : Nat) (names : Str)
    (hi : index < args.length) : StepOk p args index (ParseShort p args index names) := by
  unfold ParseShort
  split
  · exact ParseShortInline_ok p args index _ hi _ p (ParserEvolves_refl p)
  · refine ParseShortCluster_ok p args index names p index (ParserEvolves_refl p) (le_refl _) hi ?_
    intro j h1 h2
    omega

theorem takeWhile_length_le_getD (l : List Str) (i : Nat)
    (h : i < (l.takeWhile (fun token => !beginsWithHyphen token)).length) :
    beginsWithHyphen (l.getD i []) = false := by
  induction l generalizing i with
  | nil => simp at h
  | cons x rest ih =>
    by_cases hx : beginsWithHyphen x = true
    · simp [List.takeWhile, hx] at h
    · simp only [Bool.not_eq_true] at hx
      simp [List.takeWhile, hx] at h
      cases i with
      | zero => simpa using hx
      | succ i =>
        have := ih i (by omega)
        simpa [List.getD_eq_getElem?_getD] using this

theorem ParsePositional_ok (p : ArgParser) (args : List Str) (index : Nat)
    (hi : index < args.length) (hh : beginsWithHyphen (args.getD index []) = false) :
    StepOk p args index (ParsePositional p args index) := by
  unfold ParsePositional
  simp only [StepOk]
  have hget : ∀ i, (args.drop index).getD i [] = args.getD (index + i) [] := by
    intro i
    simp [List.getD_eq_getElem?_getD, List.getElem?_drop]
  have hlen : ((args.drop index).takeWhile (fun token => !beginsWithHyphen token)).length
      ≤ args.length - index := by
    have := (List.takeWhile_sublist (fun token => !beginsWithHyphen token)
      (l := args.drop index)).length_le
    simpa using this
  refine ⟨⟨ArgsEvolve_refl _, rfl⟩, ?_, by omega, ?_⟩
  · have hd : args.drop index = args.getD index [] :: args.drop (index + 1) := by
      rw [List.getD_eq_getElem?_getD, List.getElem?_eq_getElem hi]
      simp
    rw [hd, List.takeWhile_cons]
    rw [hh]
    simp
  · intro j h1 h2
    have := takeWhile_length_le_getD (args.drop index) (j - index) (by omega)
    rw [hget] at this
    have e : index + (j - index) = j := by omega
    rwa [e] at this

theorem ParseToken_ok (p : ArgParser) (args : List Str) (index : Nat)
    (hi : index < args.length) : StepOk p args index (ParseToken p args index) := by
  unfold ParseToken
  split
  · exact ParseLong_ok p args index _ hi
  · exact ParseShort_ok p args index _ hi
  · rename_i h1 h2
    refine ParsePositional_ok p args index hi ?_
    cases ht : args.getD index [] with
    | nil => rfl
    | cons c rest =>
      by_cases hc : c = '-'
      · subst hc
        exact absurd ht (h2 rest)
      · unfold beginsWithHyphen
        split
        · rename_i heq
          simp at heq
          exact absurd heq.1 hc
        · rfl

/-! ## Lemmas: unknown options and flags -/

theorem ParseShortInline_unknown (value : Str) (index : Nat) (names : List Char) (p : ArgParser)
    (h : names.any (unknownShort p) = true) :
    ∃ r, ParseShortInline value index names p = .stop r := by
  induction names generalizing p with
  | nil => simp at h
  | cons sname names ih =>
    simp only [ParseShortInline]
    split
    · exact ⟨_, rfl⟩
    · rename_i name hl
      split
      · exact ⟨_, rfl⟩
      · rename_i argument hg
        cases hs : BaseArgument.SetValue argument value with
        | done a =>
          simp only
          apply ih
          have hev := ParserEvolves_store p name argument a hg ((SetValue_evolves _ _).1 a hs)
          have h0 : unknownShort p sname = false := by simp [unknownShort, hl, hg]
          simp only [List.any_cons, h0, Bool.false_or] at h
          rw [← unknownShort_evolves hev] at h
          exact h
        | raised e a => exact ⟨_, rfl⟩

theorem ParseShortCluster_unknown (args : List Str) (names : List Char) (p : ArgParser)
    (index : Nat) (h : names.any (unknownShort p) = true) :
    ∃ r, ParseShortCluster args names p index = .stop r := by
  induction names generalizing p index with
  | nil => simp at h
  | cons sname names ih =>
    simp only [ParseShortCluster]
    split
    · exact ⟨_, rfl⟩
    · rename_i name hl
      split
      · exact ⟨_, rfl⟩
      · rename_i argument hg
        cases hs : takeValues argument args index with
        | done r =>
          obtain ⟨a, index1⟩ := r
          simp only
          apply ih
          have hev := ParserEvolves_store p name argument a hg
            ((takeValues_spec args argument index).1 a index1 hs).1
          have h0 : unknownShort p sname = false := by simp [unknownShort, hl, hg]
          simp only [List.any_cons, h0, Bool.false_or] at h
          rw [← unknownShort_evolves hev] at h
          exact h
        | raised e r =>
          obtain ⟨a, index1⟩ := r
          exact ⟨_, rfl⟩

theorem token_cases (t : Str) :
    (∃ name, t = '-' :: '-' :: name) ∨
      (∃ names, t = '-' :: names ∧ ∀ name, names ≠ '-' :: name) ∨
      beginsWithHyphen t = false := by
  cases t with
  | nil => right; right; rfl
  | cons c rest =>
    by_cases hc : c = '-'
    · subst hc
      cases rest with
      | nil => right; left; exact ⟨[], rfl, by simp⟩
      | cons d rest2 =>
        by_cases hd : d = '-'
        · subst hd; left; exact ⟨rest2, rfl⟩
        · right; left
          refine ⟨d :: rest2, rfl, ?_⟩
          intro name h
          simp at h
          exact hd h.1
    · right; right
      unfold beginsWithHyphen
      split
      · rename_i heq
        simp at heq
        exact absurd heq.1 hc
      · rfl

theorem ParseToken_long (p : ArgParser) (args : List Str) (index : Nat) (name : Str)
    (h : args.getD index [] = '-' :: '-' :: name) :
    ParseToken p args index = ParseLong p args index name := by
  unfold ParseToken
  rw [h]
  split
  · rename_i heq
    simp at heq
    rw [heq]
  · rename_i h2 heq
    simp at heq
    exact (h2 name heq.symm).elim
  · rename_i h2 h3
    exact absurd rfl (h2 name)

theorem ParseToken_short (p : ArgParser) (args : List Str) (index : Nat) (names : Str)
    (h : args.getD index [] = '-' :: names) (hn : ∀ name, names ≠ '-' :: name) :
    ParseToken p args index = ParseShort p args index names := by
  unfold ParseToken
  rw [h]
  split
  · rename_i heq
    simp at heq
    exact absurd heq (hn _)
  · rename_i heq
    simp at heq
    rw [heq]
  · rename_i h2
    exact absurd rfl (h2 names)

theorem ParseToken_bare (p : ArgParser) (args : List Str) (index : Nat)
    (h : beginsWithHyphen (args.getD index []) = false) :
    ParseToken p args index = ParsePositional p args index := by
  unfold ParseToken
  split
  · rename_i heq
    rw [heq] at h
    simp [beginsWithHyphen] at h
  · rename_i heq
    rw [heq] at h
    simp [beginsWithHyphen] at h
  · rfl

theorem unknownToken_short (p : ArgParser) (names : Str) (hn : ∀ name, names ≠ '-' :: name) :
    unknownToken p ('-' :: names) = (beforeEq names).any (unknownShort p) := by
  unfold unknownToken
  split
  · rename_i heq
    simp at heq
    exact absurd heq (hn _)
  · rename_i heq
    simp at heq
    rw [heq]
  · rename_i h2
    exact absurd rfl (h2 names)

theorem namesArgument_short (p : ArgParser) (nm names : Str) (hn : ∀ name, names ≠ '-' :: name) :
    namesArgument p nm ('-' :: names) =
      (beforeEq names).any (fun c => p.short_names_.lookup c = some nm) := by
  unfold namesArgument
  split
  · rename_i heq
    simp at heq
    exact absurd heq (hn _)
  · rename_i heq
    simp at heq
    rw [heq]
  · rename_i h2
    exact absurd rfl (h2 names)

theorem ParseToken_unknown (p : ArgParser) (args : List Str) (index : Nat)
    (h : unknownToken p (args.getD index []) = true) :
    ∃ r, ParseToken p args index = .stop r := by
  rcases token_cases (args.getD index []) with ⟨name, ht⟩ | ⟨names, ht, hn⟩ | ht
  · rw [ParseToken_long p args index name ht]
    rw [ht] at h
    simp only [unknownToken, Option.isNone_iff_eq_none] at h
    unfold ParseLong
    unfold beforeEq at h
    split
    · rename_i k hk
      simp only [hk] at h
      simp only
      rw [h]
      exact ⟨_, rfl⟩
    · rename_i hk
      simp only [hk] at h
      rw [h]
      exact ⟨_, rfl⟩
  · rw [ParseToken_short p args index names ht hn]
    rw [ht, unknownToken_short p names hn] at h
    unfold ParseShort
    unfold beforeEq at h
    split
    · rename_i k hk
      simp only [hk] at h
      exact ParseShortInline_unknown _ _ _ _ h
    · rename_i hk
      simp only [hk] at h
      exact ParseShortCluster_unknown _ _ _ _ h
  · exfalso
    revert h
    unfold unknownToken
    split
    · rename_i heq
      rw [heq] at ht
      simp [beginsWithHyphen] at ht
    · rename_i heq
      rw [heq] at ht
      simp [beginsWithHyphen] at ht
    · simp

theorem unknownToken_hyphen (p : ArgParser) (t : Str) (h : unknownToken p t = true) :
    beginsWithHyphen t = true := by
  rcases token_cases t with ⟨name, ht⟩ | ⟨names, ht, _⟩ | ht
  · rw [ht]; rfl
  · rw [ht]; rfl
  · exfalso
    revert h
    unfold unknownToken
    split
    · rename_i heq
      simp [beginsWithHyphen] at ht
    · rename_i heq
      simp [beginsWithHyphen] at ht
    · simp

theorem namesArgument_hyphen (p : ArgParser) (nm t : Str) (h : namesArgument p nm t = true) :
    beginsWithHyphen t = true := by
  rcases token_cases t with ⟨name, ht⟩ | ⟨names, ht, _⟩ | ht
  · rw [ht]; rfl
  · rw [ht]; rfl
  · exfalso
    revert h
    unfold namesArgument
    split
    · rename_i heq
      simp [beginsWithHyphen] at ht
    · rename_i heq
      simp [beginsWithHyphen] at ht
    · simp

theorem FlagReg_evolves {p p1 : ArgParser} {nm : Str} {d : Bool} (h : ParserEvolves p p1)
    (hf : FlagReg p nm d) : FlagReg p1 nm d := by
  obtain ⟨f, hg, hd⟩ := hf
  obtain ⟨a1, ha1, he⟩ := (ArgsEvolve_get h.1 nm).2 _ hg
  cases a1 with
  | flag g => exact ⟨g, ha1, by simp [Evolves] at he; rw [he.1, hd]⟩
  | string _ => simp [Evolves] at he
  | int _ => simp [Evolves] at he

theorem FlagSet_evolves {p p1 : ArgParser} {nm : Str} {d : Bool} (h : ParserEvolves p p1)
    (hf : FlagSet p nm d) : FlagSet p1 nm d := by
  obtain ⟨f, hg, hd, hv⟩ := hf
  obtain ⟨a1, ha1, he⟩ := (ArgsEvolve_get h.1 nm).2 _ hg
  cases a1 with
  | flag g =>
    simp [Evolves] at he
    refine ⟨g, ha1, by rw [he.1, hd], ?_⟩
    rcases he.2 with h2 | h2
    · rw [h2, hv]
    · rw [h2, hd]
  | string _ => simp [Evolves] at he
  | int _ => simp [Evolves] at he

theorem FlagSet_store (p : ArgParser) (nm : Str) (f : FlagArgument) (value : Str)
    (hg : GetArgument p.arguments_ nm = some (.flag f)) :
    FlagSet (p.store nm (.flag (f.SetValue value))) nm f.default_value_ := by
  refine ⟨f.SetValue value, ?_, rfl, rfl⟩
  simp [ArgParser.store, GetArgument_store _ _ _ _ _ hg]

theorem ParseShortInline_flag (value : Str) (index : Nat) (nm : Str) (d : Bool)
    (names : List Char) (p p1 : ArgParser) (index1 : Nat) (hr : FlagReg p nm d)
    (h : FlagSet p nm d ∨ names.any (fun c => p.short_names_.lookup c = some nm) = true)
    (hs : ParseShortInline value index names p = .next p1 index1) : FlagSet p1 nm d := by
  induction names generalizing p with
  | nil =>
    simp only [ParseShortInline] at hs
    simp at hs h
    rw [← hs.1]
    exact h
  | cons sname names ih =>
    simp only [ParseShortInline] at hs
    split at hs
    · simp [unknownArgument] at hs
    · rename_i name hl
      split at hs
      · simp [unknownArgument] at hs
      · rename_i argument hg
        cases hv : argument.SetValue value with
        | raised e a => simp [hv, raise] at hs
        | done a =>
          simp only [hv] at hs
          have hev := ParserEvolves_store p name argument a hg ((SetValue_evolves _ _).1 a hv)
          refine ih _ (FlagReg_evolves hev hr) ?_ hs
          rcases h with h | h
          · exact Or.inl (FlagSet_evolves hev h)
          · simp only [List.any_cons, Bool.or_eq_true, decide_eq_true_eq] at h
            rcases h with h | h
            · left
              rw [hl] at h
              simp at h
              subst h
              obtain ⟨f, hf, hd⟩ := hr
              rw [hf] at hg
              simp at hg
              subst hg
              simp [BaseArgument.SetValue] at hv
              subst hv
              rw [← hd]
              exact FlagSet_store p name f value hf
            · right
              simpa [ArgParser.store] using h

theorem ParseShortCluster_flag (args : List Str) (nm : Str) (d : Bool)
    (names : List Char) (p p1 : ArgParser) (index index1 : Nat) (hr : FlagReg p nm d)
    (h : FlagSet p nm d ∨ names.any (fun c => p.short_names_.lookup c = some nm) = true)
    (hs : ParseShortCluster args names p index = .next p1 index1) : FlagSet p1 nm d := by
  induction names generalizing p index with
  | nil =>
    simp only [ParseShortCluster] at hs
    simp at hs h
    rw [← hs.1]
    exact h
  | cons sname names ih =>
    simp only [ParseShortCluster] at hs
    split at hs
    · simp [unknownArgument] at hs
    · rename_i name hl
      split at hs
      · simp [unknownArgument] at hs
      · rename_i argument hg
        cases hv : takeValues argument args index with
        | raised e r =>
          obtain ⟨a, i2⟩ := r
          simp [hv, raise] at hs
        | done r =>
          obtain ⟨a, i2⟩ := r
          simp only [hv] at hs
          have hev := ParserEvolves_store p name argument a hg
            ((takeValues_spec args argument index).1 a i2 hv).1
          refine ih _ _ (FlagReg_evolves hev hr) ?_ hs
          rcases h with h | h
          · exact Or.inl (FlagSet_evolves hev h)
          · simp only [List.any_cons, Bool.or_eq_true, decide_eq_true_eq] at h
            rcases h with h | h
            · left
              rw [hl] at h
              simp at h
              subst h
              obtain ⟨f, hf, hd⟩ := hr
              rw [hf] at hg
              simp at hg
              subst hg
              rw [takeValues_flag] at hv
              simp at hv
              obtain ⟨rfl, rfl⟩ := hv
              rw [← hd]
              exact FlagSet_store p name f [] hf
            · right
              simpa [ArgParser.store] using h

theorem ParseToken_flag (p p1 : ArgParser) (args : List Str) (index index1 : Nat)
    (nm : Str) (d : Bool) (hr : FlagReg p nm d)
    (h : namesArgument p nm (args.getD index []) = true)
    (hs : ParseToken p args index = .next p1 index1) : FlagSet p1 nm d := by
  rcases token_cases (args.getD index []) with ⟨name, ht⟩ | ⟨names, ht, hn⟩ | ht
  · rw [ParseToken_long p args index name ht] at hs
    rw [ht] at h
    simp only [namesArgument, decide_eq_true_eq] at h
    obtain ⟨f, hf, hd⟩ := hr
    unfold ParseLong at hs
    unfold beforeEq at h
    split at hs
    · rename_i k hk
      simp only [hk] at h
      simp only [h, hf, BaseArgument.SetValue] at hs
      simp at hs
      rw [← hs.1, ← hd]
      exact FlagSet_store p nm f _ hf
    · rename_i hk
      simp only [hk] at h
      subst h
      simp only [hf, takeValues_flag] at hs
      simp at hs
      rw [← hs.1, ← hd]
      exact FlagSet_store p name f _ hf
  · rw [ParseToken_short p args index names ht hn] at hs
    rw [ht, namesArgument_short p nm names hn] at h
    unfold ParseShort at hs
    unfold beforeEq at h
    split at hs
    · rename_i k hk
      simp only [hk] at h
      exact ParseShortInline_flag _ _ _ _ _ _ _ _ hr (Or.inr h) hs
    · rename_i hk
      simp only [hk] at h
      exact ParseShortCluster_flag _ _ _ _ _ _ _ _ hr (Or.inr h) hs
  · have := namesArgument_hyphen p nm _ h
    rw [ht] at this
    cases this

/-! ## Lemmas: the recursion of `Parse` -/

theorem ParseFuel_of_tokens (fuel : Nat) (p p1 : ArgParser) (args : List Str) (index : Nat)
    (h : ParseTokens fuel p args index = some p1) :
    ParseFuel fuel p args index = ParseEnd p1 := by
  induction fuel generalizing p index with
  | zero => simp [ParseTokens] at h
  | succ fuel ih =>
    simp only [ParseTokens] at h
    simp only [ParseFuel]
    split at h
    · rename_i hle
      simp at h
      simp [hle, h]
    · rename_i hle
      simp only [hle, if_false]
      split at h
      · rename_i p2 i2 hs
        exact ih _ _ h
      · simp at h

theorem ParseTokens_spec (fuel : Nat) (p p1 : ArgParser) (args : List Str) (index : Nat)
    (h : ParseTokens fuel p args index = some p1) :
    ParserEvolves p p1 ∧
      ∀ nm d, FlagReg p nm d →
        (FlagSet p nm d ∨
          ∃ j, index ≤ j ∧ j < args.length ∧ namesArgument p nm (args.getD j []) = true) →
        FlagSet p1 nm d := by
  induction fuel generalizing p index with
  | zero => simp [ParseTokens] at h
  | succ fuel ih =>
    simp only [ParseTokens] at h
    split at h
    · rename_i hle
      simp at h
      subst h
      refine ⟨ParserEvolves_refl p, ?_⟩
      intro nm d _ hn
      rcases hn with hn | ⟨j, h1, h2, _⟩
      · exact hn
      · omega
    · rename_i hle
      have hi : index < args.length := by omega
      split at h
      · rename_i p2 i2 hs
        have hok := ParseToken_ok p args index hi
        rw [hs] at hok
        obtain ⟨hev, hlt, hle2, hskip⟩ := hok
        obtain ⟨hev2, hflag⟩ := ih _ _ h
        refine ⟨ParserEvolves_trans hev hev2, ?_⟩
        intro nm d hr hn
        apply hflag nm d (FlagReg_evolves hev hr)
        rcases hn with hn | ⟨j, h1, h2, h3⟩
        · exact Or.inl (FlagSet_evolves hev hn)
        · by_cases hj : j = index
          · subst hj
            exact Or.inl (ParseToken_flag p p2 args j i2 nm d hr h3 hs)
          · right
            refine ⟨j, ?_, h2, by rw [namesArgument_evolves hev]; exact h3⟩
            by_contra hc
            have := hskip j (by omega) (by omega)
            rw [namesArgument_hyphen p nm _ h3] at this
            cases this
      · simp at h

theorem ParseFuel_unknown (fuel : Nat) (p : ArgParser) (args : List Str) (index : Nat)
    (hf : args.length - index + 1 ≤ fuel)
    (h : ∃ j, index ≤ j ∧ j < args.length ∧ unknownToken p (args.getD j []) = true) :
    notSucceeded (ParseFuel fuel p args index).outcome := by
  induction fuel generalizing p index with
  | zero => omega
  | succ fuel ih =>
    obtain ⟨j, h1, h2, h3⟩ := h
    have hi : index < args.length := by omega
    simp only [ParseFuel, Nat.not_le.2 hi, if_false]
    have hok := ParseToken_ok p args index hi
    cases hs : ParseToken p args index with
    | stop r =>
      simp only
      rw [hs] at hok
      rcases hok.2 with hr | ⟨e, he1, he2, _⟩
      · exact Or.inl hr.1
      · exact Or.inr ⟨e, he1, he2⟩
    | next p2 i2 =>
      simp only
      rw [hs] at hok
      obtain ⟨hev, hlt, hle2, hskip⟩ := hok
      apply ih _ _ (by omega)
      refine ⟨j, ?_, h2, by rw [unknownToken_evolves hev]; exact h3⟩
      by_contra hc
      by_cases hj : j = index
      · subst hj
        obtain ⟨r, hr⟩ := ParseToken_unknown p args j h3
        rw [hr] at hs
        cases hs
      · have := hskip j (by omega) (by omega)
        rw [unknownToken_hyphen p _ h3] at this
        cases this

/-! ## Lemmas: the end of the tokens -/

theorem assignRun_evolves (current : Nat) (buffer : List (Nat × Str)) (a : BaseArgument) :
    (∀ r, assignRun current a buffer = .done r → Evolves a r.1) ∧
      (∀ e r, assignRun current a buffer = .raised e r → Evolves a r.1 ∧ stoiFailure e) := by
  induction buffer generalizing a with
  | nil =>
    simp only [assignRun]
    refine ⟨?_, by simp⟩
    intro r h
    simp at h
    subst h
    exact Evolves_refl a
  | cons x rest ih =>
    obtain ⟨number, token⟩ := x
    simp only [assignRun]
    split
    · cases hs : a.SetValue token with
      | done b =>
        simp only
        have hab := (SetValue_evolves a token).1 b hs
        exact ⟨fun r h => Evolves_trans hab ((ih b).1 r h),
          fun e r h => ⟨Evolves_trans hab ((ih b).2 e r h).1, ((ih b).2 e r h).2⟩⟩
      | raised e b =>
        simp only
        refine ⟨by simp, ?_⟩
        intro e1 r h
        simp at h
        obtain ⟨rfl, rfl⟩ := h
        exact (SetValue_evolves a token).2 e b hs
    · refine ⟨?_, by simp⟩
      intro r h
      simp at h
      subst h
      exact Evolves_refl a

theorem assignPositional_evolves (current : Nat) (l : List (Str × BaseArgument))
    (buffer : List (Nat × Str)) :
    (∀ r, assignPositional current l buffer = .done r → ArgsEvolve l r.1) ∧
      (∀ e r, assignPositional current l buffer = .raised e r →
        ArgsEvolve l r.1 ∧ stoiFailure e) := by
  induction l generalizing buffer with
  | nil =>
    simp only [assignPositional]
    refine ⟨?_, by simp⟩
    intro r h
    simp at h
    subst h
    exact List.Forall₂.nil
  | cons x rest ih =>
    obtain ⟨name, argument⟩ := x
    simp only [assignPositional]
    split
    · cases hs : assignRun current argument buffer with
      | raised e r =>
        obtain ⟨a, u⟩ := r
        simp only
        refine ⟨by simp, ?_⟩
        intro e1 r h
        simp at h
        obtain ⟨rfl, rfl⟩ := h
        have := (assignRun_evolves current buffer argument).2 e _ hs
        exact ⟨List.Forall₂.cons ⟨rfl, this.1⟩ (ArgsEvolve_refl rest), this.2⟩
      | done r =>
        obtain ⟨a, u⟩ := r
        simp only
        have ha := (assignRun_evolves current buffer argument).1 _ hs
        cases hr : assignPositional current rest u with
        | raised e r1 =>
          obtain ⟨rest1, u1⟩ := r1
          simp only
          refine ⟨by simp, ?_⟩
          intro e1 r h
          simp at h
          obtain ⟨rfl, rfl⟩ := h
          have := (ih u).2 e _ hr
          exact ⟨List.Forall₂.cons ⟨rfl, ha⟩ this.1, this.2⟩
        | done r1 =>
          obtain ⟨rest1, u1⟩ := r1
          simp only
          refine ⟨?_, by simp⟩
          intro r h
          simp at h
          subst h
          exact List.Forall₂.cons ⟨rfl, ha⟩ ((ih u).1 _ hr)
    · cases hr : assignPositional current rest buffer with
      | raised e r1 =>
        obtain ⟨rest1, u1⟩ := r1
        simp only
        refine ⟨by simp, ?_⟩
        intro e1 r h
        simp at h
        obtain ⟨rfl, rfl⟩ := h
        have := (ih buffer).2 e _ hr
        exact ⟨List.Forall₂.cons ⟨rfl, Evolves_refl _⟩ this.1, this.2⟩
      | done r1 =>
        obtain ⟨rest1, u1⟩ := r1
        simp only
        refine ⟨?_, by simp⟩
        intro r h
        simp at h
        subst h
        exact List.Forall₂.cons ⟨rfl, Evolves_refl _⟩ ((ih buffer).1 _ hr)

theorem checkArguments_keeps (p : ArgParser) (l : List (Str × BaseArgument)) :
    (checkArguments p l).parser = p := by
  induction l with
  | nil => rfl
  | cons x rest ih =>
    obtain ⟨name, argument⟩ := x
    simp only [checkArguments]
    split <;> simp [ih]

theorem UpdatePositionalArguments_evolves (p : ArgParser) :
    (∀ r, UpdatePositionalArguments p = .done r → ParserEvolves p r.1) ∧
      (∀ e r, UpdatePositionalArguments p = .raised e r →
        ParserEvolves p r.1 ∧ stoiFailure e) := by
  unfold UpdatePositionalArguments
  split
  · refine ⟨?_, by simp⟩
    intro r h
    simp at h
    subst h
    exact ParserEvolves_refl p
  · rename_i current _ rest hb
    cases hs : assignPositional current p.arguments_ p.positional_arguments_ with
    | raised e r =>
      obtain ⟨l, u⟩ := r
      rw [hb] at hs
      simp only [hs]
      refine ⟨by simp, ?_⟩
      intro e1 r h
      simp at h
      obtain ⟨rfl, rfl⟩ := h
      have := (assignPositional_evolves current p.arguments_ _).2 e _ hs
      exact ⟨⟨this.1, rfl⟩, this.2⟩
    | done r =>
      obtain ⟨l, u⟩ := r
      rw [hb] at hs
      simp only [hs]
      refine ⟨?_, by simp⟩
      intro r h
      simp at h
      subst h
      exact ⟨(assignPositional_evolves current p.arguments_ _).1 _ hs, rfl⟩

theorem ParseValidate_evolves (p : ArgParser) : ParserEvolves p (ParseValidate p).parser := by
  unfold ParseValidate
  cases hs : UpdatePositionalArguments p with
  | raised e r =>
    obtain ⟨p1, b⟩ := r
    exact ((UpdatePositionalArguments_evolves p).2 e _ hs).1
  | done r =>
    obtain ⟨p1, b⟩ := r
    have := (UpdatePositionalArguments_evolves p).1 _ hs
    simp only
    split
    · exact ⟨this.1, this.2⟩
    · rw [checkArguments_keeps]
      exact ⟨this.1, this.2⟩

theorem ParseEnd_evolves (p : ArgParser) : ParserEvolves p (ParseEnd p).parser := by
  unfold ParseEnd
  split
  · exact ParserEvolves_refl p
  · exact ParseValidate_evolves p

/-! ## Lemmas: steps on known options, and the fuel -/

theorem ParseFuel_fuel (f1 f2 : Nat) (p : ArgParser) (args : List Str) (index : Nat)
    (h1 : args.length - index + 1 ≤ f1) (h2 : args.length - index + 1 ≤ f2) :
    ParseFuel f1 p args index = ParseFuel f2 p args index := by
  induction f1 generalizing f2 p index with
  | zero => omega
  | succ f1 ih =>
    cases f2 with
    | zero => omega
    | succ f2 =>
      simp only [ParseFuel]
      split
      · rfl
      · rename_i hle
        have hi : index < args.length := by omega
        have hok := ParseToken_ok p args index hi
        cases hs : ParseToken p args index with
        | stop r => rfl
        | next p1 i1 =>
          rw [hs] at hok
          exact ih _ _ _ (by have := hok.2.1; omega) (by have := hok.2.1; omega)

theorem ParseTokens_fuel (f1 f2 : Nat) (p : ArgParser) (args : List Str) (index : Nat)
    (h1 : args.length - index + 1 ≤ f1) (h2 : args.length - index + 1 ≤ f2) :
    ParseTokens f1 p args index = ParseTokens f2 p args index := by
  induction f1 generalizing f2 p index with
  | zero => omega
  | succ f1 ih =>
    cases f2 with
    | zero => omega
    | succ f2 =>
      simp only [ParseTokens]
      split
      · rfl
      · rename_i hle
        have hi : index < args.length := by omega
        have hok := ParseToken_ok p args index hi
        cases hs : ParseToken p args index with
        | stop r => rfl
        | next p1 i1 =>
          rw [hs] at hok
          exact ih _ _ _ (by have := hok.2.1; omega) (by have := hok.2.1; omega)

theorem Parse_end (p : ArgParser) (args : List Str) (index : Nat) (h : args.length ≤ index) :
    Parse p args index = ParseEnd p := by
  simp [Parse, ParseFuel, h]

theorem Parse_next (p p1 : ArgParser) (args : List Str) (index index1 : Nat)
    (hi : index < args.length) (hs : ParseToken p args index = .next p1 index1) :
    Parse p args index = Parse p1 args index1 := by
  have hok := ParseToken_ok p args index hi
  rw [hs] at hok
  have e : args.length - index + 1 = (args.length - index) + 1 := rfl
  unfold Parse
  rw [e]
  simp only [ParseFuel, Nat.not_le.2 hi, if_false, hs]
  exact ParseFuel_fuel _ _ _ _ _ (by have := hok.2.1; omega) (le_refl _)

theorem Parse_stop (p : ArgParser) (r : ParseResult) (args : List Str) (index : Nat)
    (hi : index < args.length) (hs : ParseToken p args index = .stop r) :
    Parse p args index = r := by
  have e : args.length - index + 1 = (args.length - index) + 1 := rfl
  unfold Parse
  rw [e]
  simp only [ParseFuel, Nat.not_le.2 hi, if_false, hs]

theorem Parse_of_tokens (p p1 : ArgParser) (args : List Str) (index : Nat)
    (h : ParseTokens (args.length - index + 1) p args index = some p1) :
    Parse p args index = ParseEnd p1 :=
  ParseFuel_of_tokens _ _ _ _ _ h

theorem ParseLong_inline (p : ArgParser) (args : List Str) (index : Nat) (name v : Str)
    (hn : '=' ∉ name) :
    ParseLong p args index (name ++ '=' :: v) =
      match GetArgument p.arguments_ name with
      | none => unknownArgument p name
      | some argument =>
        match argument.SetValue v with
        | .raised e a => raise (p.store name a) e
        | .done a => .next (p.store name a) (index + 1) := by
  unfold ParseLong
  rw [find_append _ _ _ hn]
  simp

theorem ParseLong_separate (p : ArgParser) (args : List Str) (index : Nat) (name : Str)
    (hn : '=' ∉ name) :
    ParseLong p args index name =
      match GetArgument p.arguments_ name with
      | none => unknownArgument p name
      | some argument =>
        match takeValues argument args index with
        | .raised e (a, _) => raise (p.store name a) e
        | .done (a, index) => .next (p.store name a) (index + 1) := by
  unfold ParseLong
  rw [(find_eq_none_iff _ _).2 hn]

theorem ParseEnd_parser_of_empty (p : ArgParser) (h : p.positional_arguments_ = []) :
    (ParseEnd p).parser = p := by
  unfold ParseEnd
  split
  · rfl
  · unfold ParseValidate UpdatePositionalArguments
    rw [h]
    simp only [Bool.not_true, Bool.false_eq_true, if_false]
    rw [checkArguments_keeps]
    cases p
    simp at h
    simp [h]

theorem SetValue_declared (argument a1 : BaseArgument) (k : Int) (value : Str)
    (h : declaredMultiValue argument k) (hs : argument.SetValue value = .done a1) :
    declaredMultiValue a1 k := by
  cases argument with
  | flag f => simp [declaredMultiValue] at h
  | string a =>
    simp [BaseArgument.SetValue] at hs
    subst hs
    simp only [declaredMultiValue] at h ⊢
    simp [StringArgument.SetValue, h.1, h.2]
  | int a =>
    simp only [declaredMultiValue] at h
    simp only [BaseArgument.SetValue, IntArgument.SetValue, h.1, if_true] at hs
    cases hv : stoi value with
    | error e => simp [hv] at hs
    | ok v =>
      simp [hv] at hs
      subst hs
      simp [declaredMultiValue, h.2]

theorem SetValue_int_ok (a : IntArgument) (value : Str) (v : Int) (h : stoi value = .ok v) :
    ∃ b, (BaseArgument.int a).SetValue value = .done (.int b) := by
  unfold BaseArgument.SetValue IntArgument.SetValue
  by_cases hm : a.is_multi_value_ = true <;> simp [h, hm]

theorem SetValues_total (run : List Str) (argument : BaseArgument)
    (hint : ∀ a, argument = .int a → ∀ t ∈ run, ∃ v, stoi t = .ok v)
    (hf : ∀ f, argument ≠ .flag f) :
    ∃ a1, SetValues argument run = .done a1 := by
  induction run generalizing argument with
  | nil => exact ⟨argument, rfl⟩
  | cons t rest ih =>
    simp only [SetValues]
    cases argument with
    | flag f => exact absurd rfl (hf f)
    | string a =>
      simp only [BaseArgument.SetValue]
      exact ih _ (by simp) (by simp)
    | int a =>
      obtain ⟨v, hv⟩ := hint a rfl t (by simp)
      obtain ⟨b, hb⟩ := SetValue_int_ok a t v hv
      rw [hb]
      refine ih _ ?_ (by simp)
      intro a2 _ t2 ht2
      exact hint a rfl t2 (by simp [ht2])

theorem consumeValues_run (run tail : List Str) (a a1 : BaseArgument) (index : Nat) (count : Int)
    (hrun : ∀ t ∈ run, beginsWithHyphen t = false)
    (htail : ∀ t, tail.head? = some t → beginsWithHyphen t = true)
    (hs : SetValues a (run.take (min count.toNat run.length)) = .done a1) :
    consumeValues a index count (run ++ tail)
      = .done (a1, index + min count.toNat run.length) := by
  induction run generalizing a index count with
  | nil =>
    simp [SetValues] at hs
    subst hs
    cases tail with
    | nil => simp [consumeValues]
    | cons t rest =>
      have := htail t rfl
      simp [consumeValues, this]
  | cons t run ih =>
    have ht := hrun t (by simp)
    by_cases hc : count > 0
    · have e : min count.toNat (run.length + 1) = min (count - 1).toNat run.length + 1 := by
        omega
      simp only [List.length_cons, e, List.take_succ_cons, SetValues] at hs
      simp only [List.cons_append, consumeValues, ht, Bool.not_false, hc, decide_True,
        Bool.and_self, if_true, List.length_cons, e]
      cases hv : a.SetValue t with
      | raised e1 b => simp [hv] at hs
      | done b =>
        simp only [hv] at hs
        simp only
        rw [show run.append tail = run ++ tail from rfl,
          ih b (index + 1) (count - 1) (fun t1 h1 => hrun t1 (by simp [h1])) hs]
        congr 2
        omega
    · have e : min count.toNat (run.length + 1) = 0 := by omega
      simp only [List.length_cons, e, List.take_zero, SetValues] at hs
      simp at hs
      subst hs
      simp [consumeValues, hc, e]

theorem takeWhile_run (run tail : List Str)
    (hrun : ∀ t ∈ run, beginsWithHyphen t = false)
    (htail : ∀ t, tail.head? = some t → beginsWithHyphen t = true) :
    (run ++ tail).takeWhile (fun token => !beginsWithHyphen token) = run := by
  induction run with
  | nil =>
    cases tail with
    | nil => rfl
    | cons t rest => simp [List.takeWhile, htail t rfl]
  | cons t run ih =>
    simp [List.takeWhile, hrun t (by simp), ih (fun t1 h1 => hrun t1 (by simp [h1]))]

/-! ## The claims -/

/-- C1: on the parser with `AddStringArgument('i', "input").MultiValue(1)`,
`AddFlag('s', "flag1").Default(true)`, `AddFlag('p', "flag2")` and
`AddIntArgument("number")`, `Parse` of
`["app", "--input", "a.txt", "-s", "--number", "42"]` returns true, and
afterwards `GetStringValue("input")` is `"a.txt"`, `GetFlag("flag1")` is false,
`GetFlag("flag2")` is false and `GetIntValue("number")` is 42. -/
theorem Parse_example_end_to_end :
    (Parse exampleParser exampleArgs 1).outcome = .returned true ∧
      GetStringValue (Parse exampleParser exampleArgs 1).parser "input".toList 0
        = .ok "a.txt".toList ∧
      GetFlag (Parse exampleParser exampleArgs 1).parser "flag1".toList 0 = false ∧
      GetFlag (Parse exampleParser exampleArgs 1).parser "flag2".toList 0 = false ∧
      GetIntValue (Parse exampleParser exampleArgs 1).parser "number".toList 0 = .ok 42 := by
  decide

/-- C2, as stated, fails for the String argument `a=b` and the value `x`:
`Parse` of `["app", "--a=b=x"]` reads the name `a`, which is unknown, and
`GetStringValue("a=b")` stays empty. -/
theorem Parse_inline_name_with_equals :
    ¬ (Parse equalsNameParser ["app".toList, "--a=b=x".toList] 1
          = Parse equalsNameParser ["app".toList, "--a=b".toList, "x".toList] 1 ∧
        GetStringValue (Parse equalsNameParser ["app".toList, "--a=b=x".toList] 1).parser
          "a=b".toList 0 = .ok "x".toList ∧
        GetStringValue
          (Parse equalsNameParser ["app".toList, "--a=b".toList, "x".toList] 1).parser
          "a=b".toList 0 = .ok "x".toList) := by
  decide

/-- C2 (amended): for every single-value String argument whose long name `name`
contains no `=`, and every value `v` that does not begin with a hyphen,
`Parse` of `[prog, "--name=v"]` and `Parse` of `[prog, "--name", v]` on the same
parser with an empty positional buffer give the same result, and
`GetStringValue(name)` is `v` after either. -/
theorem Parse_inline_eq_separate (p : ArgParser) (prog name v : Str) (a : StringArgument)
    (hg : GetArgument p.arguments_ name = some (.string a))
    (hs : a.is_multi_value_ = false)
    (hn : '=' ∉ name)
    (hv : beginsWithHyphen v = false)
    (hb : p.positional_arguments_ = []) :
    Parse p [prog, '-' :: '-' :: (name ++ '=' :: v)] 1
        = Parse p [prog, '-' :: '-' :: name, v] 1 ∧
      GetStringValue (Parse p [prog, '-' :: '-' :: (name ++ '=' :: v)] 1).parser name 0
        = .ok v ∧
      GetStringValue (Parse p [prog, '-' :: '-' :: name, v] 1).parser name 0 = .ok v := by
  have h1 : Parse p [prog, '-' :: '-' :: (name ++ '=' :: v)] 1
      = ParseEnd (p.store name (.string (a.SetValue v))) := by
    rw [Parse_next p (p.store name (.string (a.SetValue v))) _ 1 2 (by simp)]
    · exact Parse_end _ _ _ (by simp)
    · rw [ParseToken_long p _ 1 (name ++ '=' :: v) (by simp), ParseLong_inline _ _ _ _ _ hn, hg]
      simp [BaseArgument.SetValue]
  have h2 : Parse p [prog, '-' :: '-' :: name, v] 1
      = ParseEnd (p.store name (.string (a.SetValue v))) := by
    rw [Parse_next p (p.store name (.string (a.SetValue v))) _ 1 3 (by simp)]
    · exact Parse_end _ _ _ (by simp)
    · rw [ParseToken_long p _ 1 name (by simp), ParseLong_separate _ _ _ _ hn, hg]
      simp [takeValues, BaseArgument.ValuesCount, StringArgument.ValuesCount, hs, consumeValues,
        hv, BaseArgument.SetValue]
  have h3 : GetStringValue (ParseEnd (p.store name (.string (a.SetValue v)))).parser name 0
      = .ok v := by
    rw [ParseEnd_parser_of_empty _ (by simpa [ArgParser.store] using hb)]
    simp [GetStringValue, ArgParser.store, GetArgument_store _ _ _ _ _ hg,
      StringArgument.GetValue, StringArgument.SetValue, hs]
  rw [h1, h2]
  exact ⟨rfl, h3, h3⟩

/-- C2 (amended), at the argument `input` of the example parser and the value `a=b`. -/
theorem Parse_inline_eq_separate_witness :
    Parse (ArgParser.AddStringArgument (ArgParser.new []) 'i' "input".toList [] id)
        ["app".toList, '-' :: '-' :: ("input".toList ++ '=' :: "a=b".toList)] 1
      = Parse (ArgParser.AddStringArgument (ArgParser.new []) 'i' "input".toList [] id)
        ["app".toList, '-' :: '-' :: "input".toList, "a=b".toList] 1 ∧
    GetStringValue (Parse (ArgParser.AddStringArgument (ArgParser.new []) 'i' "input".toList [] id)
        ["app".toList, '-' :: '-' :: ("input".toList ++ '=' :: "a=b".toList)] 1).parser
        "input".toList 0 = .ok "a=b".toList ∧
    GetStringValue (Parse (ArgParser.AddStringArgument (ArgParser.new []) 'i' "input".toList [] id)
        ["app".toList, '-' :: '-' :: "input".toList, "a=b".toList] 1).parser
        "input".toList 0 = .ok "a=b".toList :=
  Parse_inline_eq_separate _ "app".toList "input".toList "a=b".toList
    (StringArgument.new 'i' "input".toList []) (by decide) (by decide) (by decide) (by decide)
    (by decide)

/-- C3, as stated, fails for the Int argument `n` declared `MultiValue(2)` and
the run `abc 1 2` after `--n`: the first `SetValue` call raises, nothing is
stored, and the third token is never buffered as positional. -/
theorem Parse_multi_value_int_raises :
    (Parse intPairParser
        ["app".toList, "--n".toList, "abc".toList, "1".toList, "2".toList] 1).outcome
      = .raised .invalid_argument ∧
    (Parse intPairParser
        ["app".toList, "--n".toList, "abc".toList, "1".toList, "2".toList] 1).parser.positional_arguments_
      = [] ∧
    (GetArgument (Parse intPairParser
        ["app".toList, "--n".toList, "abc".toList, "1".toList, "2".toList] 1).parser.arguments_
        "n".toList).map storedInts = some (some []) := by
  decide

theorem getD_front (front : List Str) (x : Str) (rest : List Str) :
    (front ++ x :: rest).getD front.length [] = x := by
  rw [List.getD_eq_getElem?_getD, List.getElem?_append_right (le_refl _)]
  simp

theorem ValuesCount_declared (argument : BaseArgument) (k : Int)
    (h : declaredMultiValue argument k) :
    argument.ValuesCount = if k ≠ 0 then k else 2147483647 := by
  cases argument with
  | flag f => simp [declaredMultiValue] at h
  | string a =>
    simp only [declaredMultiValue] at h
    simp [BaseArgument.ValuesCount, StringArgument.ValuesCount, h.1, h.2]
  | int a =>
    simp only [declaredMultiValue] at h
    simp [BaseArgument.ValuesCount, IntArgument.ValuesCount, h.1, h.2]

/-- C3 (amended): for every String or Int argument declared `MultiValue(k)`
and every occurrence `--name` (no `=` in the token) followed by a run
of `n` tokens that do not begin with a hyphen (the run ends at the end of input
or at a hyphen-prefixed token; `n` within the `int32_t` range), provided that
`std::stoi` accepts the tokens that an Int argument takes: the occurrence makes
exactly the `SetValue` calls on the first `min(k, n)` tokens of the run when
`k > 0` and on the whole run when `k = 0`, and `Parse` goes on at the first
token that was not taken, where the rest of the run is buffered as one
positional run. -/
theorem Parse_multi_value_greedy (p : ArgParser) (front run tail : List Str) (name : Str)
    (argument : BaseArgument) (k : Int)
    (hname : '=' ∉ name)
    (hg : GetArgument p.arguments_ name = some argument)
    (hk : declaredMultiValue argument k)
    (hrun : ∀ t ∈ run, beginsWithHyphen t = false)
    (htail : ∀ t, tail.head? = some t → beginsWithHyphen t = true)
    (hlen : run.length ≤ 2147483647)
    (hint : ∀ a, argument = .int a →
      ∀ t ∈ run.take (consumed k run.length), ∃ v, stoi t = .ok v) :
    ∃ a1, SetValues argument (run.take (consumed k run.length)) = .done a1 ∧
      ParseToken p (front ++ ('-' :: '-' :: name) :: (run ++ tail)) front.length
        = .next (p.store name a1) (front.length + 1 + consumed k run.length) ∧
      (consumed k run.length < run.length →
        ParseToken (p.store name a1) (front ++ ('-' :: '-' :: name) :: (run ++ tail))
            (front.length + 1 + consumed k run.length)
          = .next
              { p.store name a1 with
                positional_arguments_ := p.positional_arguments_ ++
                  (run.drop (consumed k run.length)).map
                    (fun token => (front.length + 1 + consumed k run.length, token)) }
              (front.length + 1 + run.length)) := by
  have hflag : ∀ f, argument ≠ .flag f := by
    intro f hf
    rw [hf] at hk
    exact hk
  obtain ⟨a1, ha1⟩ := SetValues_total _ argument hint hflag
  have hcount : min (argument.ValuesCount).toNat run.length = consumed k run.length := by
    rw [ValuesCount_declared argument k hk]
    unfold consumed
    by_cases h0 : k = 0
    · simp [h0]
      omega
    · simp [h0]
  have hne : argument.ValuesCount ≠ 0 := by
    rw [ValuesCount_declared argument k hk]
    by_cases h0 : k = 0 <;> simp [h0]
  refine ⟨a1, ha1, ?_, ?_⟩
  · rw [ParseToken_long p _ front.length name (getD_front _ _ _),
      ParseLong_separate _ _ _ _ hname, hg]
    simp only [takeValues, hne, if_false]
    have hd : (front ++ ('-' :: '-' :: name) :: (run ++ tail)).drop (front.length + 1)
        = run ++ tail := by
      rw [List.drop_append_eq_append_drop]
      simp
    rw [hd, consumeValues_run run tail argument a1 front.length _ hrun htail
      (by rw [hcount]; exact ha1), hcount]
    simp only [Nat.add_right_comm]
  · intro hm
    have hd : (front ++ ('-' :: '-' :: name) :: (run ++ tail)).drop
        (front.length + 1 + consumed k run.length)
        = run.drop (consumed k run.length) ++ tail := by
      rw [List.drop_append_eq_append_drop]
      have e1 : front.length + 1 + consumed k run.length - front.length
          = consumed k run.length + 1 := by omega
      have e2 : List.drop (front.length + 1 + consumed k run.length) front = [] := by
        simp
        omega
      rw [e1, e2]
      simp only [List.nil_append, List.drop_succ_cons]
      rw [List.drop_append_of_le_length (by omega)]
    have hbare : beginsWithHyphen
        ((front ++ ('-' :: '-' :: name) :: (run ++ tail)).getD
          (front.length + 1 + consumed k run.length) []) = false := by
      have : (front ++ ('-' :: '-' :: name) :: (run ++ tail)).getD
          (front.length + 1 + consumed k run.length) []
          = ((front ++ ('-' :: '-' :: name) :: (run ++ tail)).drop
              (front.length + 1 + consumed k run.length)).getD 0 [] := by
        simp [List.getD_eq_getElem?_getD, List.getElem?_drop]
      rw [this, hd]
      cases hr : run.drop (consumed k run.length) with
      | nil =>
        have := congrArg List.length hr
        simp at this
        omega
      | cons t rest =>
        simp only [List.cons_append, List.getD_cons_zero]
        apply hrun
        have : t ∈ run.drop (consumed k run.length) := by simp [hr]
        exact List.mem_of_mem_drop this
    rw [ParseToken_bare _ _ _ hbare]
    unfold ParsePositional
    simp only [hd]
    rw [takeWhile_run _ tail (fun t ht => hrun t (List.mem_of_mem_drop ht)) htail]
    simp only [List.length_drop, ArgParser.store]
    congr 1
    omega

/-- C3 (amended), at `MultiValue(2)` and the three trailing tokens `a b c`: two
are taken, the third is buffered as positional. -/
theorem Parse_multi_value_greedy_witness :
    ∃ a1, SetValues (.string ((StringArgument.new 'i' "input".toList []).MultiValue 2))
        (["a".toList, "b".toList, "c".toList].take (consumed 2 3)) = .done a1 ∧
      ParseToken stringPairParser
          (["app".toList] ++ ('-' :: '-' :: "input".toList)
            :: (["a".toList, "b".toList, "c".toList] ++ [])) 1
        = .next (stringPairParser.store "input".toList a1) (1 + 1 + consumed 2 3) ∧
      (consumed 2 3 < 3 →
        ParseToken (stringPairParser.store "input".toList a1)
            (["app".toList] ++ ('-' :: '-' :: "input".toList)
              :: (["a".toList, "b".toList, "c".toList] ++ []))
            (1 + 1 + consumed 2 3)
          = .next
              { stringPairParser.store "input".toList a1 with
                positional_arguments_ := stringPairParser.positional_arguments_ ++
                  (["a".toList, "b".toList, "c".toList].drop (consumed 2 3)).map
                    (fun token => (1 + 1 + consumed 2 3, token)) }
              (1 + 1 + 3)) :=
  Parse_multi_value_greedy stringPairParser ["app".toList]
    ["a".toList, "b".toList, "c".toList] [] "input".toList
    (.string ((StringArgument.new 'i' "input".toList []).MultiValue 2)) 2
    (by decide) (by decide) ⟨rfl, rfl⟩ (by decide) (by intro t h; cases h) (by decide)
    (by intro a h; cases h)

/-- C4, as stated, fails when an Int argument is handed a value that `std::stoi`
rejects before the unresolved name is looked up: `Parse` of
`["app", "--number=abc", "--bogus"]` raises instead of returning false, and so
does `Parse` of `["app", "-nx=abc"]`, where the cluster hands `abc` to `n`
before it looks up `x`. -/
theorem Parse_unknown_after_malformed_int :
    unknownToken intParser "--bogus".toList = true ∧
      (Parse intParser ["app".toList, "--number=abc".toList, "--bogus".toList] 1).outcome
        = .raised .invalid_argument ∧
      (Parse intParser ["app".toList, "--number=abc".toList, "--bogus".toList] 1).outcome
        ≠ .returned false ∧
      unknownToken intParser "-nx=abc".toList = true ∧
      (Parse intParser ["app".toList, "-nx=abc".toList] 1).outcome
        = .raised .invalid_argument := by
  decide

/-- C6 fails on the code: on the parser of the example with the help flag
registered first, and the command line of the example, which supplies every
required argument and no `--help`, `Parse` returns false, while the same
parser without the help flag returns true. -/
theorem Parse_help_registered_unset :
    (Parse helpExampleParser exampleArgs 1).outcome = .returned false ∧
      (Parse helpExampleParser exampleArgs 1).cerr = none ∧
      (Parse exampleParser exampleArgs 1).outcome = .returned true := by
  decide

/-- C7, as stated, fails for a multi-value argument with a sequence default
whose minimum is 2 and whose bound vector is empty: no token supplies it, and
`IsCorrect` returns false. -/
theorem IsCorrect_multi_value_ignores_default :
    ((StringArgument.new 'x' "x".toList []).MultiValue 2).DefaultValues
        ["a".toList, "b".toList] = .done pairWithDefault ∧
      pairWithDefault.StoreValues [] = .done boundPairWithDefault ∧
      boundPairWithDefault.is_set_ = false ∧
      boundPairWithDefault.is_default_ = true ∧
      boundPairWithDefault.IsCorrect = .ok false := by
  decide

theorem to_size_t_of_nonneg (n : Int) (h0 : 0 ≤ n) (h1 : n ≤ 2147483647) : to_size_t n = n := by
  unfold to_size_t
  exact Int.emod_eq_of_lt h0 (by omega)

theorem vector_at_get {α : Type} (v : List α) (i : Nat) (x : α) (h : v.get? i = some x) :
    vector_at v (i : Int) = .ok x := by
  unfold vector_at
  have hi : ¬ ((i : Int) < 0) := by omega
  have h1 : v[i]? = some x := by simpa using h
  simp [hi, h1]

/-- C7 (amended): a single-value String or Int argument with a scalar default
that no token supplies has `IsCorrect` true and `GetValue` the default; a
multi-value String or Int argument that no token supplies has `GetValue(i)` the
`i`-th entry of its sequence default, while its `IsCorrect` does not read the
default: on a sequence that is bound or allocated it is true exactly when the
minimum (within `0 .. 2^31 - 1`) is 0 or the sequence holds at least that many
entries. -/
theorem default_of_unsupplied :
    (∀ (a : StringArgument) (index : Int),
        a.is_multi_value_ = false → a.is_default_ = true → a.is_set_ = false →
        a.IsCorrect = .ok true ∧ a.GetValue index = .ok a.default_value_) ∧
    (∀ (a : IntArgument) (d index : Int),
        a.is_multi_value_ = false → a.is_default_ = true → a.default_value_ = some d →
        a.is_set_ = false →
        a.IsCorrect = .ok true ∧ a.GetValue index = .ok d) ∧
    (∀ (a : StringArgument) (i : Nat) (x : Str),
        a.is_multi_value_ = true → a.is_set_ = false →
        a.default_multi_value_.get? i = some x → a.GetValue i = .ok x) ∧
    (∀ (a : IntArgument) (i : Nat) (x : Int),
        a.is_multi_value_ = true → a.is_set_ = false →
        a.default_multi_value_.get? i = some x → a.GetValue i = .ok x) ∧
    (∀ (a : StringArgument) (vs : List Str),
        a.is_multi_value_ = true → a.multi_value_ = some vs →
        0 ≤ a.multi_value_count_ → a.multi_value_count_ ≤ 2147483647 →
        a.IsCorrect
          = .ok (decide (a.multi_value_count_ = 0 ∨ a.multi_value_count_ ≤ vs.length))) ∧
    (∀ (a : IntArgument) (vs : List Int),
        a.is_multi_value_ = true → a.multi_value_ = some vs →
        0 ≤ a.multi_value_count_ → a.multi_value_count_ ≤ 2147483647 →
        a.IsCorrect
          = .ok (decide (a.multi_value_count_ = 0 ∨ a.multi_value_count_ ≤ vs.length))) := by
  refine ⟨?_, ?_, ?_, ?_, ?_, ?_⟩
  · intro a index h1 h2 h3
    simp [StringArgument.IsCorrect, StringArgument.GetValue, h1, h2, h3]
  · intro a d index h1 h2 h3 h4
    simp [IntArgument.IsCorrect, IntArgument.GetValue, h1, h2, h3, h4]
  · intro a i x h1 h2 h3
    simp [StringArgument.GetValue, h1, h2, vector_at_get _ _ _ h3]
  · intro a i x h1 h2 h3
    simp [IntArgument.GetValue, h1, h2, vector_at_get _ _ _ h3]
  · intro a vs h1 h2 h3 h4
    simp only [StringArgument.IsCorrect, h1, h2, if_true, to_size_t_of_nonneg _ h3 h4]
    congr 1
    by_cases hc : a.multi_value_count_ = 0
    · simp [hc]
    · by_cases hl : (vs.length : Int) < a.multi_value_count_
      · simp [hc, hl]
      · simp [hc, hl]
        omega
  · intro a vs h1 h2 h3 h4
    simp only [IntArgument.IsCorrect, h1, h2, if_true, to_size_t_of_nonneg _ h3 h4]
    congr 1
    by_cases hc : a.multi_value_count_ = 0
    · simp [hc]
    · by_cases hl : (vs.length : Int) < a.multi_value_count_
      · simp [hc, hl]
      · simp [hc, hl]
        omega

/-- C7 (amended), at a single-value String argument with the default `a.out`
and at the entry 1 of the sequence default `a b`. -/
theorem default_of_unsupplied_witness :
    (StringArgument.new 'o' "out".toList []).Default "a.out".toList = .done outWithDefault ∧
      (outWithDefault.IsCorrect = .ok true ∧
        outWithDefault.GetValue 0 = .ok outWithDefault.default_value_) ∧
      pairWithDefault.GetValue (1 : Nat) = .ok "b".toList ∧
      boundPairWithDefault.IsCorrect
        = .ok (decide (boundPairWithDefault.multi_value_count_ = 0 ∨
            boundPairWithDefault.multi_value_count_ ≤ ([] : List Str).length)) :=
  ⟨by decide,
    default_of_unsupplied.1 outWithDefault 0 (by decide) (by decide) (by decide),
    default_of_unsupplied.2.2.1 pairWithDefault 1 "b".toList (by decide) (by decide)
      (by decide),
    default_of_unsupplied.2.2.2.2.1 boundPairWithDefault [] (by decide) (by decide)
      (by decide) (by decide)⟩

theorem drop_eq_getD_cons (args : List Str) (index : Nat) (h : index < args.length) :
    args.drop index = args.getD index [] :: args.drop (index + 1) := by
  rw [List.getD_eq_getElem?_getD, List.getElem?_eq_getElem h]
  simp

theorem StoreArgument_self (l : List (Str × BaseArgument)) (name : Str) (a : BaseArgument)
    (h : GetArgument l name = some a) : StoreArgument l name a = l := by
  induction l with
  | nil => rfl
  | cons x rest ih =>
    obtain ⟨n, b⟩ := x
    by_cases hn : n = name
    · simp [GetArgument, hn] at h
      simp [StoreArgument, hn, h]
    · simp [GetArgument, hn] at h
      simp [StoreArgument, hn, ih h]

theorem store_self (p : ArgParser) (name : Str) (a : BaseArgument)
    (h : GetArgument p.arguments_ name = some a) : p.store name a = p := by
  unfold ArgParser.store
  rw [StoreArgument_self _ _ _ h]

theorem takeValues_none (args : List Str) (index : Nat) (argument : BaseArgument)
    (hk : ∀ f, argument ≠ .flag f)
    (hnext : index + 1 < args.length → beginsWithHyphen (args.getD (index + 1) []) = true) :
    takeValues argument args index = .done (argument, index) := by
  have hc : argument.ValuesCount ≠ 0 := by
    cases argument with
    | flag f => exact absurd rfl (hk f)
    | string a =>
      simp only [BaseArgument.ValuesCount, StringArgument.ValuesCount]
      split
      · split
        · assumption
        · decide
      · decide
    | int a =>
      simp only [BaseArgument.ValuesCount, IntArgument.ValuesCount]
      split
      · split
        · assumption
        · decide
      · decide
  simp only [takeValues, hc, if_false]
  by_cases hi : index + 1 < args.length
  · rw [drop_eq_getD_cons args (index + 1) hi]
    simp only [consumeValues, hnext hi, Bool.not_true, Bool.false_and, Bool.false_eq_true,
      if_false]
  · rw [List.drop_eq_nil_of_le (by omega)]
    simp [consumeValues]

/-- C11, as stated, fails on the single-value String argument `out` with the
default `a.out`: `Parse` of `["app", "--out"]`, of `["app", "-o"]` and of
`["app", "--out", "v", "--out"]` returns true. -/
theorem Parse_occurrence_without_value_succeeds :
    (Parse outDefaultParser ["app".toList, "--out".toList] 1).outcome = .returned true ∧
      (Parse outDefaultParser ["app".toList, "-o".toList] 1).outcome = .returned true ∧
      (Parse outDefaultParser ["app".toList, "--out".toList, "v".toList, "--out".toList]
        1).outcome = .returned true ∧
      GetStringValue (Parse outDefaultParser
        ["app".toList, "--out".toList, "v".toList, "--out".toList] 1).parser "out".toList 0
        = .ok "v".toList := by
  decide

/-- C11 (amended): for every String or Int argument, an occurrence `--name` (or
its short form `-c`) that is followed by no value token, because it is the last
token or the next token begins with a hyphen, makes no `SetValue` call and does
not fail: the parser object is left as it is and `Parse` gives the result that
it gives from the next token on, so it returns true when nothing else fails and
the argument has a default or is set by another occurrence. -/
theorem Parse_occurrence_without_value (p : ArgParser) (args : List Str) (index : Nat)
    (name : Str) (argument : BaseArgument)
    (hi : index < args.length)
    (hg : GetArgument p.arguments_ name = some argument)
    (hk : ∀ f, argument ≠ .flag f)
    (hnext : index + 1 < args.length → beginsWithHyphen (args.getD (index + 1) []) = true)
    (htok : (args.getD index [] = '-' :: '-' :: name ∧ '=' ∉ name) ∨
      (∃ c, args.getD index [] = ['-', c] ∧ c ≠ '-' ∧ c ≠ '=' ∧
        p.short_names_.lookup c = some name)) :
    ParseToken p args index = .next p (index + 1) ∧
      Parse p args index = Parse p args (index + 1) := by
  have hstep : ParseToken p args index = .next p (index + 1) := by
    rcases htok with ⟨ht, hn⟩ | ⟨c, ht, hc1, hc2, hl⟩
    · rw [ParseToken_long p args index name ht, ParseLong_separate _ _ _ _ hn, hg]
      simp only [takeValues_none args index argument hk hnext, store_self p name argument hg]
    · rw [ParseToken_short p args index [c] ht (by intro nm h; simp at h; exact hc1 h.1)]
      unfold ParseShort
      have hf : find '=' [c] = none := by
        rw [find_eq_none_iff]
        simp
        exact fun h => hc2 h.symm
      rw [hf]
      simp only [ParseShortCluster, hl, hg, takeValues_none args index argument hk hnext,
        store_self p name argument hg]
  exact ⟨hstep, Parse_next p p args index (index + 1) hi hstep⟩

/-- C11 (amended), at `app --out` on the parser whose argument `out` has a default. -/
theorem Parse_occurrence_without_value_witness :
    ParseToken outDefaultParser ["app".toList, "--out".toList] 1
        = .next outDefaultParser (1 + 1) ∧
      Parse outDefaultParser ["app".toList, "--out".toList] 1
        = Parse outDefaultParser ["app".toList, "--out".toList] (1 + 1) :=
  Parse_occurrence_without_value outDefaultParser ["app".toList, "--out".toList] 1
    "out".toList (.string outWithDefault) (by decide) (by decide)
    (by intro f h; cases h) (by decide) (Or.inl (by decide))

/-- C12, as stated, fails on a scalar argument: the single-value String
argument holding `x` returns `x` at index 5, and a fresh single-value String
argument, neither set nor with a default, returns the empty string at index 0;
neither call raises an out-of-range error. -/
theorem GetValue_scalar_ignores_index :
    outSetToX.is_multi_value_ = false ∧ outSetToX.is_set_ = true ∧
      outSetToX.GetValue 5 = .ok "x".toList ∧
      (StringArgument.new 'o' "out".toList []).is_set_ = false ∧
      (StringArgument.new 'o' "out".toList []).is_default_ = false ∧
      (StringArgument.new 'o' "out".toList []).GetValue 0 = .ok [] := by
  decide

theorem vector_at_spec {α : Type} (v : List α) (index : Int) :
    ((index < 0 ∨ (v.length : Int) ≤ index) → vector_at v index = .error .out_of_range) ∧
      (∀ x, 0 ≤ index → v.get? index.toNat = some x → vector_at v index = .ok x) := by
  unfold vector_at
  constructor
  · intro h
    by_cases h0 : index < 0
    · simp [h0]
    · have hlen : v.length ≤ index.toNat := by omega
      have hnone : v[index.toNat]? = none := List.getElem?_eq_none_iff.2 hlen
      simp [h0, hnone]
  · intro x h0 hx
    have h1 : ¬ index < 0 := by omega
    have hx1 : v[index.toNat]? = some x := by simpa using hx
    simp [h1, hx1]

/-- C12 (amended): for a multi-value String or Int argument, `GetValue(index)`
reads the set sequence when the argument has been set and the default sequence
otherwise, returns the entry at `index`, and fails with an out-of-range error
when `index` is negative or not below the length of that sequence. For a scalar
argument `GetValue` does not read `index`: it returns the set value when the
argument has been set, and otherwise the default (for a String argument with no
default, the empty string), at every index. -/
theorem GetValue_spec :
    (∀ (v : List Str) (index : Int),
        ((index < 0 ∨ (v.length : Int) ≤ index) → vector_at v index = .error .out_of_range) ∧
        (∀ x, 0 ≤ index → v.get? index.toNat = some x → vector_at v index = .ok x)) ∧
    (∀ (v : List Int) (index : Int),
        ((index < 0 ∨ (v.length : Int) ≤ index) → vector_at v index = .error .out_of_range) ∧
        (∀ x, 0 ≤ index → v.get? index.toNat = some x → vector_at v index = .ok x)) ∧
    (∀ (a : StringArgument) (index : Int), a.is_multi_value_ = true →
        (∀ vs, a.is_set_ = true → a.multi_value_ = some vs →
          a.GetValue index = vector_at vs index) ∧
        (a.is_set_ = false → a.GetValue index = vector_at a.default_multi_value_ index)) ∧
    (∀ (a : IntArgument) (index : Int), a.is_multi_value_ = true →
        (∀ vs, a.is_set_ = true → a.multi_value_ = some vs →
          a.GetValue index = vector_at vs index) ∧
        (a.is_set_ = false → a.GetValue index = vector_at a.default_multi_value_ index)) ∧
    (∀ (a : StringArgument) (index : Int), a.is_multi_value_ = false →
        (∀ v, a.is_set_ = true → a.value_ = some v → a.GetValue index = .ok v) ∧
        (a.is_set_ = false → a.GetValue index = .ok a.default_value_)) ∧
    (∀ (a : IntArgument) (index : Int), a.is_multi_value_ = false →
        (∀ v, a.is_set_ = true → a.value_ = some v → a.GetValue index = .ok v) ∧
        (∀ d, a.is_set_ = false → a.default_value_ = some d → a.GetValue index = .ok d)) := by
  refine ⟨fun v index => vector_at_spec v index, fun v index => vector_at_spec v index,
    ?_, ?_, ?_, ?_⟩
  · intro a index hm
    exact ⟨fun vs hs hv => by simp [StringArgument.GetValue, hm, hs, hv],
      fun hs => by simp [StringArgument.GetValue, hm, hs]⟩
  · intro a index hm
    exact ⟨fun vs hs hv => by simp [IntArgument.GetValue, hm, hs, hv],
      fun hs => by simp [IntArgument.GetValue, hm, hs]⟩
  · intro a index hm
    exact ⟨fun v hs hv => by simp [StringArgument.GetValue, hm, hs, hv],
      fun hs => by simp [StringArgument.GetValue, hm, hs]⟩
  · intro a index hm
    exact ⟨fun v hs hv => by simp [IntArgument.GetValue, hm, hs, hv],
      fun d hs hd => by simp [IntArgument.GetValue, hm, hs, hd]⟩

/-- C12 (amended), at the sequence default `a b` read at index 2 (out of range)
and 1, and at the scalar argument holding `x` read at index 5. -/
theorem GetValue_spec_witness :
    pairWithDefault.GetValue 2 = .error .out_of_range ∧
      pairWithDefault.GetValue 1 = .ok "b".toList ∧
      outSetToX.GetValue 5 = .ok "x".toList :=
  ⟨((GetValue_spec.2.2.1 pairWithDefault 2 (by decide)).2 (by decide)).trans
      ((GetValue_spec.1 pairWithDefault.default_multi_value_ 2).1 (by decide)),
    ((GetValue_spec.2.2.1 pairWithDefault 1 (by decide)).2 (by decide)).trans
      ((GetValue_spec.1 pairWithDefault.default_multi_value_ 1).2 "b".toList (by decide)
        (by decide)),
    (GetValue_spec.2.2.2.2.1 outSetToX 5 (by decide)).1 "x".toList (by decide) (by decide)⟩

/-- C13: for every parser state, every name and every index, `GetStringValue`
returns the empty string, `GetIntValue` returns 0 and `GetFlag` returns false
when `GetArgument` finds no argument under the name or finds one of another
kind. -/
theorem typed_getters_sentinel (p : ArgParser) (name : Str) (index : Int) :
    (GetArgument p.arguments_ name = none →
        GetStringValue p name index = .ok [] ∧ GetIntValue p name index = .ok 0 ∧
          GetFlag p name index = false) ∧
      (∀ a, GetArgument p.arguments_ name = some (.string a) →
        GetIntValue p name index = .ok 0 ∧ GetFlag p name index = false) ∧
      (∀ a, GetArgument p.arguments_ name = some (.int a) →
        GetStringValue p name index = .ok [] ∧ GetFlag p name index = false) ∧
      (∀ a, GetArgument p.arguments_ name = some (.flag a) →
        GetStringValue p name index = .ok [] ∧ GetIntValue p name index = .ok 0) := by
  refine ⟨?_, ?_, ?_, ?_⟩
  · intro h
    simp [GetStringValue, GetIntValue, GetFlag, h]
  · intro a h
    simp [GetIntValue, GetFlag, h]
  · intro a h
    simp [GetStringValue, GetFlag, h]
  · intro a h
    simp [GetStringValue, GetIntValue, h]

/-- C13, at `GetIntValue` on the String argument `input` that holds `42`, and
at a name that is not registered. -/
theorem typed_getters_sentinel_witness :
    GetStringValue holdsFortyTwoParser "input".toList 0 = .ok "42".toList ∧
      (GetIntValue holdsFortyTwoParser "input".toList 0 = .ok 0 ∧
        GetFlag holdsFortyTwoParser "input".toList 0 = false) ∧
      (GetStringValue holdsFortyTwoParser "output".toList 3 = .ok [] ∧
        GetIntValue holdsFortyTwoParser "output".toList 3 = .ok 0 ∧
        GetFlag holdsFortyTwoParser "output".toList 3 = false) :=
  ⟨by decide,
    (typed_getters_sentinel holdsFortyTwoParser "input".toList 0).2.1
      ((StringArgument.new 'i' "input".toList []).SetValue "42".toList) (by decide),
    (typed_getters_sentinel holdsFortyTwoParser "output".toList 3).1 (by decide)⟩

/-- C14: for every String or Int argument, `Default(scalar)` and
`StoreValue(location)` raise when the argument is multi-value, and
`Default(sequence)` and `StoreValues(sequence location)` raise when the argument
is not multi-value; the call that raises leaves the argument as it was. -/
theorem builder_shape_mismatch_raises :
    (∀ (a : StringArgument) (value : Str) (values : List Str),
        (a.is_multi_value_ = true →
          a.Default value = .raised .runtime_error a ∧
            a.StoreValue value = .raised .runtime_error a) ∧
        (a.is_multi_value_ = false →
          a.DefaultValues values = .raised .runtime_error a ∧
            a.StoreValues values = .raised .runtime_error a)) ∧
    (∀ (a : IntArgument) (value : Int) (values : List Int),
        (a.is_multi_value_ = true →
          a.Default value = .raised .runtime_error a ∧
            a.StoreValue value = .raised .runtime_error a) ∧
        (a.is_multi_value_ = false →
          a.DefaultValues values = .raised .runtime_error a ∧
            a.StoreValues values = .raised .runtime_error a)) := by
  refine ⟨?_, ?_⟩
  · intro a value values
    exact ⟨fun h => by simp [StringArgument.Default, StringArgument.StoreValue, h],
      fun h => by simp [StringArgument.DefaultValues, StringArgument.StoreValues, h]⟩
  · intro a value values
    exact ⟨fun h => by simp [IntArgument.Default, IntArgument.StoreValue, h],
      fun h => by simp [IntArgument.DefaultValues, IntArgument.StoreValues, h]⟩

/-- C14, at the multi-value argument with the sequence default `a b` and at a
fresh single-value Int argument. -/
theorem builder_shape_mismatch_raises_witness :
    (pairWithDefault.Default "x".toList = .raised .runtime_error pairWithDefault ∧
        pairWithDefault.StoreValue "x".toList = .raised .runtime_error pairWithDefault) ∧
      ((IntArgument.new 'n' "n".toList []).DefaultValues [1, 2]
          = .raised .runtime_error (IntArgument.new 'n' "n".toList []) ∧
        (IntArgument.new 'n' "n".toList []).StoreValues [1, 2]
          = .raised .runtime_error (IntArgument.new 'n' "n".toList [])) :=
  ⟨(builder_shape_mismatch_raises.1 pairWithDefault "x".toList []).1 (by decide),
    (builder_shape_mismatch_raises.2 (IntArgument.new 'n' "n".toList []) 0 [1, 2]).2
      (by decide)⟩

/-! ## Lemmas: the positional buffer -/

theorem ParseToken_buffer_bare (p : ArgParser) (args : List Str) (index : Nat)
    (hi : index < args.length) (h : beginsWithHyphen (args.getD index []) = false) :
    ∃ more index1, ParseToken p args index
      = .next { p with positional_arguments_ :=
          p.positional_arguments_ ++ (index, args.getD index []) :: more } index1 ∧
        ∀ y ∈ more, y.1 = index := by
  rw [ParseToken_bare p args index h]
  unfold ParsePositional
  simp only
  rw [drop_eq_getD_cons args index hi, List.takeWhile_cons, h]
  simp only [Bool.not_false, if_true, List.map_cons]
  refine ⟨_, _, rfl, ?_⟩
  intro y hy
  simp only [List.mem_map] at hy
  obtain ⟨t, _, rfl⟩ := hy
  rfl

theorem ParseTokens_next (fuel : Nat) (p p1 : ArgParser) (args : List Str) (index index1 : Nat)
    (hi : index < args.length) (hs : ParseToken p args index = .next p1 index1) :
    ParseTokens (fuel + 1) p args index = ParseTokens fuel p1 args index1 := by
  rw [ParseTokens]
  simp only [Nat.not_le.2 hi, if_false, hs]

/-! ## Lemmas: what a step reads of the tokens -/

theorem consumeValues_frame (xs rest1 rest2 : List Str) (a : BaseArgument) (index : Nat)
    (count : Int)
    (h1 : ∀ t, rest1.head? = some t → beginsWithHyphen t = true)
    (h2 : ∀ t, rest2.head? = some t → beginsWithHyphen t = true) :
    consumeValues a index count (xs ++ rest1) = consumeValues a index count (xs ++ rest2) := by
  induction xs generalizing a index count with
  | nil =>
    have key : ∀ rest : List Str, (∀ t, rest.head? = some t → beginsWithHyphen t = true) →
        consumeValues a index count rest = .done (a, index) := by
      intro rest hr
      cases rest with
      | nil => rfl
      | cons t more => simp [consumeValues, hr t rfl]
    simp only [List.nil_append]
    rw [key rest1 h1, key rest2 h2]
  | cons x xs ih =>
    simp only [List.cons_append, consumeValues]
    split
    · cases a.SetValue x with
      | done b => exact ih b _ _
      | raised e b => rfl
    · rfl

theorem takeWhile_frame (xs rest1 rest2 : List Str)
    (h1 : ∀ t, rest1.head? = some t → beginsWithHyphen t = true)
    (h2 : ∀ t, rest2.head? = some t → beginsWithHyphen t = true) :
    (xs ++ rest1).takeWhile (fun token => !beginsWithHyphen token)
      = (xs ++ rest2).takeWhile (fun token => !beginsWithHyphen token) := by
  induction xs with
  | nil =>
    have key : ∀ rest : List Str, (∀ t, rest.head? = some t → beginsWithHyphen t = true) →
        rest.takeWhile (fun token => !beginsWithHyphen token) = [] := by
      intro rest hr
      cases rest with
      | nil => rfl
      | cons t more => simp [List.takeWhile, hr t rfl]
    simp only [List.nil_append]
    rw [key rest1 h1, key rest2 h2]
  | cons x xs ih =>
    simp only [List.cons_append, List.takeWhile_cons, ih]

theorem drop_append_lt (front rest : List Str) (n : Nat) (h : n ≤ front.length) :
    (front ++ rest).drop n = front.drop n ++ rest := by
  rw [List.drop_append_of_le_length h]

theorem getD_append_lt (front rest : List Str) (n : Nat) (h : n < front.length) :
    (front ++ rest).getD n [] = front.getD n [] := by
  simp [List.getD_eq_getElem?_getD, List.getElem?_append_left h]

theorem takeValues_frame (front rest1 rest2 : List Str) (a : BaseArgument) (index : Nat)
    (hi : index < front.length)
    (h1 : ∀ t, rest1.head? = some t → beginsWithHyphen t = true)
    (h2 : ∀ t, rest2.head? = some t → beginsWithHyphen t = true) :
    takeValues a (front ++ rest1) index = takeValues a (front ++ rest2) index := by
  unfold takeValues
  simp only [drop_append_lt front _ (index + 1) hi,
    consumeValues_frame (front.drop (index + 1)) rest1 rest2 _ index _ h1 h2]

theorem takeValues_below (front rest : List Str) (a a1 : BaseArgument) (index index1 : Nat)
    (hi : index < front.length)
    (hr : ∀ t, rest.head? = some t → beginsWithHyphen t = true)
    (h : takeValues a (front ++ rest) index = .done (a1, index1)) :
    index1 < front.length := by
  obtain ⟨_, _, hle, hbare⟩ := (takeValues_spec (front ++ rest) a index).1 a1 index1 h
  by_contra hc
  cases rest with
  | nil =>
    simp at hle
    omega
  | cons t more =>
    have := hbare front.length hi (by omega)
    rw [getD_front, hr t rfl] at this
    cases this

theorem ParseLong_frame (front rest1 rest2 : List Str) (p : ArgParser) (index : Nat)
    (name : Str) (hi : index < front.length)
    (h1 : ∀ t, rest1.head? = some t → beginsWithHyphen t = true)
    (h2 : ∀ t, rest2.head? = some t → beginsWithHyphen t = true) :
    ParseLong p (front ++ rest1) index name = ParseLong p (front ++ rest2) index name := by
  unfold ParseLong
  simp only [takeValues_frame front rest1 rest2 _ index hi h1 h2]

theorem ParseShortCluster_frame (front rest1 rest2 : List Str) (names : List Char)
    (p : ArgParser) (index : Nat) (hi : index < front.length)
    (h1 : ∀ t, rest1.head? = some t → beginsWithHyphen t = true)
    (h2 : ∀ t, rest2.head? = some t → beginsWithHyphen t = true) :
    ParseShortCluster (front ++ rest1) names p index
      = ParseShortCluster (front ++ rest2) names p index := by
  induction names generalizing p index with
  | nil => rfl
  | cons sname names ih =>
    simp only [ParseShortCluster]
    split
    · rfl
    · split
      · rfl
      · rename_i argument _
        rw [takeValues_frame front rest1 rest2 argument index hi h1 h2]
        cases hs : takeValues argument (front ++ rest2) index with
        | raised e r => rfl
        | done r =>
          obtain ⟨a, i2⟩ := r
          simp only
          exact ih _ _ (takeValues_below front rest2 argument a index i2 hi h2 hs)

theorem ParseToken_frame (front rest1 rest2 : List Str) (p : ArgParser) (index : Nat)
    (hi : index < front.length)
    (h1 : ∀ t, rest1.head? = some t → beginsWithHyphen t = true)
    (h2 : ∀ t, rest2.head? = some t → beginsWithHyphen t = true) :
    ParseToken p (front ++ rest1) index = ParseToken p (front ++ rest2) index := by
  unfold ParseToken
  rw [getD_append_lt front rest1 index hi, getD_append_lt front rest2 index hi]
  split
  · exact ParseLong_frame front rest1 rest2 p index _ hi h1 h2
  · unfold ParseShort
    split
    · rfl
    · exact ParseShortCluster_frame front rest1 rest2 _ p index hi h1 h2
  · unfold ParsePositional
    simp only [drop_append_lt front _ index (le_of_lt hi),
      takeWhile_frame (front.drop index) rest1 rest2 h1 h2]

theorem ParseToken_next_below (front rest : List Str) (p p1 : ArgParser) (index index1 : Nat)
    (hi : index < front.length)
    (hr : ∀ t, rest.head? = some t → beginsWithHyphen t = true)
    (hs : ParseToken p (front ++ rest) index = .next p1 index1) :
    index1 ≤ front.length := by
  have hok := ParseToken_ok p (front ++ rest) index (by simp; omega)
  rw [hs] at hok
  obtain ⟨_, _, hle, hbare⟩ := hok
  by_contra hc
  cases rest with
  | nil =>
    simp at hle
    omega
  | cons t more =>
    have := hbare front.length hi (by omega)
    rw [getD_front, hr t rfl] at this
    cases this

theorem ParseLong_unknown (p : ArgParser) (args : List Str) (index : Nat) (name : Str)
    (h : GetArgument p.arguments_ (beforeEq name) = none) :
    ParseLong p args index name = unknownArgument p (beforeEq name) := by
  unfold ParseLong
  unfold beforeEq at h ⊢
  split
  · rename_i k hk
    simp only [hk] at h
    simp only
    rw [h]
  · rename_i hk
    simp only [hk] at h
    rw [h]

theorem hyphen_head (name : Str) (s : List Str) :
    ∀ t, (('-' :: '-' :: name) :: s).head? = some t → beginsWithHyphen t = true := by
  intro t h
  simp at h
  subst h
  rfl

theorem Parse_at_unknown (p : ArgParser) (front s : List Str) (name : Str)
    (h : GetArgument p.arguments_ (beforeEq name) = none) :
    Parse p (front ++ ('-' :: '-' :: name) :: s) front.length
      = { parser := p, cerr := some (.unknown_argument (beforeEq name)),
          outcome := .returned false } := by
  apply Parse_stop p _ _ front.length (by simp)
  rw [ParseToken_long p _ front.length name (getD_front _ _ _), ParseLong_unknown _ _ _ _ h]
  rfl

theorem Parse_frame_suffix (front : List Str) (name : Str) (s1 s2 : List Str) (n : Nat) :
    ∀ (p : ArgParser) (index : Nat), front.length - index = n → index ≤ front.length →
      GetArgument p.arguments_ (beforeEq name) = none →
      Parse p (front ++ ('-' :: '-' :: name) :: s1) index
        = Parse p (front ++ ('-' :: '-' :: name) :: s2) index := by
  induction n using Nat.strong_induction_on with
  | _ n ih =>
    intro p index hn hle hg
    by_cases hi : index = front.length
    · subst hi
      rw [Parse_at_unknown p front s1 name hg, Parse_at_unknown p front s2 name hg]
    · have hlt : index < front.length := by omega
      have hf := ParseToken_frame front (('-' :: '-' :: name) :: s1)
        (('-' :: '-' :: name) :: s2) p index hlt (hyphen_head name s1) (hyphen_head name s2)
      cases hs : ParseToken p (front ++ ('-' :: '-' :: name) :: s2) index with
      | stop r =>
        rw [Parse_stop p r _ index (by simp; omega) hs,
          Parse_stop p r _ index (by simp; omega) (hf.trans hs)]
      | next p1 i1 =>
        have hok := ParseToken_ok p (front ++ ('-' :: '-' :: name) :: s2) index
          (by simp; omega)
        rw [hs] at hok
        have hb := ParseToken_next_below front _ p p1 index i1 hlt (hyphen_head name s2) hs
        rw [Parse_next p p1 _ index i1 (by simp; omega) hs,
          Parse_next p p1 _ index i1 (by simp; omega) (hf.trans hs)]
        refine ih (front.length - i1) (by have := hok.2.1; omega) p1 i1 rfl hb ?_
        have := GetArgument_isNone_evolves hok.1 (beforeEq name)
        rw [hg] at this
        simpa using this

theorem Parse_after_front (front : List Str) (name : Str) (s : List Str) (fuel : Nat) :
    ∀ (p p1 : ArgParser) (index : Nat), index ≤ front.length →
      GetArgument p.arguments_ (beforeEq name) = none →
      ParseTokens fuel p front index = some p1 →
      Parse p (front ++ ('-' :: '-' :: name) :: s) index
        = { parser := p1, cerr := some (.unknown_argument (beforeEq name)),
            outcome := .returned false } := by
  induction fuel with
  | zero =>
    intro p p1 index _ _ h
    simp [ParseTokens] at h
  | succ fuel ih =>
    intro p p1 index hle hg h
    by_cases hi : index = front.length
    · subst hi
      simp [ParseTokens] at h
      subst h
      exact Parse_at_unknown p front s name hg
    · have hlt : index < front.length := by omega
      have hf := ParseToken_frame front [] (('-' :: '-' :: name) :: s) p index hlt
        (by intro t ht; cases ht) (hyphen_head name s)
      rw [List.append_nil] at hf
      cases hs : ParseToken p front index with
      | stop r =>
        rw [ParseTokens] at h
        simp [Nat.not_le.2 hlt, hs] at h
      | next p2 i2 =>
        rw [ParseTokens_next _ _ _ _ _ _ hlt hs] at h
        have hok := ParseToken_ok p front index hlt
        rw [hs] at hok
        rw [Parse_next p p2 _ index i2 (by simp; omega) (hf.symm.trans hs)]
        refine ih p2 p1 i2 hok.2.2.1 ?_ h
        have := GetArgument_isNone_evolves hok.1 (beforeEq name)
        rw [hg] at this
        simpa using this

/-- C16, as stated, fails when a token of the prefix hands an Int argument a
value that `std::stoi` rejects: after the prefix `app --number=abc`, `Parse`
raises with either suffix instead of returning false. -/
theorem Parse_unknown_after_raising_front :
    GetArgument intParser.arguments_ "bogus".toList = none ∧
      (Parse intParser
        (["app".toList, "--number=abc".toList] ++ "--bogus".toList :: []) 1).outcome
        = .raised .invalid_argument ∧
      (Parse intParser
        (["app".toList, "--number=abc".toList] ++ "--bogus".toList :: ["--number=1".toList])
        1).outcome = .raised .invalid_argument := by
  decide

/-- C16 (amended): for every parser, every token prefix, every start index
within the prefix, every unregistered long name and every two suffixes, `Parse`
of `front ++ ["--bogus"] ++ s1` and of `front ++ ["--bogus"] ++ s2` give the same
result and leave the same parser object, and neither succeeds; when the prefix
alone is processed without failure, both return false and leave the state
reached by processing the prefix alone (otherwise an earlier unknown option
returns false, or an exception of `std::stoi` raised in the prefix leaves
`Parse`). -/
theorem Parse_nothing_after_unknown (p : ArgParser) (front s1 s2 : List Str) (name : Str)
    (index : Nat) (hle : index ≤ front.length)
    (hg : GetArgument p.arguments_ (beforeEq name) = none) :
    Parse p (front ++ ('-' :: '-' :: name) :: s1) index
        = Parse p (front ++ ('-' :: '-' :: name) :: s2) index ∧
      ((Parse p (front ++ ('-' :: '-' :: name) :: s1) index).outcome = .returned false ∨
        ∃ e, (Parse p (front ++ ('-' :: '-' :: name) :: s1) index).outcome = .raised e ∧
          (e = .invalid_argument ∨ e = .out_of_range)) ∧
      (∀ p1, ParseTokens (front.length - index + 1) p front index = some p1 →
        Parse p (front ++ ('-' :: '-' :: name) :: s1) index
          = { parser := p1, cerr := some (.unknown_argument (beforeEq name)),
              outcome := .returned false }) := by
  refine ⟨Parse_frame_suffix front name s1 s2 _ p index rfl hle hg, ?_,
    fun p1 h => Parse_after_front front name s1 _ p p1 index hle hg h⟩
  refine ParseFuel_unknown _ p _ index (le_refl _) ⟨front.length, hle, by simp, ?_⟩
  rw [getD_front]
  simp only [unknownToken, hg, Option.isNone_none]

/-- C16 (amended), after the prefix `app --input a.txt -s` on the parser of the example. -/
theorem Parse_nothing_after_unknown_witness :
    Parse exampleParser
        (["app".toList, "--input".toList, "a.txt".toList, "-s".toList]
          ++ ('-' :: '-' :: "bogus".toList) :: ["--number".toList, "42".toList]) 1
        = Parse exampleParser
        (["app".toList, "--input".toList, "a.txt".toList, "-s".toList]
          ++ ('-' :: '-' :: "bogus".toList) :: ["-p".toList]) 1 ∧
      ((Parse exampleParser
        (["app".toList, "--input".toList, "a.txt".toList, "-s".toList]
          ++ ('-' :: '-' :: "bogus".toList) :: ["--number".toList, "42".toList]) 1).outcome
          = .returned false ∨
        ∃ e, (Parse exampleParser
          (["app".toList, "--input".toList, "a.txt".toList, "-s".toList]
            ++ ('-' :: '-' :: "bogus".toList) :: ["--number".toList, "42".toList])
          1).outcome = .raised e ∧ (e = .invalid_argument ∨ e = .out_of_range)) ∧
      (∀ p1, ParseTokens
          ((["app".toList, "--input".toList, "a.txt".toList, "-s".toList]).length - 1 + 1)
          exampleParser ["app".toList, "--input".toList, "a.txt".toList, "-s".toList] 1
          = some p1 →
        Parse exampleParser
          (["app".toList, "--input".toList, "a.txt".toList, "-s".toList]
            ++ ('-' :: '-' :: "bogus".toList) :: ["--number".toList, "42".toList]) 1
          = { parser := p1, cerr := some (.unknown_argument (beforeEq "bogus".toList)),
              outcome := .returned false }) :=
  Parse_nothing_after_unknown exampleParser
    ["app".toList, "--input".toList, "a.txt".toList, "-s".toList]
    ["--number".toList, "42".toList] ["-p".toList] "bogus".toList 1 (by decide) (by decide)

/-- C17 fails on the code: the exits of `Parse` before reconciliation leave the
buffer as it is. `Parse` of `["app", "x", "--bogus"]` returns false with the
entry for `x` still buffered, and a second `Parse` of `["app", "y"]` on the same
parser hands the stale `x` to the positional argument before `y`; the help
short-circuit on `["app", "stray", "--help"]` returns true with `stray` still
buffered. -/
theorem Parse_leaves_buffer :
    (Parse filesParser ["app".toList, "x".toList, "--bogus".toList] 1).outcome
        = .returned false ∧
      (Parse filesParser
        ["app".toList, "x".toList, "--bogus".toList] 1).parser.positional_arguments_
        = [(1, "x".toList)] ∧
      (Parse (Parse filesParser ["app".toList, "x".toList, "--bogus".toList] 1).parser
        ["app".toList, "y".toList] 1).outcome = .returned true ∧
      GetStringValue
        (Parse (Parse filesParser ["app".toList, "x".toList, "--bogus".toList] 1).parser
          ["app".toList, "y".toList] 1).parser "files".toList 0 = .ok "x".toList ∧
      GetStringValue
        (Parse (Parse filesParser ["app".toList, "x".toList, "--bogus".toList] 1).parser
          ["app".toList, "y".toList] 1).parser "files".toList 1 = .ok "y".toList ∧
      (Parse helpExampleParser ["app".toList, "stray".toList, "--help".toList] 1).outcome
        = .returned true ∧
      (Parse helpExampleParser
        ["app".toList, "stray".toList, "--help".toList] 1).parser.positional_arguments_
        = [(1, "stray".toList)] := by
  decide

/-! ## Lemmas: chains of modifier calls -/

theorem runCalls_append {σ γ : Type} (call : σ → γ → Result σ) (xs ys : List γ) (a b : σ)
    (h : runCalls call a (xs ++ ys) = .done b) :
    ∃ c, runCalls call a xs = .done c ∧ runCalls call c ys = .done b := by
  induction xs generalizing a with
  | nil => exact ⟨a, rfl, h⟩
  | cons x xs ih =>
    simp only [List.cons_append, runCalls] at h ⊢
    cases hc : call a x with
    | raised e c => simp [hc] at h
    | done c =>
      simp only [hc] at h ⊢
      exact ih c h

theorem string_call_shape (a b : StringArgument) (c : BuilderCall Str)
    (h : a.call c = .done b) :
    b.is_multi_value_ = (a.is_multi_value_ || c.isMultiValue) ∧
      (c.isScalar = true → a.is_multi_value_ = false) ∧
      (c.isSequence = true → a.is_multi_value_ = true) := by
  cases c <;>
    simp only [StringArgument.call, StringArgument.Positional, StringArgument.Default,
      StringArgument.DefaultValues, StringArgument.MultiValue, StringArgument.StoreValue,
      StringArgument.StoreValues] at h <;>
    (try split at h) <;> simp at h <;> subst h <;>
    simp_all [BuilderCall.isMultiValue, BuilderCall.isScalar, BuilderCall.isSequence]

theorem int_call_shape (a b : IntArgument) (c : BuilderCall Int)
    (h : a.call c = .done b) :
    b.is_multi_value_ = (a.is_multi_value_ || c.isMultiValue) ∧
      (c.isScalar = true → a.is_multi_value_ = false) ∧
      (c.isSequence = true → a.is_multi_value_ = true) := by
  cases c <;>
    simp only [IntArgument.call, IntArgument.Positional, IntArgument.Default,
      IntArgument.DefaultValues, IntArgument.MultiValue, IntArgument.StoreValue,
      IntArgument.StoreValues] at h <;>
    (try split at h) <;> simp at h <;> subst h <;>
    simp_all [BuilderCall.isMultiValue, BuilderCall.isScalar, BuilderCall.isSequence]

theorem runCalls_multi {σ α : Type} (call : σ → BuilderCall α → Result σ) (multi : σ → Bool)
    (hcall : ∀ a b c, call a c = .done b → multi b = (multi a || c.isMultiValue))
    (ys : List (BuilderCall α)) (a b : σ) (h : runCalls call a ys = .done b) :
    multi b = (multi a || ys.any BuilderCall.isMultiValue) := by
  induction ys generalizing a with
  | nil =>
    simp [runCalls] at h
    subst h
    simp
  | cons y ys ih =>
    simp only [runCalls] at h
    cases hc : call a y with
    | raised e c => simp [hc] at h
    | done c =>
      simp only [hc] at h
      rw [ih c h, hcall a c y hc]
      simp [Bool.or_assoc]

theorem runCalls_shape {σ α : Type} (call : σ → BuilderCall α → Result σ) (multi : σ → Bool)
    (hcall : ∀ a b c, call a c = .done b →
      multi b = (multi a || c.isMultiValue) ∧ (c.isScalar = true → multi a = false) ∧
        (c.isSequence = true → multi a = true))
    (a0 a : σ) (xs ys : List (BuilderCall α)) (c : BuilderCall α)
    (h : runCalls call a0 (xs ++ c :: ys) = .done a) :
    (c.isSequence = true → multi a = true) ∧
      (c.isScalar = true → (multi a = true ↔ ∃ y ∈ ys, y.isMultiValue = true)) := by
  obtain ⟨b, _, hb⟩ := runCalls_append call xs (c :: ys) a0 a h
  simp only [runCalls] at hb
  cases hc : call b c with
  | raised e b1 => simp [hc] at hb
  | done b1 =>
    simp only [hc] at hb
    obtain ⟨h1, h2, h3⟩ := hcall b b1 c hc
    have hm := runCalls_multi call multi (fun a b c h => (hcall a b c h).1) ys b1 a hb
    constructor
    · intro hs
      rw [hm, h1, h3 hs]
      rfl
    · intro hs
      have hc0 : c.isMultiValue = false := by
        cases c <;> simp_all [BuilderCall.isScalar, BuilderCall.isMultiValue]
      rw [hm, h1, h2 hs, hc0]
      simp

/-- C18, as stated, fails because `MultiValue` checks nothing: on a fresh
String argument the calls `Default("x")`, `MultiValue()` and the calls
`StoreValue(location)`, `MultiValue()` do not raise and leave a multi-value
argument that holds a scalar default, respectively a scalar bound location. -/
theorem MultiValue_after_scalar_default :
    (runCalls StringArgument.call (StringArgument.new 'o' "out".toList [])
        [.Default "x".toList, .MultiValue 0]).state.is_multi_value_ = true ∧
      (runCalls StringArgument.call (StringArgument.new 'o' "out".toList [])
        [.Default "x".toList, .MultiValue 0])
        = .done { StringArgument.new 'o' "out".toList [] with
            default_value_ := "x".toList, is_default_ := true, is_multi_value_ := true } ∧
      (runCalls StringArgument.call (StringArgument.new 'o' "out".toList [])
        [.StoreValue "x".toList, .MultiValue 0])
        = .done { StringArgument.new 'o' "out".toList [] with
            value_ := some "x".toList, is_stored_ := true, is_multi_value_ := true } := by
  decide

/-- C18 (amended): for every String or Int argument and every chain of modifier
calls (`Positional`, `Default`, `MultiValue`, `StoreValue`, `StoreValues`, in
any order) none of which raises: after a sequence-shaped `Default` or
`StoreValues` call the argument is multi-value at the end of the chain, and
after a scalar `Default` or `StoreValue` call it is multi-value at the end
exactly when a `MultiValue` call follows that call in the chain (`MultiValue`
never raises). -/
theorem builder_shape_after_calls :
    (∀ (a0 a : StringArgument) (xs ys : List (BuilderCall Str)) (c : BuilderCall Str),
      runCalls StringArgument.call a0 (xs ++ c :: ys) = .done a →
      (c.isSequence = true → a.is_multi_value_ = true) ∧
        (c.isScalar = true →
          (a.is_multi_value_ = true ↔ ∃ y ∈ ys, y.isMultiValue = true))) ∧
    (∀ (a0 a : IntArgument) (xs ys : List (BuilderCall Int)) (c : BuilderCall Int),
      runCalls IntArgument.call a0 (xs ++ c :: ys) = .done a →
      (c.isSequence = true → a.is_multi_value_ = true) ∧
        (c.isScalar = true →
          (a.is_multi_value_ = true ↔ ∃ y ∈ ys, y.isMultiValue = true))) :=
  ⟨fun a0 a xs ys c h =>
      runCalls_shape StringArgument.call (fun a => a.is_multi_value_)
        string_call_shape a0 a xs ys c h,
    fun a0 a xs ys c h =>
      runCalls_shape IntArgument.call (fun a => a.is_multi_value_)
        int_call_shape a0 a xs ys c h⟩

/-- C18 (amended), on the chain `MultiValue(2)`, `Default({"a", "b"})`,
`Positional()` on a fresh String argument. -/
theorem builder_shape_after_calls_witness :
    StringArgument.is_multi_value_
      (runCalls StringArgument.call (StringArgument.new 'x' "x".toList [])
        ([.MultiValue 2] ++ .DefaultValues ["a".toList, "b".toList] :: [.Positional])).state
      = true :=
  (builder_shape_after_calls.1 (StringArgument.new 'x' "x".toList [])
    (runCalls StringArgument.call (StringArgument.new 'x' "x".toList [])
      ([.MultiValue 2] ++ .DefaultValues ["a".toList, "b".toList] :: [.Positional])).state
    [.MultiValue 2] [.Positional] (.DefaultValues ["a".toList, "b".toList])
    (by decide)).1 (by decide)

theorem assignRun_all (current : Nat) (run : List Str) (a a1 : BaseArgument)
    (h : SetValues a run = .done a1) :
    assignRun current a (run.map (fun t => (current, t))) = .done (a1, []) := by
  induction run generalizing a with
  | nil =>
    simp [SetValues] at h
    subst h
    rfl
  | cons t run ih =>
    simp only [SetValues] at h
    simp only [List.map_cons, assignRun, if_true]
    cases hs : a.SetValue t with
    | raised e b => simp [hs] at h
    | done b =>
      simp only [hs] at h ⊢
      exact ih b h

theorem assignPositional_nil (current : Nat) (l : List (Str × BaseArgument)) :
    assignPositional current l [] = .done (l, []) := by
  induction l with
  | nil => rfl
  | cons x rest ih =>
    obtain ⟨name, argument⟩ := x
    simp only [assignPositional, assignRun, ih]
    split <;> rfl

theorem assignPositional_first (current : Nat) (front rest : List (Str × BaseArgument))
    (name : Str) (a a1 : BaseArgument) (run : List Str)
    (hfront : ∀ x ∈ front, x.2.IsPositional = false)
    (ha : a.IsPositional = true)
    (hset : SetValues a run = .done a1) :
    assignPositional current (front ++ (name, a) :: rest) (run.map (fun t => (current, t)))
      = .done (front ++ (name, a1) :: rest, []) := by
  induction front with
  | nil =>
    simp only [List.nil_append, assignPositional, ha, if_true,
      assignRun_all current run a a1 hset, assignPositional_nil]
  | cons x front ih =>
    obtain ⟨n, b⟩ := x
    have hb : b.IsPositional = false := hfront (n, b) (by simp)
    have := ih (fun x hx => hfront x (by simp [hx]))
    simp only [List.cons_append, assignPositional, hb, Bool.false_eq_true, if_false]
    rw [show front.append ((name, a) :: rest) = front ++ (name, a) :: rest from rfl, this]

/-- C19, as stated, fails when an option takes a bare token of the run: with
the positional multi-value argument `first` declared before the positional
argument `second`, the bare tokens of `["app", "--input", "v", "x"]` form the
one run `v x`, but `--input` takes `v`, and reconciliation calls `SetValue` on
`first` with `x` only. -/
theorem Parse_run_shared_with_option :
    GetStringValue (Parse firstMultiParser
        ["app".toList, "--input".toList, "v".toList, "x".toList] 1).parser
        "input".toList 0 = .ok "v".toList ∧
      GetStringValue (Parse firstMultiParser
        ["app".toList, "--input".toList, "v".toList, "x".toList] 1).parser
        "first".toList 0 = .ok "x".toList ∧
      GetStringValue (Parse firstMultiParser
        ["app".toList, "--input".toList, "v".toList, "x".toList] 1).parser
        "first".toList 1 = .error .out_of_range := by
  decide

/-- C19 (amended): for every parser and every token sequence whose processing
leaves the buffered tokens `t1 .. tn` (`n ≥ 1`) of one run, with no help flag
registered: reconciliation calls `SetValue` on the first declared positional
argument (in registration order) with `t1, ..., tn` in that order, provided
that none of these calls raises, calls `SetValue` on no other argument and
returns true, and `Parse` returns what the `IsCorrect` loop finds on the
arguments so set. -/
theorem reconciliation_first_positional (p0 p : ArgParser) (args : List Str) (index : Nat)
    (front rest : List (Str × BaseArgument)) (name : Str) (a a1 : BaseArgument)
    (current : Nat) (run : List Str)
    (hwalk : ParseTokens (args.length - index + 1) p0 args index = some p)
    (hhelp : ∀ f, GetArgument p.arguments_ helpName ≠ some (.flag f))
    (hargs : p.arguments_ = front ++ (name, a) :: rest)
    (hfront : ∀ x ∈ front, x.2.IsPositional = false)
    (ha : a.IsPositional = true)
    (hrun : run ≠ [])
    (hbuf : p.positional_arguments_ = run.map (fun t => (current, t)))
    (hset : SetValues a run = .done a1) :
    UpdatePositionalArguments p
        = .done ({ p with arguments_ := front ++ (name, a1) :: rest }, true) ∧
      Parse p0 args index
        = checkArguments
            { p with arguments_ := front ++ (name, a1) :: rest, positional_arguments_ := [] }
            (front ++ (name, a1) :: rest) := by
  have hup : UpdatePositionalArguments p
      = .done ({ p with arguments_ := front ++ (name, a1) :: rest }, true) := by
    unfold UpdatePositionalArguments
    cases run with
    | nil => exact absurd rfl hrun
    | cons t more =>
      rw [hbuf]
      simp only [List.map_cons]
      have := assignPositional_first current front rest name a a1 (t :: more) hfront ha hset
      simp only [List.map_cons] at this
      rw [hargs, this]
      rfl
  refine ⟨hup, ?_⟩
  rw [Parse_of_tokens p0 p args index hwalk]
  unfold ParseEnd
  split
  · rename_i f hf
    exact absurd hf (hhelp f)
  · unfold ParseValidate
    rw [hup]
    rfl

/-- C19 (amended), with the single-value String positionals `first` and
`second` and the run `x y`: `first` ends holding `y`, `second` is never set,
and `Parse` returns false, while it returns true when `second` has a default. -/
theorem reconciliation_first_positional_witness :
    (UpdatePositionalArguments
        (Option.get (ParseTokens 3 twoPositionalsParser
          ["app".toList, "x".toList, "y".toList] 1) (by decide))
        = .done ({ Option.get (ParseTokens 3 twoPositionalsParser
            ["app".toList, "x".toList, "y".toList] 1) (by decide) with
            arguments_ := [] ++ ("first".toList, BaseArgument.string
              (((StringArgument.new 'a' "first".toList []).Positional.SetValue
                "x".toList).SetValue "y".toList))
              :: twoPositionalsParser.arguments_.drop 1 }, true) ∧
      Parse twoPositionalsParser ["app".toList, "x".toList, "y".toList] 1
        = checkArguments
            { Option.get (ParseTokens 3 twoPositionalsParser
              ["app".toList, "x".toList, "y".toList] 1) (by decide) with
              arguments_ := [] ++ ("first".toList, BaseArgument.string
                (((StringArgument.new 'a' "first".toList []).Positional.SetValue
                  "x".toList).SetValue "y".toList))
                :: twoPositionalsParser.arguments_.drop 1,
              positional_arguments_ := [] }
            ([] ++ ("first".toList, BaseArgument.string
              (((StringArgument.new 'a' "first".toList []).Positional.SetValue
                "x".toList).SetValue "y".toList))
              :: twoPositionalsParser.arguments_.drop 1)) ∧
    GetStringValue (Parse twoPositionalsParser
      ["app".toList, "x".toList, "y".toList] 1).parser "first".toList 0 = .ok "y".toList ∧
    (GetArgument (Parse twoPositionalsParser
      ["app".toList, "x".toList, "y".toList] 1).parser.arguments_ "second".toList).map
      requiredUnset = some true ∧
    (Parse twoPositionalsParser ["app".toList, "x".toList, "y".toList] 1).outcome
      = .returned false ∧
    (Parse secondDefaultParser ["app".toList, "x".toList, "y".toList] 1).outcome
      = .returned true :=
  ⟨reconciliation_first_positional twoPositionalsParser
      (Option.get (ParseTokens 3 twoPositionalsParser
        ["app".toList, "x".toList, "y".toList] 1) (by decide))
      ["app".toList, "x".toList, "y".toList] 1 [] (twoPositionalsParser.arguments_.drop 1)
      "first".toList (.string (StringArgument.new 'a' "first".toList []).Positional)
      (.string (((StringArgument.new 'a' "first".toList []).Positional.SetValue
        "x".toList).SetValue "y".toList))
      1 ["x".toList, "y".toList]
      (by decide)
      (by
        intro f h
        rw [show GetArgument (Option.get (ParseTokens 3 twoPositionalsParser
          ["app".toList, "x".toList, "y".toList] 1) (by decide)).arguments_ helpName
          = none from by decide] at h
        cases h)
      (by decide) (by intro x hx; cases hx) (by decide) (by decide) (by decide) (by decide),
    by decide, by decide, by decide, by decide⟩

theorem InTokenOrder_nil (args : List Str) (lo hi : Nat) : InTokenOrder args lo hi [] := by
  simp [InTokenOrder]

theorem InTokenOrder_mono (args : List Str) (lo hi lo1 hi1 : Nat) (calls : List (Nat × Str))
    (h : InTokenOrder args lo hi calls) (hlo : lo1 ≤ lo) (hhi : hi ≤ hi1) :
    InTokenOrder args lo1 hi1 calls := by
  refine ⟨h.1, ?_⟩
  intro e he
  obtain ⟨h1, h2, h3⟩ := h.2 e he
  exact ⟨by omega, by omega, h3⟩

theorem InTokenOrder_append (args : List Str) (lo mid hi : Nat) (xs ys : List (Nat × Str))
    (hx : InTokenOrder args lo mid xs) (hy : InTokenOrder args mid hi ys)
    (hlo : lo ≤ mid) (hhi : mid ≤ hi) : InTokenOrder args lo hi (xs ++ ys) := by
  refine ⟨?_, ?_⟩
  · rw [List.pairwise_append]
    refine ⟨hx.1, hy.1, ?_⟩
    intro a ha b hb
    have h1 := (hx.2 a ha).2.1
    have h2 := (hy.2 b hb).1
    omega
  · intro e he
    rw [List.mem_append] at he
    rcases he with he | he
    · obtain ⟨h1, h2, h3⟩ := hx.2 e he
      exact ⟨h1, by omega, h3⟩
    · obtain ⟨h1, h2, h3⟩ := hy.2 e he
      exact ⟨by omega, h2, h3⟩

theorem tokenValue_bare (token : Str) (h : beginsWithHyphen token = false) :
    tokenValue token = token := by
  simp [tokenValue, h]

theorem getD_of_drop (args : List Str) (j : Nat) (token : Str) (rest : List Str)
    (h : args.drop j = token :: rest) :
    args.getD j [] = token ∧ args.drop (j + 1) = rest := by
  have hj : j < args.length := by
    by_contra hn
    rw [List.drop_eq_nil_of_le (by omega)] at h
    cases h
  rw [drop_eq_getD_cons args j hj] at h
  simp only [List.cons.injEq] at h
  exact h

theorem takenValues_order (args : List Str) (rest : List Str) :
    ∀ (index : Nat) (count : Int), args.drop (index + 1) = rest →
      InTokenOrder args (index + 1) (index + 1 + (takenValues index count rest).length)
        (takenValues index count rest) := by
  induction rest with
  | nil => intro index count _; simp [takenValues, InTokenOrder]
  | cons token rest ih =>
    intro index count hrest
    obtain ⟨hget, hdrop⟩ := getD_of_drop args (index + 1) token rest hrest
    simp only [takenValues]
    split
    · rename_i hc
      simp only [Bool.and_eq_true, Bool.not_eq_true', decide_eq_true_eq] at hc
      have hrec := ih (index + 1) (count - 1) hdrop
      refine ⟨?_, ?_⟩
      · rw [List.pairwise_cons]
        refine ⟨?_, hrec.1⟩
        intro e he
        have := (hrec.2 e he).1
        simp only
        omega
      · intro e he
        rw [List.mem_cons] at he
        rcases he with he | he
        · subst he
          refine ⟨le_refl _, ?_, ?_⟩
          · simp only [List.length_cons]; omega
          · simp only [hget]
            exact (tokenValue_bare token hc.1).symm
        · obtain ⟨h1, h2, h3⟩ := hrec.2 e he
          refine ⟨by omega, ?_, h3⟩
          simp only [List.length_cons]
          omega
    · exact InTokenOrder_nil _ _ _

theorem consumeValues_string (rest : List Str) :
    ∀ (a : StringArgument) (index : Nat) (count : Int),
      consumeValues (.string a) index count rest =
        .done (.string (((takenValues index count rest).map Prod.snd).foldl
            StringArgument.SetValue a),
          index + (takenValues index count rest).length) := by
  induction rest with
  | nil => intro a index count; simp [consumeValues, takenValues]
  | cons token rest ih =>
    intro a index count
    simp only [consumeValues, takenValues]
    split
    · simp only [BaseArgument.SetValue, ih, List.map_cons, List.foldl_cons, List.length_cons]
      congr 2
      omega
    · simp

theorem StringArgument.ValuesCount_ne_zero (a : StringArgument) : a.ValuesCount ≠ 0 := by
  unfold StringArgument.ValuesCount
  split
  · split
    · assumption
    · decide
  · decide

theorem takeValues_string (a : StringArgument) (args : List Str) (index : Nat) :
    takeValues (.string a) args index =
      .done (.string (((takenValues index (BaseArgument.string a).ValuesCount
            (args.drop (index + 1))).map Prod.snd).foldl StringArgument.SetValue a),
        index + (takenValues index (BaseArgument.string a).ValuesCount
            (args.drop (index + 1))).length) := by
  unfold takeValues
  simp only [BaseArgument.ValuesCount, StringArgument.ValuesCount_ne_zero a, if_false]
  exact consumeValues_string _ _ _ _

theorem find_hyphen_cons (text : Str) (k : Nat) (h : find '=' text = some k) :
    find '=' ('-' :: text) = some (k + 1) := by
  simp [find, h]

theorem GetArgument_store_string (p : ArgParser) (name nm : Str) (argument a1 : BaseArgument)
    (h : GetArgument p.arguments_ name = some argument) (hne : name ≠ nm) :
    GetArgument (p.store name a1).arguments_ nm = GetArgument p.arguments_ nm := by
  unfold ArgParser.store
  simp only
  rw [GetArgument_store _ _ _ _ _ h, if_neg (fun e => hne e.symm)]

theorem GetArgument_store_same (p : ArgParser) (nm : Str) (argument a1 : BaseArgument)
    (h : GetArgument p.arguments_ nm = some argument) :
    GetArgument (p.store nm a1).arguments_ nm = some a1 := by
  unfold ArgParser.store
  simp only
  rw [GetArgument_store _ _ _ _ _ h, if_pos rfl]

theorem ParseLong_calls (p p1 : ArgParser) (args : List Str) (index i1 : Nat) (nm text : Str)
    (a : StringArgument) (ht : args.getD index [] = '-' :: '-' :: text)
    (hs : ParseLong p args index text = .next p1 i1)
    (ha : GetArgument p.arguments_ nm = some (.string a)) :
    GetArgument p1.arguments_ nm = some (.string
        (((longCalls p args index nm text).map Prod.snd).foldl StringArgument.SetValue a)) ∧
      InTokenOrder args index i1 (longCalls p args index nm text) := by
  unfold ParseLong at hs
  unfold longCalls
  cases hk : find '=' text with
  | some k =>
    simp only [hk] at hs ⊢
    cases hg : GetArgument p.arguments_ (text.take k) with
    | none => simp [hg, unknownArgument] at hs
    | some argument =>
      simp only [hg] at hs
      cases hv : argument.SetValue (text.drop (k + 1)) with
      | raised e b => simp [hv, raise] at hs
      | done b =>
        simp only [hv, Step.next.injEq] at hs
        obtain ⟨hp, hi⟩ := hs
        subst hp hi
        by_cases hn : text.take k = nm
        · rw [hn] at hg
          rw [hg] at ha
          cases ha
          simp only [BaseArgument.SetValue, Result.done.injEq] at hv
          subst hv
          rw [hn]
          simp only [if_true, List.map_cons, List.map_nil, List.foldl_cons, List.foldl_nil]
          refine ⟨GetArgument_store_same p nm _ _ hg, ?_, ?_⟩
          · simp
          · intro e he
            simp only [List.mem_singleton] at he
            subst he
            refine ⟨le_refl _, Nat.lt_succ_self _, ?_⟩
            simp only [ht, tokenValue, beginsWithHyphen, if_true,
              find_hyphen_cons _ _ (find_hyphen_cons _ _ hk)]
            rfl
        · simp only [hn, if_false, List.map_nil, List.foldl_nil]
          refine ⟨?_, InTokenOrder_nil _ _ _⟩
          rw [GetArgument_store_string p _ nm _ _ hg hn]
          exact ha
  | none =>
    simp only [hk] at hs ⊢
    cases hg : GetArgument p.arguments_ text with
    | none => simp [hg, unknownArgument] at hs
    | some argument =>
      simp only [hg] at hs
      by_cases hn : text = nm
      · subst hn
        rw [hg] at ha
        cases ha
        rw [takeValues_string] at hs
        simp only [Step.next.injEq] at hs
        obtain ⟨hp, hi⟩ := hs
        subst hp hi
        simp only [if_true, hg]
        refine ⟨GetArgument_store_same p text _ _ hg, ?_⟩
        have ho := takenValues_order args (args.drop (index + 1)) index
          (BaseArgument.string a).ValuesCount rfl
        exact InTokenOrder_mono _ _ _ _ _ _ ho (by omega) (by omega)
      · cases hv : takeValues argument args index with
        | raised e r =>
          obtain ⟨b, j⟩ := r
          simp [hv, raise] at hs
        | done r =>
          obtain ⟨b, j⟩ := r
          simp only [hv, Step.next.injEq] at hs
          obtain ⟨hp, hi⟩ := hs
          subst hp hi
          simp only [hn, if_false, List.map_nil, List.foldl_nil]
          refine ⟨?_, InTokenOrder_nil _ _ _⟩
          rw [GetArgument_store_string p _ nm _ _ hg hn]
          exact ha

theorem ParseShortInline_calls (value : Str) (index : Nat) (nm : Str) (names : List Char) :
    ∀ (p p1 : ArgParser) (i1 : Nat) (a : StringArgument),
      ParseShortInline value index names p = .next p1 i1 →
      GetArgument p.arguments_ nm = some (.string a) →
      GetArgument p1.arguments_ nm = some (.string
          (((shortInlineCalls p.short_names_ value index nm names).map Prod.snd).foldl
            StringArgument.SetValue a)) ∧
        i1 = index + 1 ∧
        ∀ e ∈ shortInlineCalls p.short_names_ value index nm names, e = (index, value) := by
  induction names with
  | nil =>
    intro p p1 i1 a hs ha
    simp only [ParseShortInline, Step.next.injEq] at hs
    obtain ⟨hp, hi⟩ := hs
    subst hp hi
    simp [shortInlineCalls, ha]
  | cons sname names ih =>
    intro p p1 i1 a hs ha
    simp only [ParseShortInline] at hs
    cases hl : p.short_names_.lookup sname with
    | none => simp [hl, unknownArgument] at hs
    | some name =>
      simp only [hl] at hs
      cases hg : GetArgument p.arguments_ name with
      | none => simp [hg, unknownArgument] at hs
      | some argument =>
        simp only [hg] at hs
        cases hv : argument.SetValue value with
        | raised e b => simp [hv, raise] at hs
        | done b =>
          simp only [hv] at hs
          by_cases hn : name = nm
          · subst hn
            rw [hg] at ha
            cases ha
            simp only [BaseArgument.SetValue, Result.done.injEq] at hv
            subst hv
            obtain ⟨h1, h2, h3⟩ := ih (p.store name (.string (a.SetValue value))) p1 i1
              (a.SetValue value) hs (GetArgument_store_same p name _ _ hg)
            simp only [shortInlineCalls, hl, if_true, List.singleton_append, List.map_cons,
              List.foldl_cons]
            refine ⟨h1, h2, ?_⟩
            intro e he
            rw [List.mem_cons] at he
            rcases he with he | he
            · exact he
            · exact h3 e he
          · have hg2 : GetArgument (p.store name b).arguments_ nm = some (.string a) := by
              rw [GetArgument_store_string p _ nm _ _ hg hn]
              exact ha
            obtain ⟨h1, h2, h3⟩ := ih (p.store name b) p1 i1 a hs hg2
            have hne : ¬ (some name = some nm) := by simpa using hn
            simp only [shortInlineCalls, hl, hne, if_false, List.nil_append]
            exact ⟨h1, h2, h3⟩

theorem ParseShortCluster_calls (args : List Str) (nm : Str) (names : List Char) :
    ∀ (p p1 : ArgParser) (index i1 : Nat) (a : StringArgument),
      ParseShortCluster args names p index = .next p1 i1 →
      GetArgument p.arguments_ nm = some (.string a) →
      GetArgument p1.arguments_ nm = some (.string
          (((shortClusterCalls args nm names p index).map Prod.snd).foldl
            StringArgument.SetValue a)) ∧
        index + 1 ≤ i1 ∧
        InTokenOrder args (index + 1) i1 (shortClusterCalls args nm names p index) := by
  induction names with
  | nil =>
    intro p p1 index i1 a hs ha
    simp only [ParseShortCluster, Step.next.injEq] at hs
    obtain ⟨hp, hi⟩ := hs
    subst hp hi
    simp [shortClusterCalls, ha, InTokenOrder_nil]
  | cons sname names ih =>
    intro p p1 index i1 a hs ha
    simp only [ParseShortCluster] at hs
    simp only [shortClusterCalls]
    cases hl : p.short_names_.lookup sname with
    | none => simp [hl, unknownArgument] at hs
    | some name =>
      simp only [hl] at hs ⊢
      cases hg : GetArgument p.arguments_ name with
      | none => simp [hg, unknownArgument] at hs
      | some argument =>
        simp only [hg] at hs ⊢
        cases hv : takeValues argument args index with
        | raised e r =>
          obtain ⟨b, j⟩ := r
          simp [hv, raise] at hs
        | done r =>
          obtain ⟨b, j⟩ := r
          simp only [hv] at hs ⊢
          have hj : index ≤ j := ((takeValues_spec args argument index).1 b j hv).2.1
          by_cases hn : name = nm
          · subst hn
            rw [hg] at ha
            cases ha
            rw [takeValues_string] at hv
            simp only [Result.done.injEq, Prod.mk.injEq] at hv
            obtain ⟨hb, hjj⟩ := hv
            subst hb
            obtain ⟨h1, h2, h3⟩ := ih (p.store name _) p1 j i1 _ hs
              (GetArgument_store_same p name _ _ hg)
            simp only [if_true, List.map_append, List.foldl_append]
            refine ⟨h1, by omega, ?_⟩
            have ho := takenValues_order args (args.drop (index + 1)) index
              (BaseArgument.string a).ValuesCount rfl
            refine InTokenOrder_append args (index + 1) (j + 1) i1 _ _ ?_ h3 (by omega) h2
            refine InTokenOrder_mono _ _ _ _ _ _ ho (le_refl _) ?_
            omega
          · have hg2 : GetArgument (p.store name b).arguments_ nm = some (.string a) := by
              rw [GetArgument_store_string p _ nm _ _ hg hn]
              exact ha
            obtain ⟨h1, h2, h3⟩ := ih (p.store name b) p1 j i1 a hs hg2
            simp only [hn, if_false, List.nil_append]
            exact ⟨h1, by omega, InTokenOrder_mono _ _ _ _ _ _ h3 (by omega) (le_refl _)⟩

theorem ParseToken_calls (p p1 : ArgParser) (args : List Str) (index i1 : Nat) (nm : Str)
    (a : StringArgument) (hs : ParseToken p args index = .next p1 i1)
    (ha : GetArgument p.arguments_ nm = some (.string a)) :
    GetArgument p1.arguments_ nm = some (.string
        (((tokenCalls p args index nm).map Prod.snd).foldl StringArgument.SetValue a)) ∧
      InTokenOrder args index i1 (tokenCalls p args index nm) := by
  rcases token_cases (args.getD index []) with ⟨text, ht⟩ | ⟨names, ht, hnn⟩ | hb
  · rw [ParseToken_long p args index text ht] at hs
    have hc : tokenCalls p args index nm = longCalls p args index nm text := by
      unfold tokenCalls
      rw [ht]
      split
      · rename_i heq
        simp only [List.cons.injEq, true_and] at heq
        rw [heq]
      · rename_i h2 heq
        simp only [List.cons.injEq, true_and] at heq
        exact (h2 text heq.symm).elim
      · rename_i h2 h3
        exact absurd rfl (h2 text)
    rw [hc]
    exact ParseLong_calls p p1 args index i1 nm text a ht hs ha
  · rw [ParseToken_short p args index names ht hnn] at hs
    unfold ParseShort at hs
    cases hk : find '=' names with
    | some k =>
      have hc : tokenCalls p args index nm =
          shortInlineCalls p.short_names_ (names.drop (k + 1)) index nm (names.take k) := by
        unfold tokenCalls
        rw [ht]
        split
        · rename_i heq
          simp only [List.cons.injEq, true_and] at heq
          exact absurd heq (hnn _)
        · rename_i heq
          simp only [List.cons.injEq, true_and] at heq
          subst heq
          simp only [hk]
        · rename_i h2
          exact absurd rfl (h2 names)
      simp only [hk] at hs
      rw [hc]
      obtain ⟨h1, h2, h3⟩ := ParseShortInline_calls _ index nm _ p p1 i1 a hs ha
      refine ⟨h1, ?_, ?_⟩
      · rw [List.pairwise_iff_forall_sublist]
        intro x y hxy
        have hx := h3 x (hxy.subset (by simp))
        have hy := h3 y (hxy.subset (by simp))
        rw [hx, hy]
      · intro e he
        rw [h3 e he, h2]
        refine ⟨le_refl _, Nat.lt_succ_self _, ?_⟩
        simp only [ht, tokenValue, beginsWithHyphen, if_true, find_hyphen_cons _ _ hk]
        rfl
    | none =>
      have hc : tokenCalls p args index nm = shortClusterCalls args nm names p index := by
        unfold tokenCalls
        rw [ht]
        split
        · rename_i heq
          simp only [List.cons.injEq, true_and] at heq
          exact absurd heq (hnn _)
        · rename_i heq
          simp only [List.cons.injEq, true_and] at heq
          subst heq
          simp only [hk]
        · rename_i h2
          exact absurd rfl (h2 names)
      simp only [hk] at hs
      rw [hc]
      obtain ⟨h1, h2, h3⟩ := ParseShortCluster_calls args nm names p p1 index i1 a hs ha
      exact ⟨h1, InTokenOrder_mono _ _ _ _ _ _ h3 (by omega) (le_refl _)⟩
  · rw [ParseToken_bare p args index hb] at hs
    have hc : tokenCalls p args index nm = [] := by
      unfold tokenCalls
      split
      · rename_i heq
        rw [heq] at hb
        simp [beginsWithHyphen] at hb
      · rename_i heq
        rw [heq] at hb
        simp [beginsWithHyphen] at hb
      · rfl
    rw [hc]
    simp only [ParsePositional, Step.next.injEq] at hs
    obtain ⟨hp, hi⟩ := hs
    subst hp
    simp only [List.map_nil, List.foldl_nil]
    exact ⟨ha, InTokenOrder_nil _ _ _⟩

theorem ParseTokens_calls (fuel : Nat) (args : List Str) (nm : Str) :
    ∀ (p p1 : ArgParser) (index : Nat) (a : StringArgument),
      ParseTokens fuel p args index = some p1 →
      GetArgument p.arguments_ nm = some (.string a) →
      GetArgument p1.arguments_ nm = some (.string
          (((SetValueCallsFuel fuel p args index nm).map Prod.snd).foldl
            StringArgument.SetValue a)) ∧
        InTokenOrder args index args.length (SetValueCallsFuel fuel p args index nm) := by
  induction fuel with
  | zero => intro p p1 index a h; simp [ParseTokens] at h
  | succ fuel ih =>
    intro p p1 index a h ha
    simp only [ParseTokens] at h
    simp only [SetValueCallsFuel]
    split at h
    · rename_i hle
      simp only [Option.some.injEq] at h
      subst h
      simp only [hle, if_true, List.map_nil, List.foldl_nil]
      exact ⟨ha, InTokenOrder_nil _ _ _⟩
    · rename_i hle
      simp only [hle, if_false]
      have hok := ParseToken_ok p args index (by omega)
      cases hs : ParseToken p args index with
      | stop r => simp [hs] at h
      | next p2 i2 =>
        simp only [hs] at h ⊢
        rw [hs] at hok
        obtain ⟨_, hlt, hlen, _⟩ := hok
        obtain ⟨h1, h2⟩ := ParseToken_calls p p2 args index i2 nm a hs ha
        obtain ⟨h3, h4⟩ := ih p2 p1 i2 _ h h1
        simp only [List.map_append, List.foldl_append]
        exact ⟨h3, InTokenOrder_append args index i2 args.length _ _ h2 h4 (by omega) hlen⟩

theorem StringArgument.SetValue_fields (a : StringArgument) (v : Str) :
    (a.SetValue v).is_multi_value_ = a.is_multi_value_ ∧
      (a.SetValue v).is_positional_ = a.is_positional_ ∧
      (a.SetValue v).is_set_ = true ∧
      (a.is_multi_value_ = true →
        (a.SetValue v).multi_value_ = some (a.multi_value_.getD [] ++ [v])) ∧
      (a.is_multi_value_ = false → (a.SetValue v).value_ = some v) := by
  unfold StringArgument.SetValue
  split <;> simp_all

theorem foldl_SetValue (vs : List Str) :
    ∀ a : StringArgument,
      (vs.foldl StringArgument.SetValue a).is_multi_value_ = a.is_multi_value_ ∧
      (vs.foldl StringArgument.SetValue a).is_positional_ = a.is_positional_ ∧
      (vs ≠ [] → (vs.foldl StringArgument.SetValue a).is_set_ = true) ∧
      (a.is_multi_value_ = true → vs ≠ [] →
        (vs.foldl StringArgument.SetValue a).multi_value_
          = some (a.multi_value_.getD [] ++ vs)) ∧
      (a.is_multi_value_ = false → ∀ v, vs.getLast? = some v →
        (vs.foldl StringArgument.SetValue a).value_ = some v) := by
  induction vs with
  | nil => intro a; simp
  | cons v vs ih =>
    intro a
    obtain ⟨h1, h2, h3, h4, h5⟩ := ih (a.SetValue v)
    obtain ⟨s1, s2, s3, s4, s5⟩ := StringArgument.SetValue_fields a v
    simp only [List.foldl_cons]
    refine ⟨by rw [h1, s1], by rw [h2, s2], ?_, ?_, ?_⟩
    · intro _
      by_cases hv : vs = []
      · subst hv; simpa using s3
      · exact h3 hv
    · intro hm _
      by_cases hv : vs = []
      · subst hv; simpa using s4 hm
      · rw [h4 (by rw [s1]; exact hm) hv, s4 hm]
        simp
    · intro hm w hw
      by_cases hv : vs = []
      · subst hv
        simp only [List.getLast?_singleton, Option.some.injEq] at hw
        subst hw
        simpa using s5 hm
      · cases vs with
        | nil => exact absurd rfl hv
        | cons x xs =>
          rw [List.getLast?_cons_cons] at hw
          exact h5 (by rw [s1]; exact hm) w hw

theorem assignPositional_keeps (current : Nat) (nm : Str) (arg : BaseArgument)
    (hpos : arg.IsPositional = false) (l : List (Str × BaseArgument)) :
    ∀ unread, GetArgument l nm = some arg →
      GetArgument (assignPositional current l unread).state.1 nm = some arg := by
  induction l with
  | nil => intro unread h; simp [GetArgument] at h
  | cons x rest ih =>
    intro unread h
    obtain ⟨name, argument⟩ := x
    simp only [assignPositional]
    by_cases hn : name = nm
    · simp only [GetArgument, hn, if_true, Option.some.injEq] at h
      subst h
      simp only [hpos, Bool.false_eq_true, if_false]
      cases assignPositional current rest unread with
      | done r => simp [Result.state, GetArgument, hn]
      | raised e r => simp [Result.state, GetArgument, hn]
    · simp only [GetArgument, hn, if_false] at h
      split
      · cases assignRun current argument unread with
        | raised e r => simpa [Result.state, GetArgument, hn] using h
        | done r =>
          obtain ⟨b, u⟩ := r
          have := ih u h
          simp only
          cases hr : assignPositional current rest u with
          | done r => rw [hr] at this; simpa [Result.state, GetArgument, hn] using this
          | raised e r => rw [hr] at this; simpa [Result.state, GetArgument, hn] using this
      · have := ih unread h
        cases hr : assignPositional current rest unread with
        | done r => rw [hr] at this; simpa [Result.state, GetArgument, hn] using this
        | raised e r => rw [hr] at this; simpa [Result.state, GetArgument, hn] using this

theorem ParseEnd_keeps (p : ArgParser) (nm : Str) (arg : BaseArgument)
    (h : GetArgument p.arguments_ nm = some arg)
    (hpos : arg.IsPositional = false ∨ p.positional_arguments_ = []) :
    GetArgument (ParseEnd p).parser.arguments_ nm = some arg := by
  rcases hpos with hpos | hbuf
  · unfold ParseEnd
    split
    · exact h
    · unfold ParseValidate UpdatePositionalArguments
      cases hb : p.positional_arguments_ with
      | nil =>
        simp only [Bool.not_true, Bool.false_eq_true, if_false]
        rw [checkArguments_keeps]
        exact h
      | cons entry more =>
        obtain ⟨current, token⟩ := entry
        have hk := assignPositional_keeps current nm arg hpos p.arguments_
          ((current, token) :: more) h
        simp only
        cases hr : assignPositional current p.arguments_ ((current, token) :: more) with
        | raised e r =>
          rw [hr] at hk
          simpa [Result.state] using hk
        | done r =>
          rw [hr] at hk
          simp only [Result.state] at hk
          simp only
          split
          · exact hk
          · rw [checkArguments_keeps]
            exact hk
  · rw [ParseEnd_parser_of_empty p hbuf]
    exact h

theorem tokenCalls_subset (fuel : Nat) (args : List Str) (nm : Str) (j : Nat)
    (hj : j < args.length) (hh : beginsWithHyphen (args.getD j []) = true) :
    ∀ (p p1 : ArgParser) (index : Nat), ParseTokens fuel p args index = some p1 → index ≤ j →
      ∃ pj, ParserEvolves p pj ∧
        ∀ e ∈ tokenCalls pj args j nm, e ∈ SetValueCallsFuel fuel p args index nm := by
  induction fuel with
  | zero => intro p p1 index h; simp [ParseTokens] at h
  | succ fuel ih =>
    intro p p1 index h hle
    simp only [ParseTokens] at h
    simp only [SetValueCallsFuel]
    split at h
    · omega
    · rename_i hlen
      simp only [hlen, if_false]
      have hok := ParseToken_ok p args index (by omega)
      cases hs : ParseToken p args index with
      | stop r => simp [hs] at h
      | next p2 i2 =>
        simp only [hs] at h ⊢
        rw [hs] at hok
        obtain ⟨hev, hlt, _, hbare⟩ := hok
        by_cases hji : j = index
        · subst hji
          exact ⟨p, ParserEvolves_refl p, fun e he => List.mem_append_left _ he⟩
        · by_cases hj2 : j < i2
          · have := hbare j (by omega) hj2
            rw [this] at hh
            cases hh
          · obtain ⟨pj, hpj, hsub⟩ := ih p2 p1 i2 h (by omega)
            exact ⟨pj, ParserEvolves_trans hev hpj, fun e he => List.mem_append_right _ (hsub e he)⟩

theorem Evolves_string_ValuesCount (a : StringArgument) (b : BaseArgument)
    (h : Evolves (.string a) b) : b.ValuesCount = a.ValuesCount := by
  cases b <;> simp only [Evolves] at h
  simp only [BaseArgument.ValuesCount, StringArgument.ValuesCount, h.2.1, h.2.2.1]

/-- With every caller location bound to one argument: the calls `SetValue` that
the option occurrences of a String argument make on it are made in token
order, each with the value of its token, and the argument after the last
token is the result of these calls in this order. -/
theorem Parse_calls_unshared (p : ArgParser) (args : List Str) (index : Nat)
    (nm : Str) (a : StringArgument)
    (ha : GetArgument p.arguments_ nm = some (.string a))
    (hp : tokensProcessed p args index = true) :
    InTokenOrder args index args.length (SetValueCalls p args index nm) ∧
      (∀ j, index ≤ j → j < args.length →
        (∀ text k, args.getD j [] = '-' :: '-' :: text → find '=' text = some k →
          text.take k = nm → (j, text.drop (k + 1)) ∈ SetValueCalls p args index nm) ∧
        (args.getD j [] = '-' :: '-' :: nm → find '=' nm = none →
          ∀ e ∈ takenValues j a.ValuesCount (args.drop (j + 1)),
            e ∈ SetValueCalls p args index nm)) ∧
      ∃ p1 a1, ParseTokens (args.length - index + 1) p args index = some p1 ∧
        GetArgument p1.arguments_ nm = some (.string a1) ∧
        a1 = (suppliedValues p args index nm).foldl StringArgument.SetValue a ∧
        (suppliedValues p args index nm ≠ [] →
          a1.is_set_ = true ∧
          (a.is_multi_value_ = true →
            a1.multi_value_ = some (a.multi_value_.getD [] ++ suppliedValues p args index nm) ∧
            ∀ i, a1.GetValue i
              = vector_at (a.multi_value_.getD [] ++ suppliedValues p args index nm) i) ∧
          (a.is_multi_value_ = false → ∀ v, (suppliedValues p args index nm).getLast? = some v →
            a1.value_ = some v ∧ ∀ i, a1.GetValue i = .ok v)) ∧
        ((a.is_positional_ = false ∨ p1.positional_arguments_ = []) →
          GetArgument (Parse p args index).parser.arguments_ nm = some (.string a1)) := by
  unfold tokensProcessed at hp
  obtain ⟨p1, hp1⟩ := Option.isSome_iff_exists.1 hp
  obtain ⟨hget0, hord0⟩ := ParseTokens_calls _ args nm p p1 index a hp1 ha
  have hord : InTokenOrder args index args.length (SetValueCalls p args index nm) := hord0
  have hget : GetArgument p1.arguments_ nm = some (.string
      ((suppliedValues p args index nm).foldl StringArgument.SetValue a)) := hget0
  refine ⟨hord, ?_, p1, (suppliedValues p args index nm).foldl StringArgument.SetValue a,
    hp1, hget, rfl, ?_, ?_⟩
  · intro j hij hj
    refine ⟨?_, ?_⟩
    · intro text k ht hk hn
      obtain ⟨pj, _, hsub⟩ := tokenCalls_subset _ args nm j hj
        (by rw [ht]; rfl) p p1 index hp1 hij
      apply (show ∀ e ∈ tokenCalls pj args j nm, e ∈ SetValueCalls p args index nm from hsub)
      have hc : tokenCalls pj args j nm = longCalls pj args j nm text := by
        unfold tokenCalls
        rw [ht]
        split
        · rename_i heq
          simp only [List.cons.injEq, true_and] at heq
          rw [heq]
        · rename_i h2 heq
          simp only [List.cons.injEq, true_and] at heq
          exact (h2 text heq.symm).elim
        · rename_i h2 h3
          exact absurd rfl (h2 text)
      rw [hc]
      unfold longCalls
      simp only [hk, hn, if_true, List.mem_singleton]
    · intro ht hk e he
      obtain ⟨pj, hev, hsub⟩ := tokenCalls_subset _ args nm j hj
        (by rw [ht]; rfl) p p1 index hp1 hij
      apply (show ∀ e ∈ tokenCalls pj args j nm, e ∈ SetValueCalls p args index nm from hsub)
      have hc : tokenCalls pj args j nm = longCalls pj args j nm nm := by
        unfold tokenCalls
        rw [ht]
        split
        · rename_i heq
          simp only [List.cons.injEq, true_and] at heq
          rw [heq]
        · rename_i h2 heq
          simp only [List.cons.injEq, true_and] at heq
          exact (h2 nm heq.symm).elim
        · rename_i h2 h3
          exact absurd rfl (h2 nm)
      rw [hc]
      unfold longCalls
      obtain ⟨b, hb, hevb⟩ := (ArgsEvolve_get hev.1 nm).2 _ ha
      simp only [hk, if_true, hb, Evolves_string_ValuesCount a b hevb]
      exact he
  · intro hne
    obtain ⟨f1, _, f3, f4, f5⟩ := foldl_SetValue (suppliedValues p args index nm) a
    refine ⟨f3 hne, ?_, ?_⟩
    · intro hm
      refine ⟨f4 hm hne, ?_⟩
      intro i
      unfold StringArgument.GetValue
      rw [f1, f3 hne, f4 hm hne]
      simp [hm]
    · intro hm v hv
      refine ⟨f5 hm v hv, ?_⟩
      intro i
      unfold StringArgument.GetValue
      rw [f1, f3 hne, f5 hm v hv]
      simp [hm]
  · intro hpos
    rw [Parse_of_tokens p p1 args index hp1]
    apply ParseEnd_keeps p1 nm _ hget
    rcases hpos with hpos | hbuf
    · left
      simp only [BaseArgument.IsPositional, StringArgument.IsPositional]
      rw [(foldl_SetValue _ a).2.1]
      exact hpos
    · right
      exact hbuf

/-- C21: `IsCorrect` of a multi-value String or Int argument reads
`multi_value_->size()` through the pointer, and the pointer is null until
`SetValue` or `StoreValues` sets it. On a never-supplied argument with
parser-owned storage the read is of absent storage, for every minimum `k`, also
`k = 0`; `Parse` of a token sequence that omits an optional `MultiValue()`
argument ends in that read instead of a verdict, while it returns true when
the argument is supplied. -/
theorem IsCorrect_unallocated_multi_value :
    (∀ a : StringArgument, a.is_multi_value_ = true → a.multi_value_ = none →
        a.IsCorrect = .error .null_dereference) ∧
      (∀ a : IntArgument, a.is_multi_value_ = true → a.multi_value_ = none →
        a.IsCorrect = .error .null_dereference) ∧
      (∀ k : Int, ((StringArgument.new 'f' "files".toList []).MultiValue k).IsCorrect
        = .error .null_dereference) ∧
      (∀ k : Int, ((IntArgument.new 'n' "ids".toList []).MultiValue k).IsCorrect
        = .error .null_dereference) ∧
      (Parse optionalFilesParser ["app".toList] 1).outcome = .raised .null_dereference ∧
      (Parse optionalIdsParser ["app".toList] 1).outcome = .raised .null_dereference ∧
      (Parse optionalFilesParser ["app".toList, "--files".toList, "a".toList] 1).outcome
        = .returned true ∧
      (Parse optionalIdsParser ["app".toList, "--ids".toList, "7".toList] 1).outcome
        = .returned true := by
  refine ⟨?_, ?_, ?_, ?_, by decide, by decide, by decide, by decide⟩
  · intro a hm hn
    simp [StringArgument.IsCorrect, hm, hn]
  · intro a hm hn
    simp [IntArgument.IsCorrect, hm, hn]
  · intro k
    simp [StringArgument.IsCorrect, StringArgument.MultiValue, StringArgument.new]
  · intro k
    simp [IntArgument.IsCorrect, IntArgument.MultiValue, IntArgument.new]

theorem checkArguments_returns (p : ArgParser) (l : List (Str × BaseArgument)) :
    (checkArguments p l).outcome ≠ .out_of_fuel := by
  induction l with
  | nil => simp [checkArguments]
  | cons x rest ih =>
    obtain ⟨name, argument⟩ := x
    simp only [checkArguments]
    split
    · simp
    · simp
    · exact ih

theorem ParseEnd_returns (p : ArgParser) : (ParseEnd p).outcome ≠ .out_of_fuel := by
  unfold ParseEnd
  split
  · simp
  · unfold ParseValidate
    split
    · simp
    · simp only
      split
      · simp
      · exact checkArguments_returns _ _

theorem ParseFuel_returns (fuel : Nat) (args : List Str) :
    ∀ (p : ArgParser) (index : Nat), args.length - index + 1 ≤ fuel →
      (ParseFuel fuel p args index).outcome ≠ .out_of_fuel := by
  induction fuel with
  | zero => intro p index h; omega
  | succ fuel ih =>
    intro p index h
    simp only [ParseFuel]
    split
    · exact ParseEnd_returns p
    · rename_i hlen
      have hok := ParseToken_ok p args index (by omega)
      cases hs : ParseToken p args index with
      | next p1 i1 =>
        rw [hs] at hok
        simp only
        exact ih p1 i1 (by have := hok.2.1; omega)
      | stop r =>
        rw [hs] at hok
        simp only
        rcases hok.2 with ⟨h1, _⟩ | ⟨e, h1, _⟩ <;> rw [h1] <;> simp

theorem ParseCalls_bound (fuel : Nat) (args : List Str) :
    ∀ (p : ArgParser) (index : Nat),
      (ParseCalls fuel p args index).Pairwise (· < ·) ∧
        (∀ j ∈ ParseCalls fuel p args index, index ≤ j) ∧
        (ParseCalls fuel p args index).length ≤ args.length - index + 1 := by
  induction fuel with
  | zero => intro p index; simp [ParseCalls]
  | succ fuel ih =>
    intro p index
    simp only [ParseCalls]
    split
    · simp
    · rename_i hlen
      have hok := ParseToken_ok p args index (by omega)
      cases hs : ParseToken p args index with
      | stop r => simp
      | next p1 i1 =>
        rw [hs] at hok
        obtain ⟨_, hlt, hle, _⟩ := hok
        obtain ⟨h1, h2, h3⟩ := ih p1 i1
        simp only
        refine ⟨?_, ?_, ?_⟩
        · rw [List.pairwise_cons]
          exact ⟨fun j hj => lt_of_lt_of_le hlt (h2 j hj), h1⟩
        · intro j hj
          rw [List.mem_cons] at hj
          rcases hj with hj | hj
          · omega
          · have := h2 j hj
            omega
        · simp only [List.length_cons]
          omega

theorem ParseCalls_fuel (f1 : Nat) (args : List Str) :
    ∀ (f2 : Nat) (p : ArgParser) (index : Nat),
      args.length - index + 1 ≤ f1 → args.length - index + 1 ≤ f2 →
      ParseCalls f1 p args index = ParseCalls f2 p args index := by
  induction f1 with
  | zero => intro f2 p index h1; omega
  | succ f1 ih =>
    intro f2 p index h1 h2
    cases f2 with
    | zero => omega
    | succ f2 =>
      simp only [ParseCalls]
      split
      · rfl
      · rename_i hlen
        have hok := ParseToken_ok p args index (by omega)
        cases hs : ParseToken p args index with
        | stop r => rfl
        | next p1 i1 =>
          rw [hs] at hok
          simp only
          rw [ih f2 p1 i1 (by have := hok.2.1; omega) (by have := hok.2.1; omega)]

theorem ParseCalls_last (fuel : Nat) (args : List Str) :
    ∀ (p p1 : ArgParser) (index : Nat), ParseTokens fuel p args index = some p1 →
      ∃ j, (ParseCalls fuel p args index).getLast? = some j ∧ args.length ≤ j := by
  induction fuel with
  | zero => intro p p1 index h; simp [ParseTokens] at h
  | succ fuel ih =>
    intro p p1 index h
    simp only [ParseTokens] at h
    simp only [ParseCalls]
    split at h
    · rename_i hle
      simp only [hle, if_true]
      exact ⟨index, rfl, hle⟩
    · rename_i hlen
      simp only [hlen, if_false]
      cases hs : ParseToken p args index with
      | stop r => simp [hs] at h
      | next p2 i2 =>
        simp only [hs] at h ⊢
        obtain ⟨j, hj, hle⟩ := ih p2 p1 i2 h
        refine ⟨j, ?_, hle⟩
        cases hc : ParseCalls fuel p2 args i2 with
        | nil => rw [hc] at hj; simp at hj
        | cons x xs =>
          rw [hc] at hj
          rw [List.getLast?_cons_cons]
          exact hj

theorem ParseToken_below_hyphen (args : List Str) (index : Nat)
    (hh : beginsWithHyphen (args.getD index []) = true) :
    ∀ (q q1 : ArgParser) (j j1 : Nat), j < index → j < args.length →
      ParseToken q args j = .next q1 j1 → j1 ≤ index := by
  intro q q1 j j1 hj hlen hs
  have hok := ParseToken_ok q args j hlen
  rw [hs] at hok
  by_contra hn
  have := hok.2.2.2 index hj (by omega)
  rw [this] at hh
  cases hh

/-- C23: for every parser, a token that is the single hyphen `-`, or `-=value`,
is read as a short-option cluster with no character: the step reports no
unknown argument, leaves the parser object as it is (no argument is set,
nothing is added to the positional buffer) and passes on to the next token, so
`Parse` gives what it gives from the next token on. No step that starts at an
earlier token reads past it: the value run or positional run before it ends
there. -/
theorem ParseToken_single_hyphen (p : ArgParser) (args : List Str) (index : Nat)
    (value : Str) (hi : index < args.length)
    (ht : args.getD index [] = ['-'] ∨ args.getD index [] = '-' :: '=' :: value) :
    ParseToken p args index = .next p (index + 1) ∧
      Parse p args index = Parse p args (index + 1) ∧
      beforeEq ((args.getD index []).drop 1) = [] ∧
      (∀ nm, tokenCalls p args index nm = []) ∧
      (∀ (q q1 : ArgParser) (j j1 : Nat), j < index →
        ParseToken q args j = .next q1 j1 → j1 ≤ index) := by
  have hstep : ParseToken p args index = .next p (index + 1) := by
    rcases ht with ht | ht
    · rw [ParseToken_short p args index [] ht (by intro name h; cases h)]
      simp [ParseShort, find, ParseShortCluster]
    · rw [ParseToken_short p args index ('=' :: value) ht
        (by intro name h; simp at h)]
      simp [ParseShort, find, ParseShortInline]
  have hh : beginsWithHyphen (args.getD index []) = true := by
    rcases ht with ht | ht <;> rw [ht] <;> rfl
  refine ⟨hstep, Parse_next p p args index (index + 1) hi hstep, ?_, ?_, ?_⟩
  · rcases ht with ht | ht <;> rw [ht] <;> simp [beforeEq, find]
  · intro nm
    rcases ht with ht | ht
    · unfold tokenCalls
      rw [ht]
      simp [find, shortClusterCalls]
    · unfold tokenCalls
      rw [ht]
      simp [find, shortInlineCalls]
  · intro q q1 j j1 hj hs
    exact ParseToken_below_hyphen args index hh q q1 j j1 hj (by omega) hs

/-- C23, with the positional String arguments `first` and `second`: in
`x - y` the token `-` is passed over, `x` and `y` are buffered as two runs and
`Parse` returns false as it does on the two runs without the hyphen; in
`-=v x` the token `-=v` is passed over and `Parse` is the one of `x`. -/
theorem ParseToken_single_hyphen_witness :
    (ParseToken twoPositionalsParser ["app".toList, "-".toList, "x".toList] 1
        = .next twoPositionalsParser (1 + 1) ∧
      Parse twoPositionalsParser ["app".toList, "-".toList, "x".toList] 1
        = Parse twoPositionalsParser ["app".toList, "-".toList, "x".toList] (1 + 1) ∧
      beforeEq ((["app".toList, "-".toList, "x".toList].getD 1 []).drop 1) = [] ∧
      (∀ nm, tokenCalls twoPositionalsParser ["app".toList, "-".toList, "x".toList] 1 nm
        = []) ∧
      (∀ (q q1 : ArgParser) (j j1 : Nat), j < 1 →
        ParseToken q ["app".toList, "-".toList, "x".toList] j = .next q1 j1 → j1 ≤ 1)) ∧
    (Parse twoPositionalsParser ["app".toList, "x".toList, "-".toList, "y".toList] 1).cerr
      = some .positional_not_correct ∧
    (Parse twoPositionalsParser ["app".toList, "x".toList, "-".toList, "y".toList] 1).outcome
      = .returned false ∧
    ParseToken twoPositionalsParser ["app".toList, "-=v".toList, "x".toList] 1
      = .next twoPositionalsParser 2 ∧
    ParseToken twoPositionalsParser ["app".toList, "--first".toList, "x".toList, "-".toList,
        "y".toList] 1
      = .next (twoPositionalsParser.store "first".toList
          (.string ((StringArgument.new 'a' "first".toList []).Positional.SetValue
            "x".toList))) 3 :=
  ⟨ParseToken_single_hyphen twoPositionalsParser ["app".toList, "-".toList, "x".toList] 1 []
      (by decide) (Or.inl (by decide)),
    by decide, by decide, by decide, by decide⟩

theorem ParseTrace_eq (fuel : Nat) (args : List Str) :
    ∀ (p : ArgParser) (index : Nat),
      ParseTrace fuel p args index = (ParseFuel fuel p args index, ParseCalls fuel p args index) := by
  induction fuel with
  | zero => intro p index; rfl
  | succ fuel ih =>
    intro p index
    simp only [ParseTrace, ParseFuel, ParseCalls]
    split
    · rfl
    · cases hs : ParseToken p args index with
      | next p1 i1 => simp only [ih p1 i1]
      | stop r => rfl

theorem ParseCalls_end (fuel : Nat) (args : List Str) :
    ∀ (p : ArgParser) (index : Nat), args.length - index + 1 ≤ fuel →
      ∃ j q, (ParseCalls fuel p args index).getLast? = some j ∧
        ((args.length ≤ j ∧ ParseFuel fuel p args index = ParseEnd q) ∨
          (j < args.length ∧ ParseToken q args j = .stop (ParseFuel fuel p args index))) := by
  induction fuel with
  | zero => intro p index h; omega
  | succ fuel ih =>
    intro p index h
    simp only [ParseFuel, ParseCalls]
    split
    · rename_i hle
      exact ⟨index, p, rfl, Or.inl ⟨hle, rfl⟩⟩
    · rename_i hlen
      have hok := ParseToken_ok p args index (by omega)
      cases hs : ParseToken p args index with
      | stop r => exact ⟨index, p, rfl, Or.inr ⟨by omega, hs⟩⟩
      | next p1 i1 =>
        rw [hs] at hok
        simp only
        obtain ⟨j, q, hj, hq⟩ := ih p1 i1 (by have := hok.2.1; omega)
        refine ⟨j, q, ?_, hq⟩
        cases hc : ParseCalls fuel p1 args i1 with
        | nil => rw [hc] at hj; simp at hj
        | cons x xs =>
          rw [hc] at hj
          rw [List.getLast?_cons_cons]
          exact hj

/-- C22, as stated, fails on `["app", "--bogus", "x"]` from index 1: the only call
of `Parse` is the one at index 1, which returns false at the unregistered
option; no call is made at index 3, the end-of-tokens case. -/
theorem Parse_stops_before_end :
    ParseTrace 3 exampleParser ["app".toList, "--bogus".toList, "x".toList] 1
        = (Parse exampleParser ["app".toList, "--bogus".toList, "x".toList] 1, [1]) ∧
      (Parse exampleParser ["app".toList, "--bogus".toList, "x".toList] 1).outcome
        = .returned false ∧
      (Parse exampleParser ["app".toList, "--bogus".toList, "x".toList] 1).cerr
        = some (.unknown_argument "bogus".toList) ∧
      (3 : Nat) ∉ ParseCalls 3 exampleParser
        ["app".toList, "--bogus".toList, "x".toList] 1 := by
  decide

/-- C22 (amended): `Parse` terminates on every input. For every parser, token
sequence and start index, every recursive call of `Parse` is made with a
strictly greater token index, at most the number of tokens, than the call that
makes it: a long option and a short cluster advance by at least one token, and
the step on a bare token buffers at least that token. The indices of the calls
that `Parse` makes are strictly increasing and at most
`args.size() - index + 1` many, so the recursion ends after at most
`args.size() - index` steps, with a return value or an exception: at the
end-of-tokens case, or earlier at a token that ends the parse (an option that
does not resolve, an exception of `std::stoi`); it ends at the end-of-tokens
case when no token ends the parse. -/
theorem Parse_terminates (p : ArgParser) (args : List Str) (index : Nat) :
    (∀ q j q1 j1, j < args.length → ParseToken q args j = .next q1 j1 →
        j < j1 ∧ j1 ≤ args.length) ∧
      (∀ q j, j < args.length → beginsWithHyphen (args.getD j []) = false →
        ∃ more j1, ParseToken q args j
          = .next { q with positional_arguments_ :=
              q.positional_arguments_ ++ (j, args.getD j []) :: more } j1) ∧
      (∀ fuel, ParseTrace fuel p args index
          = (ParseFuel fuel p args index, ParseCalls fuel p args index) ∧
        (ParseCalls fuel p args index).Pairwise (· < ·) ∧
        (ParseCalls fuel p args index).length ≤ args.length - index + 1) ∧
      (∀ fuel, args.length - index + 1 ≤ fuel →
        ParseFuel fuel p args index = Parse p args index ∧
          ParseCalls fuel p args index
            = ParseCalls (args.length - index + 1) p args index) ∧
      (Parse p args index).outcome ≠ .out_of_fuel ∧
      (∃ j q, (ParseCalls (args.length - index + 1) p args index).getLast? = some j ∧
        ((args.length ≤ j ∧ Parse p args index = ParseEnd q) ∨
          (j < args.length ∧ ParseToken q args j = .stop (Parse p args index)))) ∧
      (tokensProcessed p args index = true →
        ∃ j, (ParseCalls (args.length - index + 1) p args index).getLast? = some j ∧
          args.length ≤ j) := by
  refine ⟨?_, ?_, ?_, ?_, ?_, ?_, ?_⟩
  · intro q j q1 j1 hj hs
    have hok := ParseToken_ok q args j hj
    rw [hs] at hok
    exact ⟨hok.2.1, hok.2.2.1⟩
  · intro q j hj hb
    obtain ⟨more, j1, hs, _⟩ := ParseToken_buffer_bare q args j hj hb
    exact ⟨more, j1, hs⟩
  · intro fuel
    obtain ⟨h1, _, h3⟩ := ParseCalls_bound fuel args p index
    exact ⟨ParseTrace_eq fuel args p index, h1, h3⟩
  · intro fuel hf
    exact ⟨ParseFuel_fuel _ _ _ _ _ hf (le_refl _),
      ParseCalls_fuel fuel args _ p index hf (le_refl _)⟩
  · exact ParseFuel_returns _ args p index (le_refl _)
  · exact ParseCalls_end _ args p index (le_refl _)
  · intro h
    unfold tokensProcessed at h
    obtain ⟨p1, hp1⟩ := Option.isSome_iff_exists.1 h
    exact ParseCalls_last _ args p p1 index hp1

/-- C22 (amended), on the end-to-end example: `Parse(args, 1)` makes its calls at
the token indices 1, 3, 4 and 6, the last one the end-of-tokens case, and it
ends with a return value. -/
theorem Parse_terminates_witness :
    ParseCalls (exampleArgs.length - 1 + 1) exampleParser exampleArgs 1 = [1, 3, 4, 6] ∧
      exampleArgs.length = 6 ∧
      (Parse exampleParser exampleArgs 1).outcome ≠ .out_of_fuel :=
  ⟨by decide, by decide, (Parse_terminates exampleParser exampleArgs 1).2.2.2.2.1⟩

theorem Parse_walk_front (front rest : List Str) (fuel : Nat)
    (hr : ∀ t, rest.head? = some t → beginsWithHyphen t = true) :
    ∀ (p p1 : ArgParser) (index : Nat), index ≤ front.length →
      ParseTokens fuel p front index = some p1 →
      Parse p (front ++ rest) index = Parse p1 (front ++ rest) front.length ∧
        ParserEvolves p p1 := by
  induction fuel with
  | zero =>
    intro p p1 index _ h
    simp [ParseTokens] at h
  | succ fuel ih =>
    intro p p1 index hle h
    by_cases hi : index = front.length
    · subst hi
      simp [ParseTokens] at h
      subst h
      exact ⟨rfl, ParserEvolves_refl p⟩
    · have hlt : index < front.length := by omega
      have hf := ParseToken_frame front [] rest p index hlt
        (by intro t ht; cases ht) hr
      rw [List.append_nil] at hf
      cases hs : ParseToken p front index with
      | stop r =>
        rw [ParseTokens] at h
        simp [Nat.not_le.2 hlt, hs] at h
      | next p2 i2 =>
        rw [ParseTokens_next _ _ _ _ _ _ hlt hs] at h
        have hok := ParseToken_ok p front index hlt
        rw [hs] at hok
        rw [Parse_next p p2 _ index i2 (by simp; omega) (hf.symm.trans hs)]
        obtain ⟨h1, h2⟩ := ih p2 p1 i2 hok.2.2.1 h
        exact ⟨h1, ParserEvolves_trans hok.1 h2⟩

theorem getD_append_length (front : List Str) (token : Str) (s : List Str) :
    (front ++ token :: s).getD front.length [] = token := by
  rw [List.getD_eq_getElem?_getD, List.getElem?_append_right (le_refl _)]
  simp

theorem unresolvedName_evolves {p p1 : ArgParser} (h : ParserEvolves p p1) (c : Char) :
    unresolvedName p1 c = unresolvedName p c := by
  unfold unresolvedName
  rw [h.2]

theorem ParseShortInline_at_unknown (value : Str) (index : Nat) (c : Char) (post : List Char)
    (pre : List Char) :
    ∀ (p p2 : ArgParser) (i2 : Nat), ParseShortInline value index pre p = .next p2 i2 →
      unknownShort p c = true →
      ParseShortInline value index (pre ++ c :: post) p
        = unknownArgument p2 (unresolvedName p c) := by
  induction pre with
  | nil =>
    intro p p2 i2 hs hu
    simp only [ParseShortInline, Step.next.injEq] at hs
    obtain ⟨hp, _⟩ := hs
    subst hp
    simp only [List.nil_append, ParseShortInline, unresolvedName]
    unfold unknownShort at hu
    cases hl : p.short_names_.lookup c with
    | none => rfl
    | some name =>
      simp only [hl, Option.isNone_iff_eq_none] at hu
      simp only [hu]
  | cons x pre ih =>
    intro p p2 i2 hs hu
    simp only [ParseShortInline] at hs
    simp only [List.cons_append, ParseShortInline]
    cases hl : p.short_names_.lookup x with
    | none => simp [hl, unknownArgument] at hs
    | some name =>
      simp only [hl] at hs ⊢
      cases hg : GetArgument p.arguments_ name with
      | none => simp [hg, unknownArgument] at hs
      | some argument =>
        simp only [hg] at hs ⊢
        cases hv : argument.SetValue value with
        | raised e b => simp [hv, raise] at hs
        | done b =>
          simp only [hv] at hs ⊢
          have hev := ParserEvolves_store p name argument b hg
            ((SetValue_evolves argument value).1 b hv)
          show ParseShortInline value index (pre ++ c :: post) (p.store name b) = _
          rw [ih (p.store name b) p2 i2 hs (by rw [unknownShort_evolves hev]; exact hu),
            unresolvedName_evolves hev]

theorem ParseShortCluster_at_unknown (args : List Str) (c : Char) (post : List Char)
    (pre : List Char) :
    ∀ (p p2 : ArgParser) (index i2 : Nat), ParseShortCluster args pre p index = .next p2 i2 →
      unknownShort p c = true →
      ParseShortCluster args (pre ++ c :: post) p index
        = unknownArgument p2 (unresolvedName p c) := by
  induction pre with
  | nil =>
    intro p p2 index i2 hs hu
    simp only [ParseShortCluster, Step.next.injEq] at hs
    obtain ⟨hp, _⟩ := hs
    subst hp
    simp only [List.nil_append, ParseShortCluster, unresolvedName]
    unfold unknownShort at hu
    cases hl : p.short_names_.lookup c with
    | none => rfl
    | some name =>
      simp only [hl, Option.isNone_iff_eq_none] at hu
      simp only [hu]
  | cons x pre ih =>
    intro p p2 index i2 hs hu
    simp only [ParseShortCluster] at hs
    simp only [List.cons_append, ParseShortCluster]
    cases hl : p.short_names_.lookup x with
    | none => simp [hl, unknownArgument] at hs
    | some name =>
      simp only [hl] at hs ⊢
      cases hg : GetArgument p.arguments_ name with
      | none => simp [hg, unknownArgument] at hs
      | some argument =>
        simp only [hg] at hs ⊢
        cases hv : takeValues argument args index with
        | raised e r =>
          obtain ⟨b, j⟩ := r
          simp [hv, raise] at hs
        | done r =>
          obtain ⟨b, j⟩ := r
          simp only [hv] at hs ⊢
          have hev := ParserEvolves_store p name argument b hg
            ((takeValues_spec args argument index).1 b j hv).1
          show ParseShortCluster args (pre ++ c :: post) (p.store name b) j = _
          rw [ih (p.store name b) p2 j i2 hs (by rw [unknownShort_evolves hev]; exact hu),
            unresolvedName_evolves hev]

theorem ParseShort_at_unknown (p p2 : ArgParser) (args : List Str) (index i2 : Nat)
    (names pre post : List Char) (c : Char)
    (hc : beforeEq names = pre ++ c :: post)
    (hu : unknownShort p c = true)
    (hs : ParseShort p args index (pre ++ names.drop (beforeEq names).length) = .next p2 i2) :
    ParseShort p args index names = unknownArgument p2 (unresolvedName p c) := by
  have hpre : '=' ∉ pre := by
    have := beforeEq_no_eq names
    rw [hc] at this
    intro h
    exact this (by simp [h])
  unfold ParseShort at hs ⊢
  unfold beforeEq at hc
  cases hk : find '=' names with
  | none =>
    simp only [hk] at hc ⊢
    have hd : names.drop (beforeEq names).length = [] := by
      unfold beforeEq
      simp [hk]
    rw [hd, List.append_nil, (find_eq_none_iff _ _).2 hpre] at hs
    simp only at hs
    rw [hc]
    exact ParseShortCluster_at_unknown args c post pre p p2 index i2 hs hu
  | some k =>
    simp only [hk] at hc ⊢
    have hlt := (find_some_lt _ _ _ hk).1
    have hlen : (beforeEq names).length = k := by
      unfold beforeEq
      simp only [hk, List.length_take]
      omega
    have hd : names.drop k = '=' :: names.drop (k + 1) := by
      have hget : names.getD k 'x' = '=' := by
        clear hs hc hlen hpre hu
        induction names generalizing k with
        | nil => simp [find] at hk
        | cons y rest ih =>
          by_cases hy : y = '='
          · simp [find, hy] at hk
            subst hk
            simp [hy]
          · simp only [find, hy, if_false, Option.map_eq_some'] at hk
            obtain ⟨k1, hk1, hk2⟩ := hk
            subst hk2
            have := ih k1 hk1 (by simp at hlt; omega)
            simpa using this
      rw [List.getD_eq_getElem?_getD, List.getElem?_eq_getElem hlt] at hget
      simp only [Option.getD_some] at hget
      rw [← hget]
      exact List.drop_eq_getElem_cons hlt
    rw [hlen, hd, find_append _ _ _ hpre] at hs
    simp only [List.take_left', List.drop_left'] at hs
    have e1 : (pre ++ '=' :: names.drop (k + 1)).take pre.length = pre := by simp
    have e2 : (pre ++ '=' :: names.drop (k + 1)).drop (pre.length + 1)
        = names.drop (k + 1) := by
      rw [show pre ++ '=' :: names.drop (k + 1) = (pre ++ ['=']) ++ names.drop (k + 1) by simp]
      exact List.drop_left' (by simp)
    rw [e2] at hs
    rw [hc]
    exact ParseShortInline_at_unknown _ index c post pre p p2 i2 hs hu

/-- C4 (amended): for every parser and every token sequence that contains, at an
index at or after the start index, a token beginning with `--` whose name is
not registered, or a token beginning with a single `-` whose cluster contains a
character that does not resolve, `Parse` does not succeed, wherever the token
stands and also when a help flag is registered and `--help` is among the
tokens. It returns false and reports the unknown argument whenever everything
before the unresolved name is processed without failure: the tokens before the
token and, in a cluster, the characters before the unresolved character.
Otherwise an earlier unresolved name makes it return false, or an exception of
`std::stoi`, raised by a value that an Int argument is handed before the
unresolved name is looked up, leaves `Parse`. -/
theorem Parse_unknown_option (p : ArgParser) (front s : List Str) (token : Str) (index : Nat)
    (hle : index ≤ front.length) (hu : unknownToken p token = true) :
    ((Parse p (front ++ token :: s) index).outcome = .returned false ∨
        ∃ e, (Parse p (front ++ token :: s) index).outcome = .raised e ∧
          (e = .invalid_argument ∨ e = .out_of_range)) ∧
      (∀ p1, ParseTokens (front.length - index + 1) p front index = some p1 →
        (∀ text, token = '-' :: '-' :: text →
          Parse p (front ++ token :: s) index
            = { parser := p1, cerr := some (.unknown_argument (beforeEq text)),
                outcome := .returned false }) ∧
        (∀ (names pre post : List Char) (c : Char) (p2 : ArgParser) (i2 : Nat),
          token = '-' :: names → (∀ text, names ≠ '-' :: text) →
          beforeEq names = pre ++ c :: post → unknownShort p c = true →
          ParseShort p1 (front ++ token :: s) front.length
            (pre ++ names.drop (beforeEq names).length) = .next p2 i2 →
          Parse p (front ++ token :: s) index
            = { parser := p2, cerr := some (.unknown_argument (unresolvedName p c)),
                outcome := .returned false })) := by
  have hget := getD_append_length front token s
  have hlen : front.length < (front ++ token :: s).length := by simp
  refine ⟨?_, ?_⟩
  · exact ParseFuel_unknown _ p (front ++ token :: s) index (le_refl _)
      ⟨front.length, hle, hlen, by rw [hget]; exact hu⟩
  · intro p1 hp1
    have hhead : ∀ t, (token :: s).head? = some t → beginsWithHyphen t = true := by
      intro t ht
      simp only [List.head?_cons, Option.some.injEq] at ht
      subst ht
      exact unknownToken_hyphen p _ hu
    obtain ⟨hwalk, hev⟩ := Parse_walk_front front (token :: s) _ hhead p p1 index hle hp1
    refine ⟨?_, ?_⟩
    · intro text ht
      subst ht
      have hnone : GetArgument p1.arguments_ (beforeEq text) = none := by
        have h1 := GetArgument_isNone_evolves hev (beforeEq text)
        have h2 : (GetArgument p.arguments_ (beforeEq text)).isNone = true := by
          simpa [unknownToken] using hu
        rw [h2] at h1
        simpa using h1
      rw [hwalk]
      exact Parse_stop p1 _ _ _ hlen
        (by rw [ParseToken_long p1 _ _ text hget, ParseLong_unknown p1 _ _ text hnone]
            rfl)
    · intro names pre post c p2 i2 ht hnn hc huc hs
      subst ht
      rw [hwalk]
      have huc1 : unknownShort p1 c = true := by
        rw [unknownShort_evolves hev]
        exact huc
      exact Parse_stop p1 _ _ _ hlen
        (by rw [ParseToken_short p1 _ _ names hget hnn,
              ParseShort_at_unknown p1 p2 _ _ i2 names pre post c hc huc1 hs,
              unresolvedName_evolves hev]
            rfl)

theorem sharesWith_owned_left (x : Bound) : sharesWith Bound.owned x = false := by
  simp [sharesWith, Bound.owned, sameAddress]

theorem sameAddress_symm (x y : Option Nat) : sameAddress x y = sameAddress y x := by
  cases x <;> cases y <;> simp [sameAddress, eq_comm]

theorem sharesWith_symm (x y : Bound) : sharesWith x y = sharesWith y x := by
  simp [sharesWith, sameAddress_symm x.value_at, sameAddress_symm x.multi_value_at]

theorem shareWith_of_not_shares (written : Bound) (a : BaseArgument) (bd : Bound)
    (b : BaseArgument) (h : sharesWith written bd = false) : shareWith written a bd b = b := by
  simp only [sharesWith, Bool.or_eq_false_iff] at h
  unfold shareWith
  cases a <;> cases b <;> simp [h.1, h.2]

theorem shareWith_self (w : Bound) (a : BaseArgument) : shareWith w a w a = a := by
  unfold shareWith
  cases a <;> simp only <;> (repeat' split) <;> rfl

theorem shapeOf_shareWith (written : Bound) (a : BaseArgument) (bd : Bound)
    (b : BaseArgument) : shapeOf (shareWith written a bd b) = shapeOf b := by
  unfold shareWith
  cases a <;> cases b <;> simp only <;> (repeat' split) <;> rfl

theorem shareAll_keys (written : Bound) (a : BaseArgument) (l : List (Str × BaseArgument)) :
    ∀ bounds, (shareAll written a l bounds).map (fun x => (x.1, shapeOf x.2))
      = l.map (fun x => (x.1, shapeOf x.2)) := by
  induction l with
  | nil => intro bounds; cases bounds <;> rfl
  | cons x rest ih =>
    intro bounds
    obtain ⟨n, b⟩ := x
    cases bounds with
    | nil => rfl
    | cons bd bs =>
      simp only [shareAll, List.map_cons, shapeOf_shareWith, ih bs]

theorem keys_names (ls lc : List (Str × BaseArgument))
    (h : ls.map (fun x => (x.1, shapeOf x.2)) = lc.map (fun x => (x.1, shapeOf x.2))) :
    ls.map Prod.fst = lc.map Prod.fst := by
  have := congrArg (List.map Prod.fst) h
  simpa [List.map_map, Function.comp] using this

theorem shareAll_names (written : Bound) (a : BaseArgument) (l : List (Str × BaseArgument))
    (bounds : List Bound) : (shareAll written a l bounds).map Prod.fst = l.map Prod.fst :=
  keys_names _ _ (shareAll_keys written a l bounds)

theorem StoreArgument_names (l : List (Str × BaseArgument)) (name : Str) (a : BaseArgument) :
    (StoreArgument l name a).map Prod.fst = l.map Prod.fst := by
  induction l with
  | nil => rfl
  | cons x rest ih =>
    obtain ⟨n, b⟩ := x
    by_cases hn : n = name
    · simp [StoreArgument, hn]
    · simp [StoreArgument, hn, ih]

theorem GetArgument_shareAll (written : Bound) (a : BaseArgument) (nm : Str)
    (l : List (Str × BaseArgument)) :
    ∀ bounds, sharesWith written (GetBound (l.map Prod.fst) bounds nm) = false →
      GetArgument (shareAll written a l bounds) nm = GetArgument l nm := by
  induction l with
  | nil => intro bounds _; cases bounds <;> rfl
  | cons x rest ih =>
    intro bounds h
    obtain ⟨n, b⟩ := x
    cases bounds with
    | nil => rfl
    | cons bd bs =>
      simp only [List.map_cons, GetBound] at h
      simp only [shareAll, GetArgument]
      by_cases hn : n = nm
      · simp only [hn, if_true] at h ⊢
        rw [shareWith_of_not_shares _ _ _ _ h]
      · simp only [hn, if_false] at h ⊢
        exact ih bs h

theorem GetBound_mem (names : List Str) (name : Str) :
    ∀ bounds, GetBound names bounds name ∈ bounds ∨ GetBound names bounds name = Bound.owned := by
  induction names with
  | nil => intro bounds; right; cases bounds <;> rfl
  | cons n names ih =>
    intro bounds
    cases bounds with
    | nil => right; rfl
    | cons bd bs =>
      simp only [GetBound]
      by_cases hn : n = name
      · simp [hn]
      · simp only [hn, if_false]
        rcases ih bs with h | h
        · left; exact List.mem_cons_of_mem _ h
        · right; exact h

theorem unshared_spec (nm name : Str) (hne : name ≠ nm) (names : List Str) :
    ∀ bounds, unshared nm names bounds = true →
      sharesWith (GetBound names bounds name) (GetBound names bounds nm) = false := by
  induction names with
  | nil => intro bounds _; cases bounds <;> exact sharesWith_owned_left _
  | cons n names ih =>
    intro bounds h
    cases bounds with
    | nil => exact sharesWith_owned_left _
    | cons bd bs =>
      simp only [unshared] at h
      simp only [GetBound]
      by_cases hn : n = nm
      · have hn2 : n ≠ name := fun e => hne (e.symm.trans hn)
        simp only [hn, if_true, List.all_eq_true, Bool.not_eq_true'] at h
        simp only [hn, if_true, hn ▸ hn2, if_false]
        rcases GetBound_mem names name bs with hm | hm
        · exact h _ hm
        · rw [hm]; exact sharesWith_owned_left _
      · simp only [hn, if_false, Bool.and_eq_true, Bool.not_eq_true'] at h ⊢
        by_cases hn2 : n = name
        · simp only [hn2, if_true]
          exact h.1
        · simp only [hn2, if_false]
          exact ih bs h.2

theorem GetArgument_shareAll_store (a : BaseArgument) (nm : Str)
    (l : List (Str × BaseArgument)) :
    ∀ bounds, (GetArgument l nm).isSome = true →
      GetArgument (shareAll (GetBound (l.map Prod.fst) bounds nm) a
        (StoreArgument l nm a) bounds) nm = some a := by
  induction l with
  | nil => intro bounds h; simp [GetArgument] at h
  | cons x rest ih =>
    intro bounds h
    obtain ⟨n, b⟩ := x
    cases bounds with
    | nil =>
      by_cases hn : n = nm
      · simp [shareAll, StoreArgument, GetArgument, hn]
      · simp only [GetArgument, hn, if_false] at h
        obtain ⟨a0, ha0⟩ := Option.isSome_iff_exists.1 h
        have := GetArgument_store rest nm nm a0 a ha0
        simp only [if_true] at this
        simp [shareAll, StoreArgument, GetArgument, hn, this]
    | cons bd bs =>
      by_cases hn : n = nm
      · simp [shareAll, StoreArgument, GetArgument, GetBound, hn, shareWith_self]
      · simp only [GetArgument, hn, if_false] at h
        simp only [List.map_cons, GetBound, hn, if_false, StoreArgument, shareAll, GetArgument]
        exact ih bs h

theorem shapeOf_ValuesCount (a b : BaseArgument) (h : shapeOf a = shapeOf b) :
    a.ValuesCount = b.ValuesCount ∧ a.IsPositional = b.IsPositional := by
  cases a <;> cases b <;> simp [shapeOf] at h <;>
    simp [BaseArgument.ValuesCount, BaseArgument.IsPositional, StringArgument.ValuesCount,
      IntArgument.ValuesCount, FlagArgument.ValuesCount, StringArgument.IsPositional,
      IntArgument.IsPositional, FlagArgument.IsPositional, h]

theorem shapeOf_SetValue (a b : BaseArgument) (value : Str) (h : shapeOf a = shapeOf b) :
    (a.SetValue value).failure = (b.SetValue value).failure ∧
      shapeOf (a.SetValue value).state = shapeOf a ∧
      shapeOf (b.SetValue value).state = shapeOf b := by
  cases a with
  | flag f =>
    cases b with
    | flag g => simp [BaseArgument.SetValue, Result.failure, Result.state, shapeOf]
    | string g => simp [shapeOf] at h
    | int g => simp [shapeOf] at h
  | string f =>
    cases b with
    | flag g => simp [shapeOf] at h
    | string g =>
      simp only [BaseArgument.SetValue, Result.failure, Result.state, shapeOf,
        StringArgument.SetValue, true_and]
      constructor <;> split <;> rfl
    | int g => simp [shapeOf] at h
  | int f =>
    cases b with
    | flag g => simp [shapeOf] at h
    | string g => simp [shapeOf] at h
    | int g =>
      simp only [shapeOf, Prod.mk.injEq, true_and] at h
      simp only [BaseArgument.SetValue, IntArgument.SetValue, h.2.1]
      by_cases hm : g.is_multi_value_ = true <;> cases hv : stoi value <;>
        simp [hm, hv, Result.failure, Result.state, shapeOf, h.2.1]

theorem shapeOf_consumeValues (rest : List Str) :
    ∀ (a b : BaseArgument) (index : Nat) (count : Int), shapeOf a = shapeOf b →
      (consumeValues a index count rest).failure = (consumeValues b index count rest).failure ∧
        shapeOf (consumeValues a index count rest).state.1
          = shapeOf (consumeValues b index count rest).state.1 ∧
        (consumeValues a index count rest).state.2 = (consumeValues b index count rest).state.2 ∧
        shapeOf (consumeValues a index count rest).state.1 = shapeOf a := by
  induction rest with
  | nil => intro a b index count h; simp [consumeValues, Result.failure, Result.state, h]
  | cons token rest ih =>
    intro a b index count h
    simp only [consumeValues]
    split
    · obtain ⟨h1, h2, h3⟩ := shapeOf_SetValue a b token h
      cases ha : a.SetValue token with
      | done a1 =>
        cases hb : b.SetValue token with
        | done b1 =>
          rw [ha] at h2
          rw [hb] at h3
          simp only [Result.state] at h2 h3
          obtain ⟨i1, i2, i3, i4⟩ := ih a1 b1 (index + 1) (count - 1) (by rw [h2, h3, h])
          exact ⟨i1, i2, i3, by rw [i4, h2]⟩
        | raised e b1 => rw [ha, hb] at h1; simp [Result.failure] at h1
      | raised e a1 =>
        cases hb : b.SetValue token with
        | done b1 => rw [ha, hb] at h1; simp [Result.failure] at h1
        | raised e1 b1 =>
          rw [ha, hb] at h1
          rw [ha] at h2
          rw [hb] at h3
          simp only [Result.failure, Option.some.injEq] at h1
          simp only [Result.state] at h2 h3
          simp [Result.failure, Result.state, h1, h2, h3, h]
    · simp [Result.failure, Result.state, h]

theorem shapeOf_takeValues (args : List Str) (a b : BaseArgument) (index : Nat)
    (h : shapeOf a = shapeOf b) :
    (takeValues a args index).failure = (takeValues b args index).failure ∧
      shapeOf (takeValues a args index).state.1 = shapeOf (takeValues b args index).state.1 ∧
      (takeValues a args index).state.2 = (takeValues b args index).state.2 ∧
      shapeOf (takeValues a args index).state.1 = shapeOf a := by
  unfold takeValues
  simp only [(shapeOf_ValuesCount a b h).1]
  split
  · obtain ⟨h1, h2, h3⟩ := shapeOf_SetValue a b [] h
    cases ha : a.SetValue [] with
    | done a1 =>
      cases hb : b.SetValue [] with
      | done b1 =>
        rw [ha] at h2
        rw [hb] at h3
        simp only [Result.state] at h2 h3
        obtain ⟨i1, i2, i3, i4⟩ := shapeOf_consumeValues (args.drop (index + 1)) a1 b1 index
          b.ValuesCount (by rw [h2, h3, h])
        exact ⟨i1, i2, i3, by rw [i4, h2]⟩
      | raised e b1 => rw [ha, hb] at h1; simp [Result.failure] at h1
    | raised e a1 =>
      cases hb : b.SetValue [] with
      | done b1 => rw [ha, hb] at h1; simp [Result.failure] at h1
      | raised e1 b1 =>
        rw [ha, hb] at h1
        rw [ha] at h2
        rw [hb] at h3
        simp only [Result.failure, Option.some.injEq] at h1
        simp only [Result.state] at h2 h3
        simp [Result.failure, Result.state, h1, h2, h3, h]
  · exact shapeOf_consumeValues _ a b index _ h

theorem keys_GetArgument (name : Str) (ls : List (Str × BaseArgument)) :
    ∀ lc, ls.map (fun x => (x.1, shapeOf x.2)) = lc.map (fun x => (x.1, shapeOf x.2)) →
      (GetArgument ls name).map shapeOf = (GetArgument lc name).map shapeOf := by
  induction ls with
  | nil =>
    intro lc h
    cases lc with
    | nil => rfl
    | cons y lc => simp at h
  | cons x ls ih =>
    intro lc h
    cases lc with
    | nil => simp at h
    | cons y lc =>
      obtain ⟨n, b⟩ := x
      obtain ⟨m, c⟩ := y
      simp only [List.map_cons, List.cons.injEq, Prod.mk.injEq] at h
      obtain ⟨⟨hnm, hs⟩, ht⟩ := h
      subst hnm
      simp only [GetArgument]
      by_cases hn : n = name
      · simp [hn, hs]
      · simp only [hn, if_false]
        exact ih lc ht

theorem keys_StoreArgument (name : Str) (a b : BaseArgument) (h : shapeOf a = shapeOf b)
    (ls : List (Str × BaseArgument)) :
    ∀ lc, ls.map (fun x => (x.1, shapeOf x.2)) = lc.map (fun x => (x.1, shapeOf x.2)) →
      (StoreArgument ls name a).map (fun x => (x.1, shapeOf x.2))
        = (StoreArgument lc name b).map (fun x => (x.1, shapeOf x.2)) := by
  induction ls with
  | nil =>
    intro lc hk
    cases lc with
    | nil => rfl
    | cons y lc => simp at hk
  | cons x ls ih =>
    intro lc hk
    cases lc with
    | nil => simp at hk
    | cons y lc =>
      obtain ⟨n, b0⟩ := x
      obtain ⟨m, c0⟩ := y
      simp only [List.map_cons, List.cons.injEq, Prod.mk.injEq] at hk
      obtain ⟨⟨hnm, hs⟩, ht⟩ := hk
      subst hnm
      simp only [StoreArgument]
      by_cases hn : n = name
      · simp [hn, h, ht]
      · simp [hn, hs, ih lc ht]

theorem PSim_refl (nm : Str) (p : ArgParser) : PSim (p.arguments_.map Prod.fst) nm p p :=
  ⟨⟨rfl, rfl⟩, rfl, rfl, rfl⟩

theorem storeShared_sim (bounds : List Bound) (names : List Str) (nm name : Str)
    (ps pc : ArgParser) (a0 a b : BaseArgument)
    (hsim : PSim names nm ps pc) (hu : unshared nm names bounds = true)
    (hg : GetArgument ps.arguments_ name = some a0)
    (hab : shapeOf a = shapeOf b) (heq : name = nm → a = b) :
    PSim names nm (ps.storeShared bounds name a) (pc.store name b) := by
  obtain ⟨⟨hk, hget⟩, hshort, hbuf, hnames⟩ := hsim
  have hgc : (GetArgument pc.arguments_ name).isSome = true := by
    have := keys_GetArgument name _ _ hk
    rw [hg] at this
    cases hc : GetArgument pc.arguments_ name with
    | none => rw [hc] at this; simp at this
    | some c => rfl
  obtain ⟨c0, hc0⟩ := Option.isSome_iff_exists.1 hgc
  refine ⟨⟨?_, ?_⟩, hshort, hbuf, ?_⟩
  · simp only [ArgParser.storeShared, ArgParser.store]
    rw [shareAll_keys]
    exact keys_StoreArgument name a b hab _ _ hk
  · simp only [ArgParser.storeShared, ArgParser.store]
    by_cases hn : name = nm
    · subst hn
      rw [GetArgument_shareAll_store a name ps.arguments_ bounds (by rw [hg]; rfl),
        GetArgument_store _ _ _ _ _ hc0, if_pos rfl, heq rfl]
    · rw [GetArgument_shareAll _ _ _ _ _
          (by rw [StoreArgument_names, hnames]
              exact unshared_spec nm name hn names bounds hu),
        GetArgument_store _ _ _ _ _ hg, GetArgument_store _ _ _ _ _ hc0,
        if_neg (fun e => hn e.symm), if_neg (fun e => hn e.symm)]
      exact hget
  · simp only [ArgParser.storeShared]
    rw [shareAll_names, StoreArgument_names]
    exact hnames

theorem Sim_get (names : List Str) (nm name : Str) (ps pc : ArgParser)
    (hsim : PSim names nm ps pc) :
    (GetArgument ps.arguments_ name = none ∧ GetArgument pc.arguments_ name = none) ∨
      ∃ a b, GetArgument ps.arguments_ name = some a ∧ GetArgument pc.arguments_ name = some b ∧
        shapeOf a = shapeOf b ∧ (name = nm → a = b) := by
  have hk := keys_GetArgument name _ _ hsim.1.1
  cases hs : GetArgument ps.arguments_ name with
  | none =>
    cases hc : GetArgument pc.arguments_ name with
    | none => exact Or.inl ⟨rfl, rfl⟩
    | some b => rw [hs, hc] at hk; simp at hk
  | some a =>
    cases hc : GetArgument pc.arguments_ name with
    | none => rw [hs, hc] at hk; simp at hk
    | some b =>
      rw [hs, hc] at hk
      simp only [Option.map_some', Option.some.injEq] at hk
      refine Or.inr ⟨a, b, rfl, rfl, hk, ?_⟩
      intro hn
      subst hn
      have := hsim.1.2
      rw [hs, hc] at this
      exact Option.some.inj this

theorem SetValue_sim (bounds : List Bound) (names : List Str) (nm name : Str)
    (ps pc : ArgParser) (a b : BaseArgument) (value : Str)
    (hsim : PSim names nm ps pc) (hu : unshared nm names bounds = true)
    (hga : GetArgument ps.arguments_ name = some a)
    (hab : shapeOf a = shapeOf b) (heq : name = nm → a = b) :
    (∀ a1, a.SetValue value = .done a1 → ∃ b1, b.SetValue value = .done b1 ∧
        PSim names nm (ps.storeShared bounds name a1) (pc.store name b1)) ∧
      (∀ e a1, a.SetValue value = .raised e a1 → ∃ b1, b.SetValue value = .raised e b1 ∧
        PSim names nm (ps.storeShared bounds name a1) (pc.store name b1)) := by
  obtain ⟨h1, h2, h3⟩ := shapeOf_SetValue a b value hab
  refine ⟨?_, ?_⟩
  · intro a1 ha
    cases hb : b.SetValue value with
    | raised e b1 => rw [ha, hb] at h1; simp [Result.failure] at h1
    | done b1 =>
      rw [ha] at h2
      rw [hb] at h3
      simp only [Result.state] at h2 h3
      refine ⟨b1, rfl, storeShared_sim bounds names nm name ps pc a a1 b1 hsim hu hga
        (by rw [h2, h3, hab]) ?_⟩
      intro hn
      have := heq hn
      subst this
      rw [ha] at hb
      exact Result.done.inj hb
  · intro e a1 ha
    cases hb : b.SetValue value with
    | done b1 => rw [ha, hb] at h1; simp [Result.failure] at h1
    | raised e1 b1 =>
      rw [ha, hb] at h1
      rw [ha] at h2
      rw [hb] at h3
      simp only [Result.failure, Option.some.injEq] at h1
      simp only [Result.state] at h2 h3
      subst h1
      refine ⟨b1, rfl, storeShared_sim bounds names nm name ps pc a a1 b1 hsim hu hga
        (by rw [h2, h3, hab]) ?_⟩
      intro hn
      have := heq hn
      subst this
      rw [ha] at hb
      exact (Result.raised.inj hb).2

theorem takeValues_sim (bounds : List Bound) (names : List Str) (nm name : Str)
    (ps pc : ArgParser) (a b : BaseArgument) (args : List Str) (index : Nat)
    (hsim : PSim names nm ps pc) (hu : unshared nm names bounds = true)
    (hga : GetArgument ps.arguments_ name = some a)
    (hab : shapeOf a = shapeOf b) (heq : name = nm → a = b) :
    (∀ a1 i1, takeValues a args index = .done (a1, i1) →
        ∃ b1, takeValues b args index = .done (b1, i1) ∧
          PSim names nm (ps.storeShared bounds name a1) (pc.store name b1)) ∧
      (∀ e a1 i1, takeValues a args index = .raised e (a1, i1) →
        ∃ b1 j1, takeValues b args index = .raised e (b1, j1) ∧
          PSim names nm (ps.storeShared bounds name a1) (pc.store name b1)) := by
  obtain ⟨h1, h2, h3, h4⟩ := shapeOf_takeValues args a b index hab
  refine ⟨?_, ?_⟩
  · intro a1 i1 ha
    cases hb : takeValues b args index with
    | raised e r => rw [ha, hb] at h1; simp [Result.failure] at h1
    | done r =>
      obtain ⟨b1, j1⟩ := r
      rw [ha, hb] at h2 h3
      rw [ha] at h4
      simp only [Result.state] at h2 h3 h4
      subst h3
      refine ⟨b1, rfl, storeShared_sim bounds names nm name ps pc a a1 b1 hsim hu hga h2 ?_⟩
      intro hn
      have := heq hn
      subst this
      rw [ha] at hb
      simp only [Result.done.injEq, Prod.mk.injEq] at hb
      exact hb.1
  · intro e a1 i1 ha
    cases hb : takeValues b args index with
    | done r => rw [ha, hb] at h1; simp [Result.failure] at h1
    | raised e1 r =>
      obtain ⟨b1, j1⟩ := r
      rw [ha, hb] at h1 h2
      simp only [Result.failure, Option.some.injEq] at h1
      simp only [Result.state] at h2
      subst h1
      refine ⟨b1, j1, rfl, storeShared_sim bounds names nm name ps pc a a1 b1 hsim hu hga h2 ?_⟩
      intro hn
      have := heq hn
      subst this
      rw [ha] at hb
      simp only [Result.raised.injEq, Prod.mk.injEq, true_and] at hb
      exact hb.1

theorem StepSim_unknown (names : List Str) (nm name : Str) (ps pc : ArgParser)
    (hsim : PSim names nm ps pc) :
    StepSim names nm (unknownArgument ps name) (unknownArgument pc name) :=
  ⟨rfl, rfl, hsim⟩

theorem StepSim_raise (names : List Str) (nm : Str) (ps pc : ArgParser) (e : Failure)
    (hsim : PSim names nm ps pc) : StepSim names nm (raise ps e) (raise pc e) :=
  ⟨rfl, rfl, hsim⟩

theorem ParseLongShared_sim (bounds : List Bound) (names : List Str) (nm : Str)
    (ps pc : ArgParser) (args : List Str) (index : Nat) (text : Str)
    (hsim : PSim names nm ps pc) (hu : unshared nm names bounds = true) :
    StepSim names nm (ParseLongShared bounds ps args index text)
      (ParseLong pc args index text) := by
  unfold ParseLongShared ParseLong
  cases hk : find '=' text with
  | some k =>
    simp only
    rcases Sim_get names nm (text.take k) ps pc hsim with ⟨h1, h2⟩ | ⟨a, b, h1, h2, hab, heq⟩
    · rw [h1, h2]
      exact StepSim_unknown names nm _ ps pc hsim
    · rw [h1, h2]
      simp only
      have hv := SetValue_sim bounds names nm (text.take k) ps pc a b (text.drop (k + 1))
        hsim hu h1 hab heq
      cases ha : a.SetValue (text.drop (k + 1)) with
      | done a1 =>
        obtain ⟨b1, hb, hs⟩ := hv.1 a1 ha
        rw [hb]
        exact ⟨rfl, hs⟩
      | raised e a1 =>
        obtain ⟨b1, hb, hs⟩ := hv.2 e a1 ha
        rw [hb]
        exact StepSim_raise names nm _ _ e hs
  | none =>
    simp only
    rcases Sim_get names nm text ps pc hsim with ⟨h1, h2⟩ | ⟨a, b, h1, h2, hab, heq⟩
    · rw [h1, h2]
      exact StepSim_unknown names nm _ ps pc hsim
    · rw [h1, h2]
      simp only
      have hv := takeValues_sim bounds names nm text ps pc a b args index hsim hu h1 hab heq
      cases ha : takeValues a args index with
      | done r =>
        obtain ⟨a1, i1⟩ := r
        obtain ⟨b1, hb, hs⟩ := hv.1 a1 i1 ha
        rw [hb]
        exact ⟨rfl, hs⟩
      | raised e r =>
        obtain ⟨a1, i1⟩ := r
        obtain ⟨b1, j1, hb, hs⟩ := hv.2 e a1 i1 ha
        rw [hb]
        exact StepSim_raise names nm _ _ e hs

theorem ParseShortInlineShared_sim (bounds : List Bound) (names : List Str) (nm : Str)
    (value : Str) (index : Nat) (hu : unshared nm names bounds = true) (cluster : List Char) :
    ∀ (ps pc : ArgParser), PSim names nm ps pc →
      StepSim names nm (ParseShortInlineShared bounds value index cluster ps)
        (ParseShortInline value index cluster pc) := by
  induction cluster with
  | nil => intro ps pc hsim; exact ⟨rfl, hsim⟩
  | cons c cluster ih =>
    intro ps pc hsim
    simp only [ParseShortInlineShared, ParseShortInline]
    rw [hsim.2.1]
    cases hl : pc.short_names_.lookup c with
    | none => exact StepSim_unknown names nm _ ps pc hsim
    | some name =>
      simp only
      rcases Sim_get names nm name ps pc hsim with ⟨h1, h2⟩ | ⟨a, b, h1, h2, hab, heq⟩
      · rw [h1, h2]
        exact StepSim_unknown names nm _ ps pc hsim
      · rw [h1, h2]
        simp only
        have hv := SetValue_sim bounds names nm name ps pc a b value hsim hu h1 hab heq
        cases ha : a.SetValue value with
        | done a1 =>
          obtain ⟨b1, hb, hs⟩ := hv.1 a1 ha
          rw [hb]
          exact ih _ _ hs
        | raised e a1 =>
          obtain ⟨b1, hb, hs⟩ := hv.2 e a1 ha
          rw [hb]
          exact StepSim_raise names nm _ _ e hs

theorem ParseShortClusterShared_sim (bounds : List Bound) (names : List Str) (nm : Str)
    (args : List Str) (hu : unshared nm names bounds = true) (cluster : List Char) :
    ∀ (ps pc : ArgParser) (index : Nat), PSim names nm ps pc →
      StepSim names nm (ParseShortClusterShared bounds args cluster ps index)
        (ParseShortCluster args cluster pc index) := by
  induction cluster with
  | nil => intro ps pc index hsim; exact ⟨rfl, hsim⟩
  | cons c cluster ih =>
    intro ps pc index hsim
    simp only [ParseShortClusterShared, ParseShortCluster]
    rw [hsim.2.1]
    cases hl : pc.short_names_.lookup c with
    | none => exact StepSim_unknown names nm _ ps pc hsim
    | some name =>
      simp only
      rcases Sim_get names nm name ps pc hsim with ⟨h1, h2⟩ | ⟨a, b, h1, h2, hab, heq⟩
      · rw [h1, h2]
        exact StepSim_unknown names nm _ ps pc hsim
      · rw [h1, h2]
        simp only
        have hv := takeValues_sim bounds names nm name ps pc a b args index hsim hu h1 hab heq
        cases ha : takeValues a args index with
        | done r =>
          obtain ⟨a1, i1⟩ := r
          obtain ⟨b1, hb, hs⟩ := hv.1 a1 i1 ha
          rw [hb]
          exact ih _ _ i1 hs
        | raised e r =>
          obtain ⟨a1, i1⟩ := r
          obtain ⟨b1, j1, hb, hs⟩ := hv.2 e a1 i1 ha
          rw [hb]
          exact StepSim_raise names nm _ _ e hs

theorem ParseTokenShared_long (bounds : List Bound) (p : ArgParser) (args : List Str)
    (index : Nat) (name : Str) (h : args.getD index [] = '-' :: '-' :: name) :
    ParseTokenShared bounds p args index = ParseLongShared bounds p args index name := by
  unfold ParseTokenShared
  rw [h]
  split
  · rename_i heq
    simp at heq
    rw [heq]
  · rename_i h2 heq
    simp at heq
    exact (h2 name heq.symm).elim
  · rename_i h2 h3
    exact absurd rfl (h2 name)

theorem ParseTokenShared_short (bounds : List Bound) (p : ArgParser) (args : List Str)
    (index : Nat) (names : Str)
    (h : args.getD index [] = '-' :: names) (hn : ∀ name, names ≠ '-' :: name) :
    ParseTokenShared bounds p args index = ParseShortShared bounds p args index names := by
  unfold ParseTokenShared
  rw [h]
  split
  · rename_i heq
    simp at heq
    exact absurd heq (hn _)
  · rename_i heq
    simp at heq
    rw [heq]
  · rename_i h2
    exact absurd rfl (h2 names)

theorem ParseTokenShared_bare (bounds : List Bound) (p : ArgParser) (args : List Str)
    (index : Nat) (h : beginsWithHyphen (args.getD index []) = false) :
    ParseTokenShared bounds p args index = ParsePositional p args index := by
  unfold ParseTokenShared
  split
  · rename_i heq
    rw [heq] at h
    simp [beginsWithHyphen] at h
  · rename_i heq
    rw [heq] at h
    simp [beginsWithHyphen] at h
  · rfl

theorem ParseTokenShared_sim (bounds : List Bound) (names : List Str) (nm : Str)
    (ps pc : ArgParser) (args : List Str) (index : Nat)
    (hsim : PSim names nm ps pc) (hu : unshared nm names bounds = true) :
    StepSim names nm (ParseTokenShared bounds ps args index) (ParseToken pc args index) := by
  rcases token_cases (args.getD index []) with ⟨text, ht⟩ | ⟨cluster, ht, hnn⟩ | hb
  · rw [ParseTokenShared_long bounds ps args index text ht, ParseToken_long pc args index text ht]
    exact ParseLongShared_sim bounds names nm ps pc args index _ hsim hu
  · rw [ParseTokenShared_short bounds ps args index cluster ht hnn,
      ParseToken_short pc args index cluster ht hnn]
    unfold ParseShortShared ParseShort
    cases find '=' cluster with
    | some k => exact ParseShortInlineShared_sim bounds names nm _ index hu _ ps pc hsim
    | none => exact ParseShortClusterShared_sim bounds names nm args hu _ ps pc index hsim
  · rw [ParseTokenShared_bare bounds ps args index hb, ParseToken_bare pc args index hb]
    unfold ParsePositional
    refine ⟨rfl, hsim.1, hsim.2.1, ?_, hsim.2.2.2⟩
    simp only [hsim.2.2.1]

theorem ParseTokensShared_sim (bounds : List Bound) (names : List Str) (nm : Str)
    (args : List Str) (hu : unshared nm names bounds = true) (fuel : Nat) :
    ∀ (ps pc : ArgParser) (index : Nat), PSim names nm ps pc →
      (∀ ps1, ParseTokensShared bounds fuel ps args index = some ps1 →
        ∃ pc1, ParseTokens fuel pc args index = some pc1 ∧ PSim names nm ps1 pc1) ∧
      (ParseTokensShared bounds fuel ps args index = none →
        ParseTokens fuel pc args index = none) := by
  induction fuel with
  | zero => intro ps pc index _; simp [ParseTokensShared, ParseTokens]
  | succ fuel ih =>
    intro ps pc index hsim
    simp only [ParseTokensShared, ParseTokens]
    split
    · refine ⟨?_, ?_⟩
      · intro ps1 h
        simp only [Option.some.injEq] at h
        subst h
        exact ⟨pc, rfl, hsim⟩
      · intro h; cases h
    · have hstep := ParseTokenShared_sim bounds names nm ps pc args index hsim hu
      cases hs : ParseTokenShared bounds ps args index with
      | next ps2 i2 =>
        cases hc : ParseToken pc args index with
        | next pc2 j2 =>
          rw [hs, hc] at hstep
          obtain ⟨hij, hsim2⟩ := hstep
          subst hij
          exact ih ps2 pc2 i2 hsim2
        | stop r => rw [hs, hc] at hstep; exact hstep.elim
      | stop r =>
        cases hc : ParseToken pc args index with
        | next pc2 j2 => rw [hs, hc] at hstep; exact hstep.elim
        | stop rc => simp

theorem set_names (l : List (Str × BaseArgument)) :
    ∀ (i : Nat) (n : Str) (a0 a : BaseArgument), l.get? i = some (n, a0) →
      (l.set i (n, a)).map Prod.fst = l.map Prod.fst := by
  induction l with
  | nil => intro i n a0 a h; simp at h
  | cons x rest ih =>
    intro i n a0 a h
    cases i with
    | zero =>
      simp only [List.get?_cons_zero, Option.some.injEq] at h
      subst h
      rfl
    | succ i =>
      simp only [List.get?_cons_succ] at h
      simp only [List.set_cons_succ, List.map_cons, ih i n a0 a h]

theorem GetArgument_set (nm : Str) (arg : BaseArgument) (l : List (Str × BaseArgument)) :
    ∀ (i : Nat) (n : Str) (a0 a : BaseArgument), l.get? i = some (n, a0) →
      GetArgument l nm = some arg → a0.IsPositional = true → arg.IsPositional = false →
      GetArgument (l.set i (n, a)) nm = some arg := by
  induction l with
  | nil => intro i n a0 a h; simp at h
  | cons x rest ih =>
    intro i n a0 a h hg hp hq
    obtain ⟨m, b⟩ := x
    cases i with
    | zero =>
      simp only [List.get?_cons_zero, Option.some.injEq, Prod.mk.injEq] at h
      obtain ⟨h1, h2⟩ := h
      subst h1 h2
      by_cases hm : m = nm
      · simp only [GetArgument, hm, if_true, Option.some.injEq] at hg
        subst hg
        rw [hp] at hq
        cases hq
      · simp only [GetArgument, hm, if_false] at hg
        simp only [List.set_cons_zero, GetArgument, hm, if_false]
        exact hg
    | succ i =>
      simp only [List.get?_cons_succ] at h
      simp only [List.set_cons_succ, GetArgument]
      by_cases hm : m = nm
      · simp only [GetArgument, hm, if_true] at hg ⊢
        exact hg
      · simp only [GetArgument, hm, if_false] at hg ⊢
        exact ih i n a0 a h hg hp hq

theorem getD_mem_or_owned (bs : List Bound) (i : Nat) :
    bs.getD i Bound.owned ∈ bs ∨ bs.getD i Bound.owned = Bound.owned := by
  by_cases h : i < bs.length
  · left
    rw [List.getD_eq_getElem?_getD, List.getElem?_eq_getElem h]
    exact List.getElem_mem h
  · right
    rw [List.getD_eq_getElem?_getD, List.getElem?_eq_none (by omega)]
    rfl

theorem unshared_position (nm : Str) (arg : BaseArgument) (l : List (Str × BaseArgument)) :
    ∀ (bounds : List Bound) (i : Nat) (n : Str) (a0 : BaseArgument), l.get? i = some (n, a0) →
      GetArgument l nm = some arg → a0.IsPositional = true → arg.IsPositional = false →
      unshared nm (l.map Prod.fst) bounds = true →
      sharesWith (bounds.getD i Bound.owned) (GetBound (l.map Prod.fst) bounds nm) = false := by
  induction l with
  | nil => intro bounds i n a0 h; simp at h
  | cons x rest ih =>
    intro bounds i n a0 h hg hp hq hu
    obtain ⟨m, b⟩ := x
    cases bounds with
    | nil =>
      simp only [List.getD_eq_getElem?_getD, List.getElem?_nil, Option.getD_none]
      exact sharesWith_owned_left _
    | cons bd bs =>
      simp only [List.map_cons, unshared] at hu
      simp only [List.map_cons, GetBound]
      cases i with
      | zero =>
        simp only [List.get?_cons_zero, Option.some.injEq, Prod.mk.injEq] at h
        obtain ⟨h1, h2⟩ := h
        subst h1 h2
        by_cases hm : m = nm
        · simp only [GetArgument, hm, if_true, Option.some.injEq] at hg
          subst hg
          rw [hp] at hq
          cases hq
        · simp only [hm, if_false, Bool.and_eq_true, Bool.not_eq_true'] at hu ⊢
          simpa using hu.1
      | succ i =>
        simp only [List.get?_cons_succ] at h
        have hget : (bd :: bs).getD (i + 1) Bound.owned = bs.getD i Bound.owned := by
          simp [List.getD_eq_getElem?_getD]
        rw [hget]
        by_cases hm : m = nm
        · simp only [hm, if_true, List.all_eq_true, Bool.not_eq_true'] at hu ⊢
          rcases getD_mem_or_owned bs i with hmem | hown
          · exact hu _ hmem
          · rw [hown]; exact sharesWith_owned_left _
        · simp only [GetArgument, hm, if_false] at hg
          simp only [hm, if_false, Bool.and_eq_true, Bool.not_eq_true'] at hu ⊢
          exact ih bs i n a0 h hg hp hq hu.2

theorem assignPositionalShared_keeps (bounds : List Bound) (current : Nat) (nm : Str)
    (arg : BaseArgument) (hq : arg.IsPositional = false) (left : Nat) :
    ∀ (i : Nat) (arguments : List (Str × BaseArgument)) (unread : List (Nat × Str)),
      GetArgument arguments nm = some arg →
      unshared nm (arguments.map Prod.fst) bounds = true →
      GetArgument (assignPositionalShared bounds current left i arguments unread).state.1 nm
        = some arg := by
  induction left with
  | zero => intro i arguments unread hg _; exact hg
  | succ left ih =>
    intro i arguments unread hg hu
    simp only [assignPositionalShared]
    cases hi : arguments.get? i with
    | none => exact hg
    | some entry =>
      obtain ⟨n, a0⟩ := entry
      simp only
      by_cases hp : a0.IsPositional = true
      · simp only [hp, if_true]
        have key : ∀ a, GetArgument (shareAll (bounds.getD i Bound.owned) a
            (arguments.set i (n, a)) bounds) nm = some arg ∧
            unshared nm ((shareAll (bounds.getD i Bound.owned) a
              (arguments.set i (n, a)) bounds).map Prod.fst) bounds = true := by
          intro a
          refine ⟨?_, ?_⟩
          · rw [GetArgument_shareAll _ _ _ _ _
              (by rw [set_names arguments i n a0 a hi]
                  exact unshared_position nm arg arguments bounds i n a0 hi hg hp hq hu)]
            exact GetArgument_set nm arg arguments i n a0 a hi hg hp hq
          · rw [shareAll_names, set_names arguments i n a0 a hi]
            exact hu
        cases hr : assignRun current a0 unread with
        | raised e r =>
          obtain ⟨a, u⟩ := r
          exact (key a).1
        | done r =>
          obtain ⟨a, u⟩ := r
          exact ih (i + 1) _ u (key a).1 (key a).2
      · simp only [hp, Bool.false_eq_true, if_false]
        exact ih (i + 1) arguments unread hg hu

theorem ParseEndShared_keeps (bounds : List Bound) (p : ArgParser) (nm : Str)
    (arg : BaseArgument) (h : GetArgument p.arguments_ nm = some arg)
    (hpos : arg.IsPositional = false ∨ p.positional_arguments_ = [])
    (hu : unshared nm (p.arguments_.map Prod.fst) bounds = true) :
    GetArgument (ParseEndShared bounds p).parser.arguments_ nm = some arg := by
  unfold ParseEndShared
  split
  · exact h
  · unfold ParseValidateShared UpdatePositionalArgumentsShared
    cases hb : p.positional_arguments_ with
    | nil =>
      simp only [Bool.not_true, Bool.false_eq_true, if_false]
      rw [checkArguments_keeps]
      exact h
    | cons entry more =>
      obtain ⟨current, token⟩ := entry
      rcases hpos with hpos | hbuf
      · have hk := assignPositionalShared_keeps bounds current nm arg hpos p.arguments_.length 0
          p.arguments_ ((current, token) :: more) h hu
        simp only
        cases hr : assignPositionalShared bounds current p.arguments_.length 0 p.arguments_
            ((current, token) :: more) with
        | raised e r =>
          rw [hr] at hk
          simpa [Result.state] using hk
        | done r =>
          rw [hr] at hk
          simp only [Result.state] at hk
          simp only
          split
          · exact hk
          · rw [checkArguments_keeps]
            exact hk
      · rw [hbuf] at hb
        cases hb

theorem ParseFuelShared_of_tokens (bounds : List Bound) (fuel : Nat) (args : List Str) :
    ∀ (p p1 : ArgParser) (index : Nat), ParseTokensShared bounds fuel p args index = some p1 →
      ParseFuelShared bounds fuel p args index = ParseEndShared bounds p1 := by
  induction fuel with
  | zero => intro p p1 index h; simp [ParseTokensShared] at h
  | succ fuel ih =>
    intro p p1 index h
    simp only [ParseTokensShared] at h
    simp only [ParseFuelShared]
    split
    · rename_i hle
      simp only [hle, if_true, Option.some.injEq] at h
      rw [h]
    · rename_i hlen
      simp only [hlen, if_false] at h
      cases hs : ParseTokenShared bounds p args index with
      | next p2 i2 =>
        simp only [hs] at h ⊢
        exact ih p2 p1 i2 h
      | stop r => simp [hs] at h

/-- C9, as stated, fails for flags that share a caller location: with `alpha`
(default false) and `beta` (default true) bound by `StoreValue(x)` to one
`bool`, the tokens `["app", "-ab"]` name both flags and are processed without
failure, and `GetFlag(alpha)` is false afterwards, the default of `alpha`:
`beta` wrote its negated default to the location last. -/
theorem Parse_flags_share_location :
    tokensProcessedShared sharedFlagsBound sharedFlagsParser
        ["app".toList, "-ab".toList] 1 = true ∧
      namesArgument sharedFlagsParser "alpha".toList "-ab".toList = true ∧
      GetArgument sharedFlagsParser.arguments_ "alpha".toList
        = some (.flag ((FlagArgument.new 'a' "alpha".toList []).StoreValue false)) ∧
      ((FlagArgument.new 'a' "alpha".toList []).StoreValue false).default_value_ = false ∧
      GetFlag (ParseShared sharedFlagsBound sharedFlagsParser
        ["app".toList, "-ab".toList] 1).parser "alpha".toList 0 = false ∧
      GetFlag (ParseShared sharedFlagsBound sharedFlagsParser
        ["app".toList, "-ab".toList] 1).parser "beta".toList 0 = false ∧
      (ParseShared sharedFlagsBound sharedFlagsParser
        ["app".toList, "-ab".toList] 1).outcome = .returned true := by
  decide

/-- C9 (amended): for every token sequence that is processed without failure,
each flag that is named at least once at or after the start index, as
`--name`, as `--name=anything` or by a character of a short cluster, and whose
storage is not shared (no other argument is bound to the caller location that
the flag is bound to), reads `GetFlag = not (its default)` afterwards, however
many times it is named and whatever locations the other arguments share. -/
theorem Parse_named_flag_negated (bounds : List Bound) (p : ArgParser) (args : List Str)
    (index j : Nat) (nm : Str) (f : FlagArgument)
    (hf : GetArgument p.arguments_ nm = some (.flag f))
    (hu : unshared nm (p.arguments_.map Prod.fst) bounds = true)
    (h1 : index ≤ j) (h2 : j < args.length)
    (h3 : namesArgument p nm (args.getD j []) = true)
    (hok : tokensProcessedShared bounds p args index = true) :
    GetFlag (ParseShared bounds p args index).parser nm 0 = !f.default_value_ := by
  unfold tokensProcessedShared at hok
  obtain ⟨ps1, hps1⟩ := Option.isSome_iff_exists.1 hok
  obtain ⟨pc1, hpc1, hsim⟩ := (ParseTokensShared_sim bounds _ nm args hu _ p p index
    (PSim_refl nm p)).1 ps1 hps1
  obtain ⟨g, hg, hd, hv⟩ : FlagSet pc1 nm f.default_value_ :=
    (ParseTokens_spec _ p pc1 args index hpc1).2 nm _ ⟨f, hf, rfl⟩ (Or.inr ⟨j, h1, h2, h3⟩)
  have hgs : GetArgument ps1.arguments_ nm = some (.flag g) := by
    rw [hsim.1.2]
    exact hg
  have hend := ParseEndShared_keeps bounds ps1 nm (.flag g) hgs (Or.inl rfl)
    (by rw [hsim.2.2.2]; exact hu)
  unfold ParseShared
  rw [ParseFuelShared_of_tokens bounds _ args p ps1 index hps1]
  simp [GetFlag, hend, FlagArgument.GetValue, hv]

theorem shortClusterCallsShared_sim (bounds : List Bound) (names : List Str) (nm : Str)
    (args : List Str) (hu : unshared nm names bounds = true) (cluster : List Char) :
    ∀ (ps pc : ArgParser) (index : Nat), PSim names nm ps pc →
      shortClusterCallsShared bounds args nm cluster ps index
        = shortClusterCalls args nm cluster pc index := by
  induction cluster with
  | nil => intro ps pc index _; rfl
  | cons c cluster ih =>
    intro ps pc index hsim
    simp only [shortClusterCallsShared, shortClusterCalls]
    rw [hsim.2.1]
    cases hl : pc.short_names_.lookup c with
    | none => rfl
    | some name =>
      simp only
      rcases Sim_get names nm name ps pc hsim with ⟨h1, h2⟩ | ⟨a, b, h1, h2, hab, heq⟩
      · rw [h1, h2]
      · rw [h1, h2]
        simp only
        have hv := takeValues_sim bounds names nm name ps pc a b args index hsim hu h1 hab heq
        cases ha : takeValues a args index with
        | done r =>
          obtain ⟨a1, i1⟩ := r
          obtain ⟨b1, hb, hs⟩ := hv.1 a1 i1 ha
          rw [hb]
          simp only [(shapeOf_ValuesCount a b hab).1, ih _ _ i1 hs]
        | raised e r =>
          obtain ⟨a1, i1⟩ := r
          obtain ⟨b1, j1, hb, hs⟩ := hv.2 e a1 i1 ha
          rw [hb]

theorem tokenCalls_cases (p : ArgParser) (args : List Str) (index : Nat) (nm : Str) :
    (∀ text, args.getD index [] = '-' :: '-' :: text →
        tokenCalls p args index nm = longCalls p args index nm text) ∧
      (∀ cluster, args.getD index [] = '-' :: cluster → (∀ text, cluster ≠ '-' :: text) →
        tokenCalls p args index nm =
          match find '=' cluster with
          | some k =>
            shortInlineCalls p.short_names_ (cluster.drop (k + 1)) index nm (cluster.take k)
          | none => shortClusterCalls args nm cluster p index) ∧
      (beginsWithHyphen (args.getD index []) = false → tokenCalls p args index nm = []) := by
  refine ⟨?_, ?_, ?_⟩
  · intro text h
    unfold tokenCalls
    rw [h]
    split
    · rename_i heq
      simp at heq
      rw [heq]
    · rename_i h2 heq
      simp at heq
      exact (h2 text heq.symm).elim
    · rename_i h2 h3
      exact absurd rfl (h2 text)
  · intro cluster h hn
    unfold tokenCalls
    rw [h]
    split
    · rename_i heq
      simp at heq
      exact absurd heq (hn _)
    · rename_i heq
      simp at heq
      subst heq
      cases find '=' cluster <;> rfl
    · rename_i h2
      exact absurd rfl (h2 cluster)
  · intro h
    unfold tokenCalls
    split
    · rename_i heq
      rw [heq] at h
      simp [beginsWithHyphen] at h
    · rename_i heq
      rw [heq] at h
      simp [beginsWithHyphen] at h
    · rfl

theorem tokenCallsShared_cases (bounds : List Bound) (p : ArgParser) (args : List Str)
    (index : Nat) (nm : Str) :
    (∀ text, args.getD index [] = '-' :: '-' :: text →
        tokenCallsShared bounds p args index nm = longCalls p args index nm text) ∧
      (∀ cluster, args.getD index [] = '-' :: cluster → (∀ text, cluster ≠ '-' :: text) →
        tokenCallsShared bounds p args index nm =
          match find '=' cluster with
          | some k =>
            shortInlineCalls p.short_names_ (cluster.drop (k + 1)) index nm (cluster.take k)
          | none => shortClusterCallsShared bounds args nm cluster p index) ∧
      (beginsWithHyphen (args.getD index []) = false →
        tokenCallsShared bounds p args index nm = []) := by
  refine ⟨?_, ?_, ?_⟩
  · intro text h
    unfold tokenCallsShared
    rw [h]
    split
    · rename_i heq
      simp at heq
      rw [heq]
    · rename_i h2 heq
      simp at heq
      exact (h2 text heq.symm).elim
    · rename_i h2 h3
      exact absurd rfl (h2 text)
  · intro cluster h hn
    unfold tokenCallsShared
    rw [h]
    split
    · rename_i heq
      simp at heq
      exact absurd heq (hn _)
    · rename_i heq
      simp at heq
      subst heq
      cases find '=' cluster <;> rfl
    · rename_i h2
      exact absurd rfl (h2 cluster)
  · intro h
    unfold tokenCallsShared
    split
    · rename_i heq
      rw [heq] at h
      simp [beginsWithHyphen] at h
    · rename_i heq
      rw [heq] at h
      simp [beginsWithHyphen] at h
    · rfl

theorem tokenCallsShared_sim (bounds : List Bound) (names : List Str) (nm : Str)
    (ps pc : ArgParser) (args : List Str) (index : Nat)
    (hsim : PSim names nm ps pc) (hu : unshared nm names bounds = true) :
    tokenCallsShared bounds ps args index nm = tokenCalls pc args index nm := by
  obtain ⟨s1, s2, s3⟩ := tokenCallsShared_cases bounds ps args index nm
  obtain ⟨c1, c2, c3⟩ := tokenCalls_cases pc args index nm
  rcases token_cases (args.getD index []) with ⟨text, ht⟩ | ⟨cluster, ht, hnn⟩ | hb
  · rw [s1 text ht, c1 text ht]
    unfold longCalls
    rw [hsim.1.2]
  · rw [s2 cluster ht hnn, c2 cluster ht hnn]
    cases find '=' cluster with
    | some k => simp only [hsim.2.1]
    | none => exact shortClusterCallsShared_sim bounds names nm args hu _ ps pc index hsim
  · rw [s3 hb, c3 hb]

theorem SetValueCallsFuelShared_sim (bounds : List Bound) (names : List Str) (nm : Str)
    (args : List Str) (hu : unshared nm names bounds = true) (fuel : Nat) :
    ∀ (ps pc : ArgParser) (index : Nat), PSim names nm ps pc →
      SetValueCallsFuelShared bounds fuel ps args index nm
        = SetValueCallsFuel fuel pc args index nm := by
  induction fuel with
  | zero => intro ps pc index _; rfl
  | succ fuel ih =>
    intro ps pc index hsim
    simp only [SetValueCallsFuelShared, SetValueCallsFuel]
    split
    · rfl
    · have hstep := ParseTokenShared_sim bounds names nm ps pc args index hsim hu
      cases hs : ParseTokenShared bounds ps args index with
      | next ps2 i2 =>
        cases hc : ParseToken pc args index with
        | next pc2 j2 =>
          rw [hs, hc] at hstep
          obtain ⟨hij, hsim2⟩ := hstep
          subst hij
          simp only [tokenCallsShared_sim bounds names nm ps pc args index hsim hu,
            ih ps2 pc2 i2 hsim2]
        | stop r => rw [hs, hc] at hstep; exact hstep.elim
      | stop r =>
        cases hc : ParseToken pc args index with
        | next pc2 j2 => rw [hs, hc] at hstep; exact hstep.elim
        | stop rc => rfl

/-- C20, as stated, fails in two ways. A bare token for a positional argument is
stored at the end of `Parse`, after every option value: with the positional
multi-value String argument `files`, the tokens `x --files y` supply `x`
before `y` and leave the sequence `y, x`, and with the positional single-value
String argument `file`, the tokens `x --file y --input z` leave `file` holding
`x`, not the last value `y`. A caller vector that is bound to two arguments
receives the values of both: with `include` and `isystem` bound to one vector,
the tokens `--include a --isystem b` supply `include` only the value `a` and
leave it the sequence `a, b`. -/
theorem Parse_values_not_in_supply_order :
    (Parse filesParser ["app".toList, "x".toList, "--files".toList, "y".toList] 1).outcome
        = .returned true ∧
      GetStringValue (Parse filesParser
        ["app".toList, "x".toList, "--files".toList, "y".toList] 1).parser
        "files".toList 0 = .ok "y".toList ∧
      GetStringValue (Parse filesParser
        ["app".toList, "x".toList, "--files".toList, "y".toList] 1).parser
        "files".toList 1 = .ok "x".toList ∧
      (Parse fileInputParser ["app".toList, "x".toList, "--file".toList, "y".toList,
        "--input".toList, "z".toList] 1).outcome = .returned true ∧
      GetStringValue (Parse fileInputParser ["app".toList, "x".toList, "--file".toList,
        "y".toList, "--input".toList, "z".toList] 1).parser "file".toList 0
        = .ok "x".toList ∧
      (ParseShared sharedPathsBound sharedPathsParser ["app".toList, "--include".toList,
        "a".toList, "--isystem".toList, "b".toList] 1).outcome = .returned true ∧
      SetValueCallsShared sharedPathsBound sharedPathsParser ["app".toList,
        "--include".toList, "a".toList, "--isystem".toList, "b".toList] 1 "include".toList
        = [(2, "a".toList)] ∧
      GetStringValue (ParseShared sharedPathsBound sharedPathsParser ["app".toList,
        "--include".toList, "a".toList, "--isystem".toList, "b".toList] 1).parser
        "include".toList 0 = .ok "a".toList ∧
      GetStringValue (ParseShared sharedPathsBound sharedPathsParser ["app".toList,
        "--include".toList, "a".toList, "--isystem".toList, "b".toList] 1).parser
        "include".toList 1 = .ok "b".toList := by
  decide

/-- C20 (amended): for every String argument whose storage is not shared (no
other argument is bound to a caller location that the argument is bound to)
and every token sequence processed without failure, the calls
`SetValue(v1), ..., SetValue(vm)` that the option occurrences of the argument
make on it are made in token order, each with the value of its token; they
include the value of every `--name=value` and the values that follow every
`--name`. When the last token is processed the argument is the result of these
calls in this order: for `m ≥ 1` it is marked set, a multi-value argument holds
what its sequence held before followed by `v1, ..., vm` (`GetValue(i)` reads
this sequence), and a single-value argument holds `vm`. It is still so when
`Parse` returns, unless the argument is positional and bare tokens were
buffered: reconciliation stores those after `vm`. -/
theorem Parse_stores_in_call_order (bounds : List Bound) (p : ArgParser) (args : List Str)
    (index : Nat) (nm : Str) (a : StringArgument)
    (ha : GetArgument p.arguments_ nm = some (.string a))
    (hu : unshared nm (p.arguments_.map Prod.fst) bounds = true)
    (hp : tokensProcessedShared bounds p args index = true) :
    InTokenOrder args index args.length (SetValueCallsShared bounds p args index nm) ∧
      (∀ j, index ≤ j → j < args.length →
        (∀ text k, args.getD j [] = '-' :: '-' :: text → find '=' text = some k →
          text.take k = nm →
          (j, text.drop (k + 1)) ∈ SetValueCallsShared bounds p args index nm) ∧
        (args.getD j [] = '-' :: '-' :: nm → find '=' nm = none →
          ∀ e ∈ takenValues j a.ValuesCount (args.drop (j + 1)),
            e ∈ SetValueCallsShared bounds p args index nm)) ∧
      ∃ p1 a1, ParseTokensShared bounds (args.length - index + 1) p args index = some p1 ∧
        GetArgument p1.arguments_ nm = some (.string a1) ∧
        a1 = (suppliedValuesShared bounds p args index nm).foldl StringArgument.SetValue a ∧
        (suppliedValuesShared bounds p args index nm ≠ [] →
          a1.is_set_ = true ∧
          (a.is_multi_value_ = true →
            a1.multi_value_
              = some (a.multi_value_.getD [] ++ suppliedValuesShared bounds p args index nm) ∧
            ∀ i, a1.GetValue i
              = vector_at (a.multi_value_.getD [] ++
                  suppliedValuesShared bounds p args index nm) i) ∧
          (a.is_multi_value_ = false →
            ∀ v, (suppliedValuesShared bounds p args index nm).getLast? = some v →
              a1.value_ = some v ∧ ∀ i, a1.GetValue i = .ok v)) ∧
        ((a.is_positional_ = false ∨ p1.positional_arguments_ = []) →
          GetArgument (ParseShared bounds p args index).parser.arguments_ nm
            = some (.string a1)) := by
  unfold tokensProcessedShared at hp
  obtain ⟨ps1, hps1⟩ := Option.isSome_iff_exists.1 hp
  obtain ⟨pc1, hpc1, hsim⟩ := (ParseTokensShared_sim bounds _ nm args hu _ p p index
    (PSim_refl nm p)).1 ps1 hps1
  have hcalls : SetValueCallsShared bounds p args index nm = SetValueCalls p args index nm :=
    SetValueCallsFuelShared_sim bounds _ nm args hu _ p p index (PSim_refl nm p)
  have hvalues : suppliedValuesShared bounds p args index nm = suppliedValues p args index nm := by
    unfold suppliedValuesShared suppliedValues
    rw [hcalls]
  obtain ⟨h1, h2, q1, a1, hq1, hg1, ha1, hset, _⟩ := Parse_calls_unshared p args index nm a ha
    (by unfold tokensProcessed; rw [hpc1]; rfl)
  rw [hpc1] at hq1
  have hq : q1 = pc1 := (Option.some.inj hq1).symm
  subst hq
  rw [hcalls, hvalues]
  have hgs : GetArgument ps1.arguments_ nm = some (.string a1) := by
    rw [hsim.1.2]
    exact hg1
  refine ⟨h1, h2, ps1, a1, hps1, hgs, ha1, hset, ?_⟩
  intro hpos
  unfold ParseShared
  rw [ParseFuelShared_of_tokens bounds _ args p ps1 index hps1]
  apply ParseEndShared_keeps bounds ps1 nm _ hgs ?_ (by rw [hsim.2.2.2]; exact hu)
  rcases hpos with hpos | hbuf
  · left
    simp only [BaseArgument.IsPositional, StringArgument.IsPositional]
    rw [ha1, (foldl_SetValue _ a).2.1]
    exact hpos
  · right
    exact hbuf

/-- C20 (amended), on `sharedPathsArgs` with the multi-value String argument `lib`,
bound to a vector of its own that holds `c`, beside `include` and `isystem`
that share one vector: the calls on `lib` pass `x, y, z` from the tokens 3, 7
and 8, in token order, and `lib` ends holding `c, x, y, z`; the single-value
argument `out` is handed `u` and `v` and ends holding `v`. -/
theorem Parse_stores_in_call_order_witness :
    InTokenOrder sharedPathsArgs 1 sharedPathsArgs.length
        (SetValueCallsShared sharedPathsBound sharedPathsParser sharedPathsArgs 1
          "lib".toList) ∧
      SetValueCallsShared sharedPathsBound sharedPathsParser sharedPathsArgs 1 "lib".toList
        = [(3, "x".toList), (7, "y".toList), (8, "z".toList)] ∧
      SetValueCallsShared sharedPathsBound sharedPathsParser sharedPathsArgs 1 "out".toList
        = [(5, "u".toList), (11, "v".toList)] ∧
      (ParseShared sharedPathsBound sharedPathsParser sharedPathsArgs 1).outcome
        = .returned true ∧
      GetStringValue (ParseShared sharedPathsBound sharedPathsParser sharedPathsArgs 1).parser
        "lib".toList 0 = .ok "c".toList ∧
      GetStringValue (ParseShared sharedPathsBound sharedPathsParser sharedPathsArgs 1).parser
        "lib".toList 1 = .ok "x".toList ∧
      GetStringValue (ParseShared sharedPathsBound sharedPathsParser sharedPathsArgs 1).parser
        "lib".toList 3 = .ok "z".toList ∧
      GetStringValue (ParseShared sharedPathsBound sharedPathsParser sharedPathsArgs 1).parser
        "lib".toList 4 = .error .out_of_range ∧
      GetStringValue (ParseShared sharedPathsBound sharedPathsParser sharedPathsArgs 1).parser
        "out".toList 0 = .ok "v".toList :=
  ⟨(Parse_stores_in_call_order sharedPathsBound sharedPathsParser sharedPathsArgs 1
      "lib".toList (((StringArgument.new 'L' "lib".toList []).MultiValue 0).StoreValues
        ["c".toList]).state (by decide) (by decide) (by decide)).1,
    by decide, by decide, by decide, by decide, by decide, by decide, by decide, by decide⟩

/-- C4 (amended), with the help flag registered, `--help` among the tokens and
the unknown option last: `Parse` returns false and reports `bogus`; and with
the cluster `-sx`, whose first character is the flag `flag1` and whose second
character is not registered: `Parse` returns false and reports `x`, the flag
being set. -/
theorem Parse_unknown_option_witness :
    Parse helpExampleParser (["app".toList, "--help".toList] ++ "--bogus".toList :: []) 1
        = { parser := Option.get (ParseTokens 2 helpExampleParser
              ["app".toList, "--help".toList] 1) (by decide),
            cerr := some (.unknown_argument (beforeEq "bogus".toList)),
            outcome := .returned false } ∧
      Parse exampleParser (["app".toList] ++ "-sx".toList :: ["a".toList]) 1
        = { parser := exampleParser.store "flag1".toList
              (.flag (((FlagArgument.new 's' "flag1".toList []).Default true).SetValue [])),
            cerr := some (.unknown_argument (unresolvedName exampleParser 'x')),
            outcome := .returned false } ∧
      unresolvedName exampleParser 'x' = "x".toList ∧
      (Parse helpExampleParser ["app".toList, "--help".toList, "--bogus".toList] 1).outcome
        = .returned false ∧
      (Parse exampleParser ["app".toList, "-sx".toList, "a".toList] 1).outcome
        = .returned false ∧
      (Parse exampleParser ["app".toList, "-sx".toList, "a".toList] 1).cerr
        = some (.unknown_argument "x".toList) :=
  ⟨((Parse_unknown_option helpExampleParser ["app".toList, "--help".toList] []
      "--bogus".toList 1 (by decide) (by decide)).2
      (Option.get (ParseTokens 2 helpExampleParser
        ["app".toList, "--help".toList] 1) (by decide)) (by decide)).1 "bogus".toList rfl,
    ((Parse_unknown_option exampleParser ["app".toList] ["a".toList]
      "-sx".toList 1 (by decide) (by decide)).2 exampleParser (by decide)).2
      "sx".toList ['s'] [] 'x'
      (exampleParser.store "flag1".toList
        (.flag (((FlagArgument.new 's' "flag1".toList []).Default true).SetValue [])))
      2 rfl (by intro text h; cases h) (by decide) (by decide) (by decide),
    by decide, by decide, by decide, by decide⟩

/-- C9 (amended), at the flag `gamma` (default true, bound to a location of its
own) beside the flags `alpha` and `beta` that share one location: `gamma` is
named three times, by the cluster `-abc`, as `--gamma=x` and as `--gamma`, and
reads false; and `-ab` with flags that are bound to no caller location sets
both to their negated defaults. -/
theorem Parse_named_flag_negated_witness :
    GetFlag (ParseShared sharedFlagsBound sharedFlagsParser
        ["app".toList, "-abc".toList, "--gamma=x".toList, "--gamma".toList] 1).parser
      "gamma".toList 0
        = !(((FlagArgument.new 'c' "gamma".toList []).Default true).StoreValue
            false).default_value_ ∧
      GetFlag (ParseShared [] twoFlagsParser ["app".toList, "-ab".toList] 1).parser
        "alpha".toList 0 = !(FlagArgument.new 'a' "alpha".toList []).default_value_ ∧
      GetFlag (ParseShared [] twoFlagsParser ["app".toList, "-ab".toList] 1).parser
        "alpha".toList 0 = true ∧
      GetFlag (ParseShared [] twoFlagsParser ["app".toList, "-ab".toList] 1).parser
        "beta".toList 0 = false :=
  ⟨Parse_named_flag_negated sharedFlagsBound sharedFlagsParser _ 1 1 "gamma".toList
      (((FlagArgument.new 'c' "gamma".toList []).Default true).StoreValue false)
      (by decide) (by decide) (by decide) (by decide) (by decide) (by decide),
    Parse_named_flag_negated [] twoFlagsParser ["app".toList, "-ab".toList] 1 1
      "alpha".toList (FlagArgument.new 'a' "alpha".toList [])
      (by decide) (by decide) (by decide) (by decide) (by decide) (by decide),
    by decide, by decide⟩

theorem shareAll_of_all (written : Bound) (a : BaseArgument) (l : List (Str × BaseArgument)) :
    ∀ bounds, (∀ bd ∈ bounds, sharesWith written bd = false) →
      shareAll written a l bounds = l := by
  induction l with
  | nil => intro bounds _; cases bounds <;> rfl
  | cons x rest ih =>
    intro bounds h
    obtain ⟨n, b⟩ := x
    cases bounds with
    | nil => rfl
    | cons bd bs =>
      simp only [shareAll, shareWith_of_not_shares _ _ _ _ (h bd (by simp)),
        ih bs (fun bd1 h1 => h bd1 (by simp [h1]))]

theorem shareAll_store (a : BaseArgument) (name : Str) (l : List (Str × BaseArgument)) :
    ∀ bounds, noSharing bounds = true →
      shareAll (GetBound (l.map Prod.fst) bounds name) a (StoreArgument l name a) bounds
        = StoreArgument l name a := by
  induction l with
  | nil => intro bounds _; cases bounds <;> rfl
  | cons x rest ih =>
    intro bounds h
    obtain ⟨n, b⟩ := x
    cases bounds with
    | nil => cases hs : StoreArgument ((n, b) :: rest) name a <;> rfl
    | cons bd bs =>
      simp only [noSharing, Bool.and_eq_true, List.all_eq_true, Bool.not_eq_true'] at h
      by_cases hn : n = name
      · simp only [List.map_cons, GetBound, hn, if_true, StoreArgument, shareAll,
          shareWith_self, shareAll_of_all bd a rest bs h.1]
      · simp only [List.map_cons, GetBound, hn, if_false, StoreArgument, shareAll,
          ih bs h.2]
        have hw : sharesWith (GetBound (rest.map Prod.fst) bs name) bd = false := by
          rcases GetBound_mem (rest.map Prod.fst) name bs with hm | hm
          · rw [sharesWith_symm]
            exact h.1 _ hm
          · rw [hm]
            exact sharesWith_owned_left _
        rw [shareWith_of_not_shares _ _ _ _ hw]

theorem storeShared_unshared (bounds : List Bound) (h : noSharing bounds = true)
    (p : ArgParser) (name : Str) (a : BaseArgument) :
    p.storeShared bounds name a = p.store name a := by
  simp only [ArgParser.storeShared, ArgParser.store, shareAll_store a name _ bounds h]

theorem ParseShortInlineShared_unshared (bounds : List Bound) (h : noSharing bounds = true)
    (value : Str) (index : Nat) (cluster : List Char) :
    ∀ p, ParseShortInlineShared bounds value index cluster p
      = ParseShortInline value index cluster p := by
  induction cluster with
  | nil => intro p; rfl
  | cons c cluster ih =>
    intro p
    simp only [ParseShortInlineShared, ParseShortInline, storeShared_unshared bounds h, ih]

theorem ParseShortClusterShared_unshared (bounds : List Bound) (h : noSharing bounds = true)
    (args : List Str) (cluster : List Char) :
    ∀ p index, ParseShortClusterShared bounds args cluster p index
      = ParseShortCluster args cluster p index := by
  induction cluster with
  | nil => intro p index; rfl
  | cons c cluster ih =>
    intro p index
    simp only [ParseShortClusterShared, ParseShortCluster, storeShared_unshared bounds h, ih]

theorem ParseTokenShared_unshared (bounds : List Bound) (h : noSharing bounds = true)
    (p : ArgParser) (args : List Str) (index : Nat) :
    ParseTokenShared bounds p args index = ParseToken p args index := by
  rcases token_cases (args.getD index []) with ⟨text, ht⟩ | ⟨cluster, ht, hnn⟩ | hb
  · rw [ParseTokenShared_long bounds p args index text ht, ParseToken_long p args index text ht]
    simp only [ParseLongShared, ParseLong, storeShared_unshared bounds h]
  · rw [ParseTokenShared_short bounds p args index cluster ht hnn,
      ParseToken_short p args index cluster ht hnn]
    simp only [ParseShortShared, ParseShort, ParseShortInlineShared_unshared bounds h,
      ParseShortClusterShared_unshared bounds h]
  · rw [ParseTokenShared_bare bounds p args index hb, ParseToken_bare p args index hb]

theorem shareAll_set (a : BaseArgument) (l : List (Str × BaseArgument)) :
    ∀ (bounds : List Bound) (i : Nat) (n : Str) (a0 : BaseArgument),
      noSharing bounds = true → l.get? i = some (n, a0) →
      shareAll (bounds.getD i Bound.owned) a (l.set i (n, a)) bounds = l.set i (n, a) := by
  induction l with
  | nil => intro bounds i n a0 _ h; simp at h
  | cons x rest ih =>
    intro bounds i n a0 h hi
    obtain ⟨m, b⟩ := x
    cases bounds with
    | nil => cases hs : ((m, b) :: rest).set i (n, a) <;> rfl
    | cons bd bs =>
      simp only [noSharing, Bool.and_eq_true, List.all_eq_true, Bool.not_eq_true'] at h
      cases i with
      | zero =>
        simp only [List.set_cons_zero, shareAll]
        have hget : (bd :: bs).getD 0 Bound.owned = bd := rfl
        rw [hget, shareWith_self, shareAll_of_all bd a rest bs h.1]
      | succ i =>
        simp only [List.get?_cons_succ] at hi
        have hget : (bd :: bs).getD (i + 1) Bound.owned = bs.getD i Bound.owned := by
          simp [List.getD_eq_getElem?_getD]
        simp only [List.set_cons_succ, shareAll, hget, ih bs i n a0 h.2 hi]
        have hw : sharesWith (bs.getD i Bound.owned) bd = false := by
          rcases getD_mem_or_owned bs i with hm | hm
          · rw [sharesWith_symm]
            exact h.1 _ hm
          · rw [hm]
            exact sharesWith_owned_left _
        rw [shareWith_of_not_shares _ _ _ _ hw]

theorem assignPositionalShared_unshared (bounds : List Bound) (h : noSharing bounds = true)
    (current : Nat) (left : Nat) :
    ∀ (i : Nat) (l : List (Str × BaseArgument)) (unread : List (Nat × Str)),
      l.length ≤ i + left →
      assignPositionalShared bounds current left i l unread =
        match assignPositional current (l.drop i) unread with
        | .done (r, u) => .done (l.take i ++ r, u)
        | .raised e (r, u) => .raised e (l.take i ++ r, u) := by
  induction left with
  | zero =>
    intro i l unread hlen
    simp only [assignPositionalShared, List.drop_eq_nil_of_le (by omega : l.length ≤ i),
      assignPositional, List.take_of_length_le (by omega : l.length ≤ i), List.append_nil]
  | succ left ih =>
    intro i l unread hlen
    simp only [assignPositionalShared]
    by_cases hi : i < l.length
    · have hget : l.get? i = some (l.get ⟨i, hi⟩) := List.get?_eq_get hi
      have hdrop : l.drop i = l.get ⟨i, hi⟩ :: l.drop (i + 1) := by
        rw [List.drop_eq_getElem_cons hi]
        rfl
      rcases hx : l.get ⟨i, hi⟩ with ⟨n, a0⟩
      rw [hx] at hget hdrop
      have hset : ∀ a, l.set i (n, a) = l.take i ++ (n, a) :: l.drop (i + 1) := by
        intro a
        exact List.set_eq_take_append_cons_drop.trans (by simp [hi])
      have htake : l.take (i + 1) = l.take i ++ [(n, a0)] := by
        have hget1 : l[i]? = some (n, a0) := by
          rw [← List.get?_eq_getElem?]
          exact hget
        rw [List.take_succ, hget1]
        rfl
      simp only [hget, hdrop, assignPositional]
      by_cases hp : a0.IsPositional = true
      · simp only [hp, if_true]
        cases hr : assignRun current a0 unread with
        | raised e r =>
          obtain ⟨a, u⟩ := r
          simp only [shareAll_set a l bounds i n a0 h hget]
          rw [hset a]
        | done r =>
          obtain ⟨a, u⟩ := r
          simp only [shareAll_set a l bounds i n a0 h hget]
          rw [ih (i + 1) (l.set i (n, a)) u (by simp; omega)]
          have h1 : (l.set i (n, a)).drop (i + 1) = l.drop (i + 1) := by
            rw [hset a, show l.take i ++ (n, a) :: l.drop (i + 1)
              = (l.take i ++ [(n, a)]) ++ l.drop (i + 1) by simp]
            exact List.drop_left' (by simp; omega)
          have h2 : (l.set i (n, a)).take (i + 1) = l.take i ++ [(n, a)] := by
            rw [hset a, show l.take i ++ (n, a) :: l.drop (i + 1)
              = (l.take i ++ [(n, a)]) ++ l.drop (i + 1) by simp]
            exact List.take_left' (by simp; omega)
          rw [h1, h2]
          cases assignPositional current (l.drop (i + 1)) u with
          | done r1 => obtain ⟨r, u1⟩ := r1; simp
          | raised e r1 => obtain ⟨r, u1⟩ := r1; simp
      · simp only [hp, Bool.false_eq_true, if_false]
        rw [ih (i + 1) l unread (by omega), htake]
        cases assignPositional current (l.drop (i + 1)) unread with
        | done r1 => obtain ⟨r, u1⟩ := r1; simp
        | raised e r1 => obtain ⟨r, u1⟩ := r1; simp
    · have hnone : l.get? i = none := List.get?_eq_none.2 (by omega)
      simp only [hnone, List.drop_eq_nil_of_le (by omega : l.length ≤ i),
        assignPositional, List.take_of_length_le (by omega : l.length ≤ i), List.append_nil]

theorem ParseEndShared_unshared (bounds : List Bound) (h : noSharing bounds = true)
    (p : ArgParser) : ParseEndShared bounds p = ParseEnd p := by
  have hup : UpdatePositionalArgumentsShared bounds p = UpdatePositionalArguments p := by
    unfold UpdatePositionalArgumentsShared UpdatePositionalArguments
    cases hb : p.positional_arguments_ with
    | nil => rfl
    | cons entry more =>
      obtain ⟨current, token⟩ := entry
      simp only
      rw [assignPositionalShared_unshared bounds h current p.arguments_.length 0 p.arguments_
        _ (by omega)]
      simp only [List.drop_zero, List.take_zero, List.nil_append]
      cases assignPositional current p.arguments_ ((current, token) :: more) with
      | done r => obtain ⟨r1, u⟩ := r; rfl
      | raised e r => obtain ⟨r1, u⟩ := r; rfl
  unfold ParseEndShared ParseEnd ParseValidateShared ParseValidate
  rw [hup]

/-- With no caller location bound to two arguments, `ParseShared` is `Parse`. -/
theorem ParseShared_unshared (bounds : List Bound) (h : noSharing bounds = true)
    (p : ArgParser) (args : List Str) (index : Nat) :
    ParseShared bounds p args index = Parse p args index := by
  unfold ParseShared Parse
  generalize args.length - index + 1 = fuel
  induction fuel generalizing p index with
  | zero => rfl
  | succ fuel ih =>
    simp only [ParseFuelShared, ParseFuel, ParseTokenShared_unshared bounds h,
      ParseEndShared_unshared bounds h]
    split
    · rfl
    · cases ParseToken p args index with
      | next p1 i1 => exact ih p1 i1
      | stop r => rfl

end ArgumentParser
